import Mathlib

/-!
# Fixed-point convolution + max-pooling reference and channel blocking

A shallow embedding of
`unit_tests/ult_cpu/test_cases/cpu_layer_convolution_pooling_int16_fixedpoint_avx2.cpp`.

Conventions of the embedding:

* a C buffer is a total function `Nat → Int` from cell index to cell value; a
  store is a pointwise update;
* `int32_t` / `int16_t` arithmetic is done in `Int` and brought back into range
  with `wrap32` / `wrap16` at every place where the C code stores into a
  variable of that width;
* sizes and loop counters are `Nat`; the theorems carry the size preconditions
  (`kernel ≤ input`, strides `≥ 1`) under which no unsigned subtraction of the
  source wraps.  The size formulas of `ult_perform_test` are modelled with an
  explicit reduction modulo `2 ^ 32`;
* a `for` loop whose counter runs over `0 .. n-1` is a `List.foldl` over
  `List.range n`; a loop with a stride is unrolled under a fuel bound and
  yields `none` when the fuel runs out.
-/

namespace Idlf

/-! ## Machine integers and buffers -/

/-- Two's complement reduction of an integer to the range of `int32_t`. -/
def wrap32 (x : Int) : Int := (x + 2147483648) % 4294967296 - 2147483648

/-- Two's complement reduction of an integer to the range of `int16_t`. -/
def wrap16 (x : Int) : Int := (x + 32768) % 65536 - 32768

/-- Reduction of a natural number to the range of `uint32_t`. -/
def u32 (n : Nat) : Nat := n % 4294967296

/-- Subtraction of two `uint32_t` values, wrapping modulo `2 ^ 32`. -/
def u32sub (a b : Nat) : Nat := (a % 4294967296 + 4294967296 - b % 4294967296) % 4294967296

/-- A flat C buffer: cell index to cell value. -/
abbrev Buf := Nat → Int

/-- The store `b[i] = v`. -/
def Buf.set (b : Buf) (i : Nat) (v : Int) : Buf := fun k => if k = i then v else b k

/-- The statement `b[i] += d` on an `int32_t` buffer. -/
def addAt (b : Buf) (i : Nat) (d : Int) : Buf := b.set i (wrap32 (b i + d))

/-- The call `memset(b, 0, n * sizeof(cell))`: the first `n` cells become zero. -/
def memsetZero (b : Buf) (n : Nat) : Buf := fun k => if k < n then 0 else b k

/-- The successive values of the counter of
`for (itr = start; itr < limit; itr += stride)`; `none` when the loop has not
finished within `fuel` iterations. -/
def strideIters : Nat → Nat → Nat → Nat → Option (List Nat)
  | 0, limit, _, itr => if itr < limit then none else some []
  | fuel + 1, limit, stride, itr =>
      if itr < limit then (strideIters fuel limit stride (itr + stride)).map (fun l => itr :: l)
      else some []

/-! ## The reference `ult_nn_maxpooling_naive` -/

/-- Modelled from the spec: the enumeration `NN_ACTIVATION_FUNCTION` is declared in a
header that is not part of the sources; the spec lists `None` and `ReLU`, and
`OTHER` stands for every further enumerator, which the `switch` of the
reference sends to its `default` branch. -/
inductive NN_ACTIVATION_FUNCTION where
  | NN_ACTIVATION_FUNCTION_NONE
  | NN_ACTIVATION_FUNCTION_RELU
  | OTHER
  deriving DecidableEq, Repr

open NN_ACTIVATION_FUNCTION

/-- The scalar arguments of `ult_nn_maxpooling_naive`, under the names of the source. -/
structure NaiveArgs where
  num_output_feature_maps : Nat
  num_input_feature_maps : Nat
  output_feature_map_width : Nat
  output_feature_map_height : Nat
  output_feature_map_width_int : Nat
  output_feature_map_height_int : Nat
  input_feature_map_width : Nat
  input_feature_map_height : Nat
  kernel_width : Nat
  kernel_height : Nat
  kernel_stride_x : Nat
  kernel_stride_y : Nat
  pool_width : Nat
  pool_height : Nat
  pool_stride_x : Nat
  pool_stride_y : Nat
  accumulator_fraction : Nat
  output_fraction : Nat
  center_x : Nat
  center_y : Nat
  activation : NN_ACTIVATION_FUNCTION

/-- The local constant `bool BiasEn = 1`. -/
def BiasEn : Bool := true

/-- Index of the weight read at line 691. -/
def kernel_index (a : NaiveArgs) (ofmItr ifmItr kH kW : Nat) : Nat :=
  ofmItr * a.num_input_feature_maps * a.kernel_height * a.kernel_width
    + ifmItr * a.kernel_width * a.kernel_height + a.kernel_width * kH + kW

/-- Index of the input read at line 692. -/
def input_index (a : NaiveArgs) (ifmItr hItr wItr kH kW : Nat) : Nat :=
  ifmItr * a.input_feature_map_width * a.input_feature_map_height
    + (a.input_feature_map_width * hItr + wItr) + kH * a.input_feature_map_width + kW

/-- Index of the accumulator cell that receives the products (line 693). -/
def product_index (a : NaiveArgs) (ofmItr hItr wItr : Nat) : Nat :=
  ofmItr * a.output_feature_map_width_int * a.output_feature_map_height_int
    + (hItr / a.kernel_stride_y) * a.output_feature_map_height_int + wItr / a.kernel_stride_x

/-- Index of the accumulator cell that receives the bias (line 702). -/
def bias_index (a : NaiveArgs) (ofmItr hItr wItr : Nat) : Nat :=
  ofmItr * a.output_feature_map_width_int * a.output_feature_map_height_int
    + (hItr / a.kernel_stride_y) * a.output_feature_map_width_int + wItr / a.kernel_stride_x

/-- The body of the two kernel-tap loops (lines 691-693). -/
def accumulate_tap (a : NaiveArgs) (input_ref kernel_ref : Buf) (ofmItr ifmItr hItr wItr : Nat)
    (output_int : Buf) (kH kW : Nat) : Buf :=
  let kernel_pixel := kernel_ref (kernel_index a ofmItr ifmItr kH kW)
  let ifm_pixel := input_ref (input_index a ifmItr hItr wItr kH kW)
  addAt output_int (product_index a ofmItr hItr wItr) (ifm_pixel * kernel_pixel)

/-- The body of the `wItr` loop (lines 687-702): all kernel taps, then the bias. -/
def accumulate_position (a : NaiveArgs) (input_ref kernel_ref biases_ref : Buf)
    (ofmItr ifmItr hItr wItr : Nat) (output_int : Buf) : Buf :=
  let acc := (List.range a.kernel_height).foldl
    (fun acc kH => (List.range a.kernel_width).foldl
      (fun acc kW => accumulate_tap a input_ref kernel_ref ofmItr ifmItr hItr wItr acc kH kW) acc)
    output_int
  addAt acc (bias_index a ofmItr hItr wItr)
    ((if ifmItr = 0 ∧ BiasEn = true then 1 else 0) * biases_ref ofmItr)

/-- The accumulation loops (lines 676-710); `hs` and `ws` are the values taken by
`hItr` and `wItr`. -/
def accumulate (a : NaiveArgs) (hs ws : List Nat) (input_ref kernel_ref biases_ref : Buf)
    (output_int : Buf) : Buf :=
  (List.range a.num_output_feature_maps).foldl
    (fun acc ofmItr => (List.range a.num_input_feature_maps).foldl
      (fun acc ifmItr => hs.foldl
        (fun acc hItr => ws.foldl
          (fun acc wItr =>
            accumulate_position a input_ref kernel_ref biases_ref ofmItr ifmItr hItr wItr acc)
          acc)
        acc)
      acc)
    output_int

/-- Index of the accumulator cell read at line 722 (line 718 is the case `maxY = maxX = 0`). -/
def pool_index (a : NaiveArgs) (ofmItr y x maxY maxX : Nat) : Nat :=
  ofmItr * a.output_feature_map_height_int * a.output_feature_map_width_int
    + (y * a.pool_stride_y + maxY) * a.output_feature_map_height_int + x * a.pool_stride_x + maxX

/-- The pooling loops (lines 718-724): the value of `max_t` before the activation. -/
def pool_max (a : NaiveArgs) (output_int : Buf) (ofmItr y x : Nat) : Int :=
  let max_t := output_int
    (ofmItr * a.output_feature_map_height_int * a.output_feature_map_width_int
      + y * a.pool_stride_y * a.output_feature_map_height_int + x * a.pool_stride_x)
  (List.range a.pool_stride_y).foldl
    (fun max_t maxY => (List.range a.pool_stride_x).foldl
      (fun max_t maxX => max max_t (output_int (pool_index a ofmItr y x maxY maxX))) max_t)
    max_t

/-- The `switch (activation)` of lines 726-735. -/
def activate : NN_ACTIVATION_FUNCTION → Int → Int
  | NN_ACTIVATION_FUNCTION_RELU, max_t => max 0 max_t
  | NN_ACTIVATION_FUNCTION_NONE, max_t => max_t
  | OTHER, max_t => max_t

/-- The value `acc_shift = accumulator_fraction - output_fraction` of line 712: both
operands are `uint8_t` and are promoted to `int`. -/
def acc_shift (accumulator_fraction output_fraction : Nat) : Int :=
  (accumulator_fraction : Int) - (output_fraction : Int)

/-- The rescale of lines 737-744 on the `int32_t` variable `max_t`: an arithmetic right
shift when `acc_shift` is positive, otherwise a left shift whose result is reduced to 32
bits.  Shift amounts of 32 or more are undefined in the source. -/
def rescale (accumulator_fraction output_fraction : Nat) (max_t : Int) : Int :=
  if acc_shift accumulator_fraction output_fraction > 0 then
    max_t >>> (acc_shift accumulator_fraction output_fraction).toNat
  else
    wrap32 (max_t <<< (-(acc_shift accumulator_fraction output_fraction)))

/-- The saturation of lines 746-747. -/
def saturate (max_t : Int) : Int := max (min max_t 32767) (-32768)

/-- Activation, rescale and saturation (lines 726-747) applied to a pooled maximum. -/
def post_pool (activation : NN_ACTIVATION_FUNCTION) (accumulator_fraction output_fraction : Nat)
    (max_t : Int) : Int :=
  saturate (rescale accumulator_fraction output_fraction (activate activation max_t))

/-- Index of the cell of `output_ref` written at line 748. -/
def output_index (a : NaiveArgs) (ofmItr y x : Nat) : Nat :=
  ofmItr * (a.output_feature_map_height + 2 * a.center_y)
      * (a.output_feature_map_width + 2 * a.center_x)
    + (y + a.center_y) * (a.output_feature_map_width + 2 * a.center_x) + x + a.center_x

/-- The value stored at line 748: the `int32_t` result narrowed to `int16_t`. -/
def output_value (a : NaiveArgs) (output_int : Buf) (ofmItr y x : Nat) : Int :=
  wrap16 (post_pool a.activation a.accumulator_fraction a.output_fraction
    (pool_max a output_int ofmItr y x))

/-- The output loops (lines 714-749). -/
def write_outputs (a : NaiveArgs) (output_int : Buf) (output_ref : Buf) : Buf :=
  (List.range a.num_output_feature_maps).foldl
    (fun out ofmItr => (List.range a.output_feature_map_height).foldl
      (fun out y => (List.range a.output_feature_map_width).foldl
        (fun out x => out.set (output_index a ofmItr y x) (output_value a output_int ofmItr y x))
        out)
      out)
    output_ref

/-- Number of `int16_t` cells of the padded output buffer (line 670). -/
def output_cells (a : NaiveArgs) : Nat :=
  (a.output_feature_map_width + 2 * a.center_x) * (a.output_feature_map_height + 2 * a.center_y)
    * a.num_output_feature_maps

/-- The intermediate accumulator buffer `output_int` at the end of the accumulation
loops: allocated, zeroed (lines 667-669), then accumulated into.  The buffer starts as the
all-zero function, so a cell beyond the allocated
`width_int * height_int * num_output_feature_maps` cells reads as 0. -/
def intermediate (fuel : Nat) (a : NaiveArgs) (input_ref biases_ref kernel_ref : Buf) :
    Option Buf := do
  let hs ← strideIters fuel (a.input_feature_map_height - a.kernel_height + 1) a.kernel_stride_y 0
  let ws ← strideIters fuel (a.input_feature_map_width - a.kernel_width + 1) a.kernel_stride_x 0
  pure (accumulate a hs ws input_ref kernel_ref biases_ref (fun _ => 0))

/-- The function `ult_nn_maxpooling_naive`: the content of `output_ref` on return,
`none` when a strided loop has not finished within `fuel` iterations. -/
def ult_nn_maxpooling_naive (fuel : Nat) (a : NaiveArgs)
    (input_ref output_ref biases_ref kernel_ref : Buf) : Option Buf := do
  let output_int ← intermediate fuel a input_ref biases_ref kernel_ref
  pure (write_outputs a output_int (memsetZero output_ref (output_cells a)))

/-! ## Buffer initialisation and channel blocking -/

/-- The helper `ult_nn_convolution_naive_set_input_value` (lines 357-370). -/
def ult_nn_convolution_naive_set_input_value (input_ref : Buf)
    (input_feature_map_width input_feature_map_height input_column input_row input_map : Nat)
    (value : Int) : Buf :=
  input_ref.set
    (input_column + input_row * input_feature_map_width
      + input_map * input_feature_map_width * input_feature_map_height)
    value

/-- The helper `ult_nn_convolution_naive_set_kernel_value` (lines 373-387). -/
def ult_nn_convolution_naive_set_kernel_value (kernel_ref : Buf)
    (kernel_width kernel_height num_input_feature_maps kernel_column kernel_row kernel_input_map
      kernel_output_map : Nat) (value : Int) : Buf :=
  kernel_ref.set
    (kernel_column + kernel_row * kernel_width + kernel_input_map * kernel_width * kernel_height
      + kernel_output_map * kernel_width * kernel_height * num_input_feature_maps)
    value

/-- State of a ramp-filling loop: the temporary buffer, the reference buffer, and
the `int16_t` counter `value`. -/
structure RampState where
  bufT : Buf
  buf_ref : Buf
  value : Int

/-- The input ramp loops (lines 421-436).  The counter `value` is declared inside the
outermost loop; here it is a state component that the outermost loop resets. -/
def fill_input (num_input_feature_maps input_feature_map_width input_feature_map_height : Nat)
    (s : RampState) : RampState :=
  (List.range num_input_feature_maps).foldl
    (fun s input_map => (List.range input_feature_map_height).foldl
      (fun s row => (List.range input_feature_map_width).foldl
        (fun s column =>
          { bufT := ult_nn_convolution_naive_set_input_value s.bufT input_feature_map_width
              input_feature_map_height column row input_map s.value
            buf_ref := ult_nn_convolution_naive_set_input_value s.buf_ref input_feature_map_width
              input_feature_map_height column row input_map s.value
            value := wrap16 (s.value + 1) })
        s)
      { s with value := wrap16 ((input_map : Int) * 256) })
    s

/-- The weight ramp loops (lines 438-457). -/
def fill_kernel (num_output_feature_maps num_input_feature_maps kernel_width kernel_height : Nat)
    (s : RampState) : RampState :=
  (List.range num_output_feature_maps).foldl
    (fun s outmapa => (List.range num_input_feature_maps).foldl
      (fun s input_map => (List.range kernel_height).foldl
        (fun s row => (List.range kernel_width).foldl
          (fun s column =>
            { bufT := ult_nn_convolution_naive_set_kernel_value s.bufT kernel_width kernel_height
                num_input_feature_maps column row input_map outmapa s.value
              buf_ref := ult_nn_convolution_naive_set_kernel_value s.buf_ref kernel_width
                kernel_height num_input_feature_maps column row input_map outmapa s.value
              value := wrap16 (s.value + 1) })
          s)
        { s with value := wrap16 ((input_map : Int) * 256 + (outmapa : Int) * 8192) })
      s)
    s

/-- The output zeroing loops (lines 459-470), applied to one of the two output buffers. -/
def zero_output (num_output_feature_maps output_feature_map_width output_feature_map_height
    center_x center_y : Nat) (output : Buf) : Buf :=
  (List.range num_output_feature_maps).foldl
    (fun out outmapa => (List.range (output_feature_map_height + 2 * center_y)).foldl
      (fun out row => (List.range (output_feature_map_width + 2 * center_x)).foldl
        (fun out column =>
          out.set (column + row * (output_feature_map_width + 2 * center_x)
            + outmapa * (output_feature_map_width + 2 * center_x)
              * (output_feature_map_height + 2 * center_y)) 0)
        out)
      out)
    output

/-- The bias loop (lines 473-477), applied to one of the two bias buffers. -/
def fill_biases (num_output_feature_maps : Nat) (biases : Buf) : Buf :=
  (List.range num_output_feature_maps).foldl
    (fun b outmapa => b.set outmapa (wrap32 (outmapa : Int))) biases

/-- The channel-blocking loop nest: lines 480-484 with `B = IFMBlock`, `C` input
channels and `S = width * height`, and lines 517-523 with `B = OFMOutBlock`. -/
def block_channels (B C S : Nat) (src dst : Buf) : Buf :=
  (List.range (C / B)).foldl
    (fun d i => (List.range S).foldl
      (fun d j => (List.range B).foldl
        (fun d n => d.set (n + j * B + i * S * B) (src (n * S + j + i * S * B))) d)
      d)
    dst

/-- The weight-blocking loop nest (lines 486-495). -/
def block_kernel (OFMBlock num_output_feature_maps num_input_feature_maps kernel_width
    kernel_height : Nat) (weightT kernel : Buf) : Buf :=
  let ItrIn := num_input_feature_maps / 2
  let ItrOut := num_output_feature_maps / OFMBlock
  (List.range ItrOut).foldl
    (fun d k => (List.range (kernel_width * kernel_height)).foldl
      (fun d i => (List.range ItrIn).foldl
        (fun d j => (List.range OFMBlock).foldl
          (fun d n => (List.range 2).foldl
            (fun d m =>
              d.set
                (m + 2 * n + 2 * OFMBlock * j + i * 2 * OFMBlock * ItrIn
                  + k * 2 * OFMBlock * ItrIn * kernel_width * kernel_height)
                (weightT
                  (m * kernel_width * kernel_height
                    + n * num_input_feature_maps * kernel_width * kernel_height
                    + 2 * j * kernel_width * kernel_height
                    + k * OFMBlock * num_input_feature_maps * kernel_width * kernel_height + i)))
            d)
          d)
        d)
      d)
    kernel

/-- The eight buffers handled by the test. -/
structure Matrices where
  input : Buf
  output : Buf
  biases : Buf
  kernel : Buf
  input_ref : Buf
  output_ref : Buf
  biases_ref : Buf
  kernel_ref : Buf

/-- The local `IFMBlock` of lines 416-419. -/
def IFMBlock (num_input_feature_maps : Nat) : Nat :=
  if num_input_feature_maps = 4 then 4 else 8

/-- The function `ult_nn_convolution_both_initialize_matrices`; `m` holds the contents
of the eight buffers on entry, `inputT` and `weightT` the contents of the two
freshly allocated temporaries. -/
def ult_nn_convolution_both_initialize_matrices (m : Matrices) (inputT weightT : Buf)
    (num_output_feature_maps num_input_feature_maps output_feature_map_width
      output_feature_map_height input_feature_map_width input_feature_map_height kernel_width
      kernel_height center_x center_y : Nat) : Matrices :=
  let OFMBlock := 32
  let si := fill_input num_input_feature_maps input_feature_map_width input_feature_map_height
    { bufT := inputT, buf_ref := m.input_ref, value := 0 }
  let sk := fill_kernel num_output_feature_maps num_input_feature_maps kernel_width kernel_height
    { bufT := weightT, buf_ref := m.kernel_ref, value := 0 }
  { input := block_channels (IFMBlock num_input_feature_maps) num_input_feature_maps
      (input_feature_map_width * input_feature_map_height) si.bufT m.input
    output := zero_output num_output_feature_maps output_feature_map_width
      output_feature_map_height center_x center_y m.output
    biases := fill_biases num_output_feature_maps m.biases
    kernel := block_kernel OFMBlock num_output_feature_maps num_input_feature_maps kernel_width
      kernel_height sk.bufT m.kernel
    input_ref := si.buf_ref
    output_ref := zero_output num_output_feature_maps output_feature_map_width
      output_feature_map_height center_x center_y m.output_ref
    biases_ref := fill_biases num_output_feature_maps m.biases_ref
    kernel_ref := sk.buf_ref }

/-- The destination of canonical cell `k = c * S + j` under channel blocking with
factor `B`: `(c mod B) + j * B + (c div B) * S * B`. -/
def blocked_index (B S k : Nat) : Nat :=
  (k / S) % B + (k % S) * B + (k / S / B) * S * B

/-- The inverse gather of channel blocking: canonical cell `k` is fetched from its
blocked position. -/
def unblock_channels (B S : Nat) (blocked : Buf) : Buf :=
  fun k => blocked (blocked_index B S k)

/-- The function `ult_nn_convolution_check_outputs` (lines 502-533): `outputOpt` is the data
buffer of the optimized output, `outputT` the content of the freshly allocated temporary on
entry.  The comparison loop `for (i = 0; i < n && passed; i++)` is a fold over all `i < n`
that does nothing once `passed` is false. -/
def ult_nn_convolution_check_outputs (outputOpt output_ref outputT : Buf)
    (num_output_feature_maps output_feature_map_width output_feature_map_height center_x
      center_y : Nat) : Bool :=
  let OFMOutBlock := 8
  let outputT := block_channels OFMOutBlock num_output_feature_maps
    ((output_feature_map_width + 2 * center_x) * (output_feature_map_height + 2 * center_y))
    output_ref outputT
  (List.range ((output_feature_map_width + 2 * center_x)
      * (output_feature_map_height + 2 * center_y) * num_output_feature_maps)).foldl
    (fun passed i => if passed = true ∧ outputT i ≠ outputOpt i then false else passed) true

/-! ## The sizes computed by `ult_perform_test` -/

/-- The constant `C_simd_width = sizeof(__m256) / sizeof(int32_t)` (line 39). -/
def C_simd_width : Nat := 32 / 4

/-- The sizes computed at lines 799-805 of `ult_perform_test`, in `uint32_t` arithmetic. -/
structure TestSizes where
  output_feature_map_width : Nat
  output_feature_map_height : Nat
  output_feature_map_width_int : Nat
  output_feature_map_height_int : Nat
  num_output_feature_maps : Nat
  deriving DecidableEq, Repr

/-- The expression `(in - kernel) / stride + 1` of lines 802-803. -/
def conv_size (inp kernel stride : Nat) : Nat :=
  u32 (u32sub inp kernel / stride + 1)

/-- The expression `(((in - kernel) / stride + 1) - pool_size) / pool_stride + 1` of
lines 799-800. -/
def pooled_size (inp kernel stride pool_size pool_stride : Nat) : Nat :=
  u32 (u32sub (conv_size inp kernel stride) pool_size / pool_stride + 1)

/-- Lines 799-805 of `ult_perform_test`. -/
def ult_perform_test_sizes (num_output_feature_maps input_feature_map_width
    input_feature_map_height kernel_width kernel_height kernel_stride_x kernel_stride_y
    pool_stride_x pool_stride_y pool_size_x pool_size_y : Nat) : TestSizes :=
  { output_feature_map_width :=
      pooled_size input_feature_map_width kernel_width kernel_stride_x pool_size_x pool_stride_x
    output_feature_map_height :=
      pooled_size input_feature_map_height kernel_height kernel_stride_y pool_size_y pool_stride_y
    output_feature_map_width_int := conv_size input_feature_map_width kernel_width kernel_stride_x
    output_feature_map_height_int :=
      conv_size input_feature_map_height kernel_height kernel_stride_y
    num_output_feature_maps :=
      u32 (num_output_feature_maps
        + u32sub C_simd_width (num_output_feature_maps % C_simd_width) % C_simd_width) }

/-! ## Loop nests as lists of stores

The definitions below are used only in proofs: a loop nest whose stores do not depend on
the buffer it writes is the list of its stores, applied in order. -/

/-- The stores `b[e.1] = e.2`, in list order. -/
def applyWrites (es : List (Nat × Int)) (b : Buf) : Buf :=
  es.foldl (fun b e => b.set e.1 e.2) b

/-- The statements `b[e.1] += e.2`, in list order. -/
def applyAdds (es : List (Nat × Int)) (b : Buf) : Buf :=
  es.foldl (fun b e => addAt b e.1 e.2) b

/-- The exact sum of the addends that `es` sends to cell `k`. -/
def sumAt (k : Nat) (es : List (Nat × Int)) : Int :=
  (es.map (fun e => if e.1 = k then e.2 else 0)).sum

/-- The stores of the output loops (lines 714-749), in program order. -/
def write_events (a : NaiveArgs) (output_int : Buf) : List (Nat × Int) :=
  (List.range a.num_output_feature_maps).flatMap fun ofmItr =>
    (List.range a.output_feature_map_height).flatMap fun y =>
      (List.range a.output_feature_map_width).map fun x =>
        (output_index a ofmItr y x, output_value a output_int ofmItr y x)

/-- The stores of the channel-blocking loop nest, in program order. -/
def block_events (B C S : Nat) (src : Buf) : List (Nat × Int) :=
  (List.range (C / B)).flatMap fun i =>
    (List.range S).flatMap fun j =>
      (List.range B).map fun n => (n + j * B + i * S * B, src (n * S + j + i * S * B))

/-- The accumulations of one stencil placement (lines 687-702), in program order. -/
def position_events (a : NaiveArgs) (input_ref kernel_ref biases_ref : Buf)
    (ofmItr ifmItr hItr wItr : Nat) : List (Nat × Int) :=
  ((List.range a.kernel_height).flatMap fun kH =>
    (List.range a.kernel_width).map fun kW =>
      (product_index a ofmItr hItr wItr,
        input_ref (input_index a ifmItr hItr wItr kH kW)
          * kernel_ref (kernel_index a ofmItr ifmItr kH kW)))
  ++ [(bias_index a ofmItr hItr wItr,
        (if ifmItr = 0 ∧ BiasEn = true then 1 else 0) * biases_ref ofmItr)]

/-- The accumulations of the loops of lines 676-710, in program order. -/
def accumulate_events (a : NaiveArgs) (hs ws : List Nat) (input_ref kernel_ref biases_ref : Buf) :
    List (Nat × Int) :=
  (List.range a.num_output_feature_maps).flatMap fun ofmItr =>
    (List.range a.num_input_feature_maps).flatMap fun ifmItr =>
      hs.flatMap fun hItr =>
        ws.flatMap fun wItr =>
          position_events a input_ref kernel_ref biases_ref ofmItr ifmItr hItr wItr

/-- The values taken by the counter of `for (itr = 0; itr < limit; itr += stride)`. -/
def stride_positions (limit stride : Nat) : List Nat :=
  List.range' 0 ((limit - 0 + stride - 1) / stride) stride

/-- Height of one channel of the padded output buffer. -/
def padded_height (a : NaiveArgs) : Nat := a.output_feature_map_height + 2 * a.center_y

/-- Width of one channel of the padded output buffer. -/
def padded_width (a : NaiveArgs) : Nat := a.output_feature_map_width + 2 * a.center_x

/-- The exact accumulator of the contract for output map `o` and convolution position
`(h, w)`: the bias plus the sum, over input maps and kernel taps, of
`input[i, h * stride_y + kH, w * stride_x + kW] * weight[o, i, kH, kW]`, both tensors being
canonical (channel-major, then row, then column). -/
def conv_sum (a : NaiveArgs) (input_ref kernel_ref biases_ref : Buf) (o h w : Nat) : Int :=
  biases_ref o
    + ((List.range a.num_input_feature_maps).map fun i =>
        ((List.range a.kernel_height).map fun kH =>
          ((List.range a.kernel_width).map fun kW =>
            input_ref ((i * a.input_feature_map_height + (h * a.kernel_stride_y + kH))
                * a.input_feature_map_width + (w * a.kernel_stride_x + kW))
              * kernel_ref (((o * a.num_input_feature_maps + i) * a.kernel_height + kH)
                * a.kernel_width + kW)).sum).sum).sum

/-- The destination index of the weight-blocking store of lines 494-495 for the loop
counters `k, i, j, n, m`, with `ItrIn = num_input_feature_maps / 2`. -/
def kernel_dest (OFMBlock ItrIn kernel_width kernel_height k i j n m : Nat) : Nat :=
  m + 2 * n + 2 * OFMBlock * j + i * 2 * OFMBlock * ItrIn
    + k * 2 * OFMBlock * ItrIn * kernel_width * kernel_height

/-- The source index of the weight-blocking store of lines 494-495. -/
def kernel_src (OFMBlock num_input_feature_maps kernel_width kernel_height k i j n m : Nat) :
    Nat :=
  m * kernel_width * kernel_height + n * num_input_feature_maps * kernel_width * kernel_height
    + 2 * j * kernel_width * kernel_height
    + k * OFMBlock * num_input_feature_maps * kernel_width * kernel_height + i

/-- The stores of the weight-blocking loop nest, in program order. -/
def kernel_events (OFMBlock num_output_feature_maps num_input_feature_maps kernel_width
    kernel_height : Nat) (weightT : Buf) : List (Nat × Int) :=
  (List.range (num_output_feature_maps / OFMBlock)).flatMap fun k =>
    (List.range (kernel_width * kernel_height)).flatMap fun i =>
      (List.range (num_input_feature_maps / 2)).flatMap fun j =>
        (List.range OFMBlock).flatMap fun n =>
          (List.range 2).map fun m =>
            (kernel_dest OFMBlock (num_input_feature_maps / 2) kernel_width kernel_height k i j n m,
              weightT (kernel_src OFMBlock num_input_feature_maps kernel_width kernel_height
                k i j n m))

/-- The blocked offset of the canonical weight cell `s = (o * IFM + c) * (KW * KH) + t`
(output map `o`, input map `c`, kernel tap `t = row * KW + column`). -/
def kernel_blocked_index (OFMBlock IFM KW KH s : Nat) : Nat :=
  kernel_dest OFMBlock (IFM / 2) KW KH (s / (KW * KH) / IFM / OFMBlock) (s % (KW * KH))
    (s / (KW * KH) % IFM / 2) (s / (KW * KH) / IFM % OFMBlock) (s / (KW * KH) % IFM % 2)

/-- The inverse gather of weight blocking: canonical cell `s` is fetched from its blocked
position. -/
def unblock_kernel (OFMBlock IFM KW KH : Nat) (blocked : Buf) : Buf :=
  fun s => blocked (kernel_blocked_index OFMBlock IFM KW KH s)

/-- The offset in the blocked `kernel` buffer of the canonical weight of output map `o`,
input map `c`, kernel row `kr` and kernel column `kc`, with `OFMBlock = 32`. -/
def weight_offset (IFM KW KH o c kr kc : Nat) : Nat :=
  kernel_blocked_index 32 IFM KW KH (kc + kr * KW + c * KW * KH + o * KW * KH * IFM)

/-- A store or addition with its value replaced by the magnitude of the value. -/
def absEvent (e : Nat × Int) : Nat × Int := (e.1, |e.2|)

/-- The buffer of the magnitudes of the cells of `b`. -/
def absBuf (b : Buf) : Buf := fun k => |b k|

/-- A permutation of the `n` input channels as a map on channel numbers. -/
def permNat {n : Nat} (p : Equiv.Perm (Fin n)) (i : Nat) : Nat :=
  if h : i < n then (p ⟨i, h⟩ : Nat) else i

/-- The canonical input tensor (`IFM` channels of `S` cells) with its channel axis permuted:
channel `i` of the result is channel `p i` of `input_ref`. -/
def permute_input (IFM S : Nat) (p : Equiv.Perm (Fin IFM)) (input_ref : Buf) : Buf :=
  fun k => input_ref (permNat p (k / S) * S + k % S)

/-- The canonical weight tensor (per output map `IFM` input maps of `K` taps) with its
input-channel axis permuted: input map `i` of the result is input map `p i` of
`kernel_ref`. -/
def permute_kernel (IFM K : Nat) (p : Equiv.Perm (Fin IFM)) (kernel_ref : Buf) : Buf :=
  fun k => kernel_ref ((k / K / IFM * IFM + permNat p (k / K % IFM)) * K + k % K)

/-- The sum of the products of one stencil placement (lines 687-693). -/
def tap_sum (a : NaiveArgs) (input_ref kernel_ref : Buf) (o i h w : Nat) : Int :=
  ((List.range a.kernel_height).map fun kH =>
    ((List.range a.kernel_width).map fun kW =>
      input_ref (input_index a i h w kH kW) * kernel_ref (kernel_index a o i kH kW)).sum).sum

/-- The exact sum of the products that output map `o` and input map `i` send to
accumulator cell `k`. -/
def chan_sum (a : NaiveArgs) (input_ref kernel_ref : Buf) (hs ws : List Nat) (k o i : Nat) :
    Int :=
  (hs.map fun h => (ws.map fun w =>
    if product_index a o h w = k then tap_sum a input_ref kernel_ref o i h w else 0).sum).sum

/-- The exact sum of the bias additions that output map `o` and input map `i` send to
accumulator cell `k`. -/
def bias_sum (a : NaiveArgs) (biases_ref : Buf) (hs ws : List Nat) (k o i : Nat) : Int :=
  (hs.map fun h => (ws.map fun w =>
    if bias_index a o h w = k then
      (if i = 0 ∧ BiasEn = true then 1 else 0) * biases_ref o
    else 0).sum).sum

/-! ## The test driver `ult_perform_test` -/

/-- The arguments `ult_perform_test` passes to `ult_nn_maxpooling_naive` (lines 852-877). -/
def test_args (sz : TestSizes) (num_input_feature_maps input_feature_map_width
    input_feature_map_height kernel_width kernel_height kernel_stride_x kernel_stride_y
    pool_stride_x pool_stride_y pool_size_x pool_size_y accumulator_fraction output_fraction
    center_x center_y : Nat) (activation : NN_ACTIVATION_FUNCTION) : NaiveArgs :=
  { num_output_feature_maps := sz.num_output_feature_maps
    num_input_feature_maps := num_input_feature_maps
    output_feature_map_width := sz.output_feature_map_width
    output_feature_map_height := sz.output_feature_map_height
    output_feature_map_width_int := sz.output_feature_map_width_int
    output_feature_map_height_int := sz.output_feature_map_height_int
    input_feature_map_width := input_feature_map_width
    input_feature_map_height := input_feature_map_height
    kernel_width := kernel_width
    kernel_height := kernel_height
    kernel_stride_x := kernel_stride_x
    kernel_stride_y := kernel_stride_y
    pool_width := pool_size_x
    pool_height := pool_size_y
    pool_stride_x := pool_stride_x
    pool_stride_y := pool_stride_y
    accumulator_fraction := accumulator_fraction
    output_fraction := output_fraction
    center_x := center_x
    center_y := center_y
    activation := activation }

/-! ## The composed pipeline of the contract -/

/-- The maximum, over the pooling window of `pool_height` by `pool_width` convolution
positions whose first position is `(y * pool_stride_y, x * pool_stride_x)`, of the contract
sums of output map `o` reduced to 32 bits. -/
def pipeline_max (a : NaiveArgs) (input_ref kernel_ref biases_ref : Buf) (o y x : Nat) : Int :=
  (List.range a.pool_height).foldl
    (fun m dy => (List.range a.pool_width).foldl
      (fun m dx => max m (wrap32 (conv_sum a input_ref kernel_ref biases_ref o
        (y * a.pool_stride_y + dy) (x * a.pool_stride_x + dx))))
      m)
    (wrap32 (conv_sum a input_ref kernel_ref biases_ref o (y * a.pool_stride_y)
      (x * a.pool_stride_x)))

/-- The composed pipeline `clamp16(rescale(act(max over the window of the contract sums)))`
for pooled position `(y, x)` of output map `o`. -/
def pipeline_output (a : NaiveArgs) (input_ref kernel_ref biases_ref : Buf) (o y x : Nat) :
    Int :=
  saturate (rescale a.accumulator_fraction a.output_fraction
    (activate a.activation (pipeline_max a input_ref kernel_ref biases_ref o y x)))

/-! ## Closed forms of the ramp fills -/

/-- The state `s` of a ramp-filling loop after `p` cells of a run that starts at cell `base`
with the counter at `wrap16 v0`: the counter has advanced by `p`, the cells
`base, ..., base + p - 1` of the reference buffer hold the successive counter values, and
every other cell is as in `old`. -/
def RampUpTo (old : Buf) (base : Nat) (v0 : Int) (p : Nat) (s : RampState) : Prop :=
  s.value = wrap16 (v0 + (p : Int))
  ∧ ∀ k, s.buf_ref k
      = if base ≤ k ∧ k < base + p then wrap16 (v0 + ((k - base : Nat) : Int)) else old k

/-- The reference buffer of `s` holds `F` on its first `p` cells and is as in `old` on the
others. -/
def FilledUpTo (old F : Buf) (p : Nat) (s : RampState) : Prop :=
  ∀ k, s.buf_ref k = if k < p then F k else old k

/-- The value the input ramp stores in canonical cell `k` (channel `k / (W * H)`, position
`k % (W * H)` inside the channel). -/
def input_ramp (W H : Nat) : Buf :=
  fun k => wrap16 (((k / (W * H) : Nat) : Int) * 256 + ((k % (W * H) : Nat) : Int))

/-- The value the weight ramp stores in canonical cell `k` (output map `k / (KW * KH) / IFM`,
input map `k / (KW * KH) % IFM`, tap `k % (KW * KH)`). -/
def kernel_ramp (IFM KW KH : Nat) : Buf :=
  fun k => wrap16 (((k / (KW * KH) % IFM : Nat) : Int) * 256
    + ((k / (KW * KH) / IFM : Nat) : Int) * 8192 + ((k % (KW * KH) : Nat) : Int))

/-! ## The weight layout declared by `ult_nn_convolution_initialize_work_item` -/

/-- Modelled from the spec: the enumeration of the six tensor axes `NN_DATA_COORD_*` is
declared in a header that is not part of the sources. -/
inductive NN_DATA_COORD where
  | NN_DATA_COORD_n
  | NN_DATA_COORD_x
  | NN_DATA_COORD_y
  | NN_DATA_COORD_z
  | NN_DATA_COORD_p
  | NN_DATA_COORD_q
  deriving DecidableEq, Repr

open NN_DATA_COORD

/-- The locals `OFMBlock` and `OFMpBlock` of lines 72-73. -/
def OFMBlock : Nat := 32

def OFMpBlock : Nat := 2

/-- The `ordering` field of `weight_layout` (line 102). -/
def weight_layout : List NN_DATA_COORD :=
  [NN_DATA_COORD_y, NN_DATA_COORD_p, NN_DATA_COORD_z, NN_DATA_COORD_n, NN_DATA_COORD_x,
    NN_DATA_COORD_q]

/-- The extents `weight_coords` of lines 157-165; the initialiser lists them in the field
order `n, x, y, z, p, q` of `nn_workload_data_coords_t`. -/
def weight_coords (kernel_width kernel_height num_input_feature_maps num_output_feature_maps :
    Nat) : NN_DATA_COORD → Nat
  | NN_DATA_COORD_n => kernel_width
  | NN_DATA_COORD_x => kernel_height
  | NN_DATA_COORD_y => OFMpBlock
  | NN_DATA_COORD_z => num_input_feature_maps / OFMpBlock
  | NN_DATA_COORD_p => OFMBlock
  | NN_DATA_COORD_q => num_output_feature_maps / OFMBlock

/-- Modelled from the spec: the linear offset of the element at `coord` in a tensor of
extents `size` whose layout lists its axes in `ordering`, fastest first, without tiling or
alignment; the layout type and its addressing are declared in a header that is not part of
the sources. -/
def layout_offset (ordering : List NN_DATA_COORD) (size coord : NN_DATA_COORD → Nat) : Nat :=
  ordering.foldr (fun ax rest => coord ax + size ax * rest) 0

/-- The position on the six axes of the canonical weight of output map `o`, input map `c`,
kernel row `kr` and kernel column `kc`: input map within its pair on `y`, output map within
its block on `p`, input-map pair on `z`, kernel column on `n`, kernel row on `x`, output
block on `q`. -/
def weight_position (o c kr kc : Nat) : NN_DATA_COORD → Nat
  | NN_DATA_COORD_n => kc
  | NN_DATA_COORD_x => kr
  | NN_DATA_COORD_y => c % OFMpBlock
  | NN_DATA_COORD_z => c / OFMpBlock
  | NN_DATA_COORD_p => o % OFMBlock
  | NN_DATA_COORD_q => o / OFMBlock

/-! ## The work item and the optimized engine -/

/-- The local `OFMOutBlock` of line 74. -/
def OFMOutBlock : Nat := 8

/-- The extents `input_coords` of lines 106-114, in the field order `n, x, y, z, p, q`. -/
def input_coords (input_feature_map_width input_feature_map_height num_input_feature_maps :
    Nat) : NN_DATA_COORD → Nat
  | NN_DATA_COORD_n => 1
  | NN_DATA_COORD_x => input_feature_map_width
  | NN_DATA_COORD_y => input_feature_map_height
  | NN_DATA_COORD_z => num_input_feature_maps / IFMBlock num_input_feature_maps
  | NN_DATA_COORD_p => IFMBlock num_input_feature_maps
  | NN_DATA_COORD_q => 1

/-- The extents `output_coords` of lines 116-124. -/
def output_coords (num_output_feature_maps output_feature_map_width output_feature_map_height
    center_x center_y : Nat) : NN_DATA_COORD → Nat
  | NN_DATA_COORD_n => 1
  | NN_DATA_COORD_x => output_feature_map_width + 2 * center_x
  | NN_DATA_COORD_y => output_feature_map_height + 2 * center_y
  | NN_DATA_COORD_z => num_output_feature_maps / OFMOutBlock
  | NN_DATA_COORD_p => OFMOutBlock
  | NN_DATA_COORD_q => 1

/-- The first coordinates `nn_view_begin` of the output view (lines 127-135). -/
def nn_view_begin (center_x center_y : Nat) : NN_DATA_COORD → Nat
  | NN_DATA_COORD_n => 0
  | NN_DATA_COORD_x => center_x
  | NN_DATA_COORD_y => center_y
  | NN_DATA_COORD_z => 0
  | NN_DATA_COORD_p => 0
  | NN_DATA_COORD_q => 0

/-- The last coordinates `nn_view_end` of the output view (lines 137-145). -/
def nn_view_end (num_output_feature_maps output_feature_map_width output_feature_map_height
    center_x center_y : Nat) : NN_DATA_COORD → Nat
  | NN_DATA_COORD_n => 0
  | NN_DATA_COORD_x => output_feature_map_width + center_x - 1
  | NN_DATA_COORD_y => output_feature_map_height + center_y - 1
  | NN_DATA_COORD_z => num_output_feature_maps / OFMOutBlock - 1
  | NN_DATA_COORD_p => OFMOutBlock - 1
  | NN_DATA_COORD_q => 0

/-- The extents `bias_coords` of lines 147-155. -/
def bias_coords (num_output_feature_maps : Nat) : NN_DATA_COORD → Nat
  | NN_DATA_COORD_n => 1
  | NN_DATA_COORD_x => 1
  | NN_DATA_COORD_y => 1
  | NN_DATA_COORD_z => num_output_feature_maps
  | NN_DATA_COORD_p => 1
  | NN_DATA_COORD_q => 1

/-- Modelled from the spec: the types `nn_workload_item` and `nn_workload_data_t` are declared
in headers that are not part of the sources.  The structure holds what
`ult_nn_convolution_initialize_work_item` stores in the work item and in its input item
(lines 166-199): the extents of the four tensors, the two corners of the output view, the
kernel strides, the centre offset, the activation, the two fractions, and the contents of the
four data buffers.  The work item has the type
`NN_WORK_ITEM_TYPE_CONVOLUTION_POOLING_MAX_2x2_STRIDE_2x2_INT16_FIXEDPOINT` and holds neither a
pooling size nor a pooling stride. -/
structure WorkItem where
  input_coords : NN_DATA_COORD → Nat
  output_coords : NN_DATA_COORD → Nat
  nn_view_begin : NN_DATA_COORD → Nat
  nn_view_end : NN_DATA_COORD → Nat
  bias_coords : NN_DATA_COORD → Nat
  weight_coords : NN_DATA_COORD → Nat
  stride : Nat × Nat
  center_offset : Nat × Nat
  activation : NN_ACTIVATION_FUNCTION
  accumulator_fraction : Nat
  output_fraction : Nat
  input : Buf
  output : Buf
  biases : Buf
  weights : Buf

set_option linter.unusedVariables false in
/-- The function `ult_nn_convolution_initialize_work_item` (lines 44-200).  The four pooling
parameters are received and never used. -/
def ult_nn_convolution_initialize_work_item (input biases output kernel : Buf)
    (num_output_feature_maps num_input_feature_maps output_feature_map_width
      output_feature_map_height input_feature_map_width input_feature_map_height kernel_width
      kernel_height kernel_stride_x kernel_stride_y pool_stride_x pool_stride_y pool_size_x
      pool_size_y accumulator_fraction output_fraction center_x center_y : Nat)
    (activation : NN_ACTIVATION_FUNCTION) : WorkItem :=
  { input_coords := input_coords input_feature_map_width input_feature_map_height
      num_input_feature_maps
    output_coords := output_coords num_output_feature_maps output_feature_map_width
      output_feature_map_height center_x center_y
    nn_view_begin := nn_view_begin center_x center_y
    nn_view_end := nn_view_end num_output_feature_maps output_feature_map_width
      output_feature_map_height center_x center_y
    bias_coords := bias_coords num_output_feature_maps
    weight_coords := weight_coords kernel_width kernel_height num_input_feature_maps
      num_output_feature_maps
    stride := (kernel_stride_x, kernel_stride_y)
    center_offset := (center_x, center_y)
    activation := activation
    accumulator_fraction := accumulator_fraction
    output_fraction := output_fraction
    input := input
    output := output
    biases := biases
    weights := kernel }

/-- Modelled from the spec: the parameters of the algorithm of section 4.2 as the optimized
engine, which is not part of the sources, finds them in a work item.  Channel counts and
sizes are read off the tensor extents and the output view, the convolution size is given by
the size formula of section 3, and the pooling window is the 2x2 window with stride 2 that
the type of the work item names. -/
def engine_args (wi : WorkItem) : NaiveArgs :=
  { num_output_feature_maps :=
      wi.output_coords NN_DATA_COORD_z * wi.output_coords NN_DATA_COORD_p
    num_input_feature_maps := wi.input_coords NN_DATA_COORD_z * wi.input_coords NN_DATA_COORD_p
    output_feature_map_width :=
      wi.nn_view_end NN_DATA_COORD_x + 1 - wi.nn_view_begin NN_DATA_COORD_x
    output_feature_map_height :=
      wi.nn_view_end NN_DATA_COORD_y + 1 - wi.nn_view_begin NN_DATA_COORD_y
    output_feature_map_width_int :=
      (wi.input_coords NN_DATA_COORD_x - wi.weight_coords NN_DATA_COORD_n) / wi.stride.1 + 1
    output_feature_map_height_int :=
      (wi.input_coords NN_DATA_COORD_y - wi.weight_coords NN_DATA_COORD_x) / wi.stride.2 + 1
    input_feature_map_width := wi.input_coords NN_DATA_COORD_x
    input_feature_map_height := wi.input_coords NN_DATA_COORD_y
    kernel_width := wi.weight_coords NN_DATA_COORD_n
    kernel_height := wi.weight_coords NN_DATA_COORD_x
    kernel_stride_x := wi.stride.1
    kernel_stride_y := wi.stride.2
    pool_width := 2
    pool_height := 2
    pool_stride_x := 2
    pool_stride_y := 2
    accumulator_fraction := wi.accumulator_fraction
    output_fraction := wi.output_fraction
    center_x := wi.center_offset.1
    center_y := wi.center_offset.2
    activation := wi.activation }

/-- Modelled from the spec: the result of the optimized engine, which is not part of the
sources, in canonical order (output map, then row, then column of the padded output).  The
spec treats the engine as "a black box that must satisfy the contract of §4.2" on "blocked
tensors": inside the output view, cell `(o, row, col)` holds the value that steps 1 to 6 of
section 4.2 give for pooled position `(row - begin, col - begin)` on the de-blocked input
and weight tensors; outside the view the output tensor keeps what it held. -/
def engine_canonical (wi : WorkItem) : Buf := fun k =>
  let a := engine_args wi
  let plane := wi.output_coords NN_DATA_COORD_x * wi.output_coords NN_DATA_COORD_y
  let o := k / plane
  let row := k % plane / wi.output_coords NN_DATA_COORD_x
  let col := k % plane % wi.output_coords NN_DATA_COORD_x
  if o < a.num_output_feature_maps
      ∧ wi.nn_view_begin NN_DATA_COORD_y ≤ row ∧ row ≤ wi.nn_view_end NN_DATA_COORD_y
      ∧ wi.nn_view_begin NN_DATA_COORD_x ≤ col ∧ col ≤ wi.nn_view_end NN_DATA_COORD_x then
    pipeline_output a
      (unblock_channels (wi.input_coords NN_DATA_COORD_p)
        (a.input_feature_map_width * a.input_feature_map_height) wi.input)
      (unblock_kernel (wi.weight_coords NN_DATA_COORD_p) a.num_input_feature_maps
        a.kernel_width a.kernel_height wi.weights)
      wi.biases o (row - wi.nn_view_begin NN_DATA_COORD_y)
      (col - wi.nn_view_begin NN_DATA_COORD_x)
  else unblock_channels (wi.output_coords NN_DATA_COORD_p) plane wi.output k

/-- One output map, one input map, 3x3 input, 2x2 kernel, stride 1, 2x2 pooling with stride 2,
ReLU, equal fractions, and a halo of one cell on every side. -/
def haloArgs : NaiveArgs :=
  { num_output_feature_maps := 1, num_input_feature_maps := 1,
    output_feature_map_width := 1, output_feature_map_height := 1,
    output_feature_map_width_int := 2, output_feature_map_height_int := 2,
    input_feature_map_width := 3, input_feature_map_height := 3,
    kernel_width := 2, kernel_height := 2, kernel_stride_x := 1, kernel_stride_y := 1,
    pool_width := 2, pool_height := 2, pool_stride_x := 2, pool_stride_y := 2,
    accumulator_fraction := 0, output_fraction := 0, center_x := 1, center_y := 1,
    activation := NN_ACTIVATION_FUNCTION_RELU }

/-- The buffer whose cell `k` holds `k`. -/
def rampBuf : Buf := fun k => (k : Int)

/-- The buffer whose cells all hold `v`. -/
def constBuf (v : Int) : Buf := fun _ => v

/-- Eight buffers that all hold `v` in every cell. -/
def constMatrices (v : Int) : Matrices :=
  { input := constBuf v, output := constBuf v, biases := constBuf v, kernel := constBuf v,
    input_ref := constBuf v, output_ref := constBuf v, biases_ref := constBuf v,
    kernel_ref := constBuf v }

/-- The scenario of the first (disabled) test call: 8 output maps, 1 input map, 5x5 input,
2x2 kernel, stride 1, 2x2 max pooling with stride 2, ReLU, fractions 16 and 0, no halo. -/
def scenarioArgs : NaiveArgs :=
  { num_output_feature_maps := 8, num_input_feature_maps := 1,
    output_feature_map_width := 2, output_feature_map_height := 2,
    output_feature_map_width_int := 4, output_feature_map_height_int := 4,
    input_feature_map_width := 5, input_feature_map_height := 5,
    kernel_width := 2, kernel_height := 2, kernel_stride_x := 1, kernel_stride_y := 1,
    pool_width := 2, pool_height := 2, pool_stride_x := 2, pool_stride_y := 2,
    accumulator_fraction := 16, output_fraction := 0, center_x := 0, center_y := 0,
    activation := NN_ACTIVATION_FUNCTION_RELU }

/-- The hand-computed accumulator of the scenario at output map `o` and convolution position
`(h, w)`: `bias[o] + sum over kh, kw < 2 of input[h + kh, w + kw] * weight[o, kh, kw]`,
with a 5x5 input and 2x2 weights, written out. -/
def scenario_acc (input_ref kernel_ref biases_ref : Buf) (o h w : Nat) : Int :=
  biases_ref o
    + (input_ref (h * 5 + w) * kernel_ref (o * 4)
      + input_ref (h * 5 + (w + 1)) * kernel_ref (o * 4 + 1)
      + input_ref ((h + 1) * 5 + w) * kernel_ref (o * 4 + 2)
      + input_ref ((h + 1) * 5 + (w + 1)) * kernel_ref (o * 4 + 3))

/-- The hand-computed output of the scenario at output map `o` and pooled position `(y, x)`:
maximum over the 2x2 window, ReLU, shift right by 16, saturation. -/
def scenario_cell (input_ref kernel_ref biases_ref : Buf) (o y x : Nat) : Int :=
  saturate
    (max 0
        (max
          (max (scenario_acc input_ref kernel_ref biases_ref o (2 * y) (2 * x))
            (scenario_acc input_ref kernel_ref biases_ref o (2 * y) (2 * x + 1)))
          (max (scenario_acc input_ref kernel_ref biases_ref o (2 * y + 1) (2 * x))
            (scenario_acc input_ref kernel_ref biases_ref o (2 * y + 1) (2 * x + 1))))
      / 65536)

/-- The weight ramp of the scenario: cell `o * 4 + t` holds `o * 8192 + t` as a 16-bit
value. -/
def scenarioKernel : Buf := fun k => wrap16 (((k / 4 : Nat) : Int) * 8192 + ((k % 4 : Nat) : Int))

/-- A shape whose convolution output is not square: one output map, one input map, an input
of 2 rows by 3 columns, a 1x1 kernel, stride 1, so that `H_int = 2` and `W_int = 3`. -/
def nonSquareArgs : NaiveArgs :=
  { num_output_feature_maps := 1, num_input_feature_maps := 1,
    output_feature_map_width := 3, output_feature_map_height := 2,
    output_feature_map_width_int := 3, output_feature_map_height_int := 2,
    input_feature_map_width := 3, input_feature_map_height := 2,
    kernel_width := 1, kernel_height := 1, kernel_stride_x := 1, kernel_stride_y := 1,
    pool_width := 1, pool_height := 1, pool_stride_x := 1, pool_stride_y := 1,
    accumulator_fraction := 0, output_fraction := 0, center_x := 0, center_y := 0,
    activation := NN_ACTIVATION_FUNCTION_NONE }

/-- The shape built by `ult_perform_test` for 8 output maps, 1 input map, an input 1 wide
and 3 high, a 1x1 kernel, stride 1, a 1x1 pooling window with stride 1, no activation, equal
fractions, no halo: the convolution output is 1 wide and 3 high. -/
def tallArgs : NaiveArgs :=
  test_args (ult_perform_test_sizes 8 1 3 1 1 1 1 1 1 1 1) 1 1 3 1 1 1 1 1 1 1 1 0 0 0 0
    NN_ACTIVATION_FUNCTION_NONE

/-- A shape whose pooling window differs from the pooling step: one output map, one input
map, 2x2 input, 1x1 kernel, stride 1, 2x2 pooling window with stride 1; the size formula
gives a 1x1 output. -/
def poolArgs : NaiveArgs :=
  { num_output_feature_maps := 1, num_input_feature_maps := 1,
    output_feature_map_width := 1, output_feature_map_height := 1,
    output_feature_map_width_int := 2, output_feature_map_height_int := 2,
    input_feature_map_width := 2, input_feature_map_height := 2,
    kernel_width := 1, kernel_height := 1, kernel_stride_x := 1, kernel_stride_y := 1,
    pool_width := 2, pool_height := 2, pool_stride_x := 1, pool_stride_y := 1,
    accumulator_fraction := 0, output_fraction := 0, center_x := 0, center_y := 0,
    activation := NN_ACTIVATION_FUNCTION_NONE }

/-- The pooled maximum of the contract: the maximum of the intermediate-map entries
`(o, y * pool_stride_y + dy, x * pool_stride_x + dx)` over `dy < pool_height` and
`dx < pool_width`, the map of each channel being row-major with `W_int` columns. -/
def window_max (a : NaiveArgs) (output_int : Buf) (o y x : Nat) : Int :=
  (List.range a.pool_height).foldl
    (fun m dy => (List.range a.pool_width).foldl
      (fun m dx => max m
        (output_int ((o * a.output_feature_map_height_int + (y * a.pool_stride_y + dy))
          * a.output_feature_map_width_int + (x * a.pool_stride_x + dx))))
      m)
    (output_int ((o * a.output_feature_map_height_int + y * a.pool_stride_y)
      * a.output_feature_map_width_int + x * a.pool_stride_x))

/-- One output map, two input maps, 3x3 input, 2x2 kernel, stride 1, 2x2 pooling with
stride 2, no activation, equal fractions, no halo. -/
def twoChannelArgs : NaiveArgs :=
  { num_output_feature_maps := 1, num_input_feature_maps := 2,
    output_feature_map_width := 1, output_feature_map_height := 1,
    output_feature_map_width_int := 2, output_feature_map_height_int := 2,
    input_feature_map_width := 3, input_feature_map_height := 3,
    kernel_width := 2, kernel_height := 2, kernel_stride_x := 1, kernel_stride_y := 1,
    pool_width := 2, pool_height := 2, pool_stride_x := 2, pool_stride_y := 2,
    accumulator_fraction := 0, output_fraction := 0, center_x := 0, center_y := 0,
    activation := NN_ACTIVATION_FUNCTION_NONE }

/-- The exchange of the two input channels of `twoChannelArgs`. -/
def swapChannels : Equiv.Perm (Fin twoChannelArgs.num_input_feature_maps) :=
  (Equiv.swap (0 : Fin 2) 1 : Equiv.Perm (Fin 2))

/-! ## Machine arithmetic -/

theorem wrap32_range (x : Int) : -2147483648 ≤ wrap32 x ∧ wrap32 x ≤ 2147483647 := by
  unfold wrap32; omega

theorem wrap32_of_range (x : Int) (h1 : -2147483648 ≤ x) (h2 : x ≤ 2147483647) :
    wrap32 x = x := by
  unfold wrap32; omega

theorem wrap32_add_left (x y : Int) : wrap32 (wrap32 x + y) = wrap32 (x + y) := by
  unfold wrap32; omega

theorem wrap32_congr (x : Int) : (wrap32 x - x) % 4294967296 = 0 := by
  unfold wrap32; omega

theorem wrap16_of_range (x : Int) (h1 : -32768 ≤ x) (h2 : x ≤ 32767) : wrap16 x = x := by
  unfold wrap16; omega

theorem saturate_range (r : Int) : -32768 ≤ saturate r ∧ saturate r ≤ 32767 := by
  unfold saturate; omega

theorem wrap16_saturate (r : Int) : wrap16 (saturate r) = saturate r :=
  wrap16_of_range _ (saturate_range r).1 (saturate_range r).2

theorem rescale_right (af of : Nat) (v : Int) (h : of < af) :
    rescale af of v = v / 2 ^ (af - of) := by
  have hs : acc_shift af of = ((af - of : Nat) : Int) := by unfold acc_shift; omega
  have hpos : acc_shift af of > 0 := by unfold acc_shift; omega
  unfold rescale
  rw [if_pos hpos, hs, Int.toNat_ofNat, Int.shiftRight_eq_div_pow]
  norm_cast

theorem rescale_left (af of : Nat) (v : Int) (h : af ≤ of) :
    rescale af of v = wrap32 (v * 2 ^ (of - af)) := by
  have hs : -(acc_shift af of) = ((of - af : Nat) : Int) := by unfold acc_shift; omega
  have hneg : ¬ acc_shift af of > 0 := by unfold acc_shift; omega
  unfold rescale
  rw [if_neg hneg, hs, Int.shiftLeft_eq_mul_pow]
  norm_cast

theorem rescale_zero (af of : Nat) : rescale af of 0 = 0 := by
  rcases Nat.lt_or_ge of af with h | h
  · rw [rescale_right af of 0 h]; simp
  · rw [rescale_left af of 0 h]; simp [wrap32]

theorem saturate_zero : saturate 0 = 0 := by decide

/-! ## Scalar stages of the reference -/

/-- C3: the activation acts on the pooled maximum before the rescale.  With ReLU a negative
maximum becomes 0, so that the stage yields 0 for every pair of fractions, and a non-negative
maximum is unchanged; with the identity activation the maximum reaches the rescale unchanged,
the stage yields the saturated rescale of it, and a negative 32-bit maximum gives a negative
result whenever the accumulator fraction is not below the output fraction. -/
theorem C3_activation_before_rescale (af of : Nat) (m : Int) :
    (m < 0 → activate NN_ACTIVATION_FUNCTION_RELU m = 0
        ∧ post_pool NN_ACTIVATION_FUNCTION_RELU af of m = 0
        ∧ wrap16 (post_pool NN_ACTIVATION_FUNCTION_RELU af of m) = 0)
    ∧ (0 ≤ m → activate NN_ACTIVATION_FUNCTION_RELU m = m)
    ∧ activate NN_ACTIVATION_FUNCTION_NONE m = m
    ∧ post_pool NN_ACTIVATION_FUNCTION_NONE af of m = saturate (rescale af of m)
    ∧ (m < 0 → -2147483648 ≤ m → of ≤ af →
        post_pool NN_ACTIVATION_FUNCTION_NONE af of m < 0) := by
  refine ⟨fun hm => ?_, fun hm => ?_, rfl, rfl, fun hm hlo hle => ?_⟩
  · have h0 : activate NN_ACTIVATION_FUNCTION_RELU m = 0 := by
      simp only [activate]; omega
    have h1 : post_pool NN_ACTIVATION_FUNCTION_RELU af of m = 0 := by
      unfold post_pool; rw [h0, rescale_zero, saturate_zero]
    refine ⟨h0, h1, ?_⟩
    rw [h1]; decide
  · simp only [activate]; omega
  · have hact : activate NN_ACTIVATION_FUNCTION_NONE m = m := rfl
    unfold post_pool
    rw [hact]
    rcases Nat.lt_or_ge of af with h | h
    · rw [rescale_right af of m h]
      have hp : (0 : Int) < 2 ^ (af - of) := by positivity
      have : m / 2 ^ (af - of) < 0 := Int.ediv_neg' hm hp
      unfold saturate; omega
    · have heq : af = of := le_antisymm h hle
      subst heq
      rw [rescale_left af af m (le_refl _)]
      simp only [Nat.sub_self, pow_zero, mul_one]
      have := wrap32_range m
      unfold saturate
      unfold wrap32 at *
      omega

theorem C3_activation_before_rescale_witness :
    activate NN_ACTIVATION_FUNCTION_RELU (-65537) = 0
    ∧ post_pool NN_ACTIVATION_FUNCTION_RELU 16 0 (-65537) = 0
    ∧ activate NN_ACTIVATION_FUNCTION_RELU 65537 = 65537
    ∧ post_pool NN_ACTIVATION_FUNCTION_NONE 16 0 (-65537) < 0 :=
  ⟨((C3_activation_before_rescale 16 0 (-65537)).1 (by decide)).1,
   ((C3_activation_before_rescale 16 0 (-65537)).1 (by decide)).2.1,
   (C3_activation_before_rescale 16 0 65537).2.1 (by decide),
   (C3_activation_before_rescale 16 0 (-65537)).2.2.2.2 (by decide) (by decide) (by decide)⟩

/-- C4: with `s = accumulator_fraction - output_fraction`, for `0 < s < 32` the rescale maps
every value, negative ones included, to the floor of `v / 2 ^ s`; for `-32 < s < 0` it maps
`v` to `v * 2 ^ (-s)` reduced to 32 bits: the value of the 32-bit range congruent to the
product modulo `2 ^ 32`. -/
theorem C4_rescale_shift (af of : Nat) (v : Int) :
    (of < af → af - of < 32 → rescale af of v = ⌊(v : ℚ) / 2 ^ (af - of)⌋)
    ∧ (af < of → of - af < 32 →
        rescale af of v = wrap32 (v * 2 ^ (of - af))
        ∧ -2147483648 ≤ rescale af of v ∧ rescale af of v ≤ 2147483647
        ∧ (rescale af of v - v * 2 ^ (of - af)) % 4294967296 = 0) := by
  refine ⟨fun h _ => ?_, fun h _ => ?_⟩
  · rw [rescale_right af of v h]
    have hfl := Rat.floor_intCast_div_natCast v (2 ^ (af - of))
    push_cast at hfl
    rw [hfl]
  · rw [rescale_left af of v (le_of_lt h)]
    exact ⟨rfl, (wrap32_range _).1, (wrap32_range _).2, wrap32_congr _⟩

theorem C4_rescale_shift_witness :
    rescale 16 0 (-1) = ⌊((-1 : Int) : ℚ) / 2 ^ (16 - 0)⌋
    ∧ rescale 16 0 (-1) = -1
    ∧ rescale 1 0 3 = 1
    ∧ rescale 0 4 (-3) = wrap32 (-3 * 2 ^ (4 - 0))
    ∧ rescale 0 4 (-3) = -48
    ∧ rescale 0 1 2147483647 = -2 :=
  ⟨(C4_rescale_shift 16 0 (-1)).1 (by decide) (by decide), by decide, by decide,
   ((C4_rescale_shift 0 4 (-3)).2 (by decide) (by decide)).1, by decide, by decide⟩

theorem u32_of_lt (n : Nat) (h : n < 4294967296) : u32 n = n := by
  unfold u32; omega

theorem u32sub_of_le (a b : Nat) (ha : a < 4294967296) (hb : b ≤ a) : u32sub a b = a - b := by
  unfold u32sub; omega

theorem conv_size_eq (inp k s : Nat) (hin : inp < 4294967296) (hk : k ≤ inp)
    (hrep : (inp - k) / s + 1 < 4294967296) : conv_size inp k s = (inp - k) / s + 1 := by
  unfold conv_size
  rw [u32sub_of_le inp k hin hk, u32_of_lt _ hrep]

theorem pooled_size_eq (inp k s psz ps : Nat) (hin : inp < 4294967296) (hk : k ≤ inp)
    (hrep : (inp - k) / s + 1 < 4294967296) (hpool : psz ≤ (inp - k) / s + 1)
    (hrep2 : ((inp - k) / s + 1 - psz) / ps + 1 < 4294967296) :
    pooled_size inp k s psz ps = ((inp - k) / s + 1 - psz) / ps + 1 := by
  unfold pooled_size
  rw [conv_size_eq inp k s hin hk hrep, u32sub_of_le _ psz hrep hpool]
  exact u32_of_lt _ hrep2

theorem floor_formula (a b s : Nat) (h : b ≤ a) : ⌊((a : ℚ) - b) / s⌋₊ = (a - b) / s := by
  rw [← Nat.cast_sub h, Nat.floor_div_eq_div]

/-- C8: for 32-bit sizes with `kernel ≤ input`, strides `≥ 1`, `pool_size ≤ conv_out` and
results that fit 32 bits, `ult_perform_test` computes per dimension
`conv_out = floor((in - kernel) / stride) + 1` and
`pooled_out = floor((conv_out - pool_size) / pool_stride) + 1`; the scenario 5/2/1 with pool
2/2 gives 4 and 2, the active test 231/11/4 with pool 2/2 gives 56 and 28. -/
theorem C8_size_formula (n : Nat) :
    (∀ W H KW KH sx sy psx psy pzx pzy : Nat,
      W < 4294967296 → H < 4294967296 → KW ≤ W → KH ≤ H → 1 ≤ sx → 1 ≤ sy → 1 ≤ psx → 1 ≤ psy →
      (W - KW) / sx + 1 < 4294967296 → (H - KH) / sy + 1 < 4294967296 →
      pzx ≤ (W - KW) / sx + 1 → pzy ≤ (H - KH) / sy + 1 →
      ((W - KW) / sx + 1 - pzx) / psx + 1 < 4294967296 →
      ((H - KH) / sy + 1 - pzy) / psy + 1 < 4294967296 →
      (ult_perform_test_sizes n W H KW KH sx sy psx psy pzx pzy).output_feature_map_width_int
          = ⌊((W : ℚ) - KW) / sx⌋₊ + 1
      ∧ (ult_perform_test_sizes n W H KW KH sx sy psx psy pzx pzy).output_feature_map_height_int
          = ⌊((H : ℚ) - KH) / sy⌋₊ + 1
      ∧ (ult_perform_test_sizes n W H KW KH sx sy psx psy pzx pzy).output_feature_map_width
          = ⌊(((⌊((W : ℚ) - KW) / sx⌋₊ + 1 : Nat) : ℚ) - pzx) / psx⌋₊ + 1
      ∧ (ult_perform_test_sizes n W H KW KH sx sy psx psy pzx pzy).output_feature_map_height
          = ⌊(((⌊((H : ℚ) - KH) / sy⌋₊ + 1 : Nat) : ℚ) - pzy) / psy⌋₊ + 1)
    ∧ ult_perform_test_sizes 8 5 5 2 2 1 1 2 2 2 2
        = { output_feature_map_width := 2, output_feature_map_height := 2,
            output_feature_map_width_int := 4, output_feature_map_height_int := 4,
            num_output_feature_maps := 8 }
    ∧ ult_perform_test_sizes 96 231 231 11 11 4 4 2 2 2 2
        = { output_feature_map_width := 28, output_feature_map_height := 28,
            output_feature_map_width_int := 56, output_feature_map_height_int := 56,
            num_output_feature_maps := 96 } := by
  refine ⟨?_, by decide, by decide⟩
  intro W H KW KH sx sy psx psy pzx pzy hW hH hKW hKH _ _ _ _ hrx hry hpx hpy hr2x hr2y
  rw [floor_formula W KW sx hKW, floor_formula H KH sy hKH,
    floor_formula _ pzx psx hpx, floor_formula _ pzy psy hpy]
  exact ⟨conv_size_eq W KW sx hW hKW hrx, conv_size_eq H KH sy hH hKH hry,
    pooled_size_eq W KW sx pzx psx hW hKW hrx hpx hr2x,
    pooled_size_eq H KH sy pzy psy hH hKH hry hpy hr2y⟩

theorem C8_size_formula_witness :
    (ult_perform_test_sizes 96 231 231 11 11 4 4 2 2 2 2).output_feature_map_width_int
        = ⌊((231 : ℚ) - 11) / 4⌋₊ + 1
    ∧ (ult_perform_test_sizes 96 231 231 11 11 4 4 2 2 2 2).output_feature_map_width
        = ⌊(((⌊((231 : ℚ) - 11) / 4⌋₊ + 1 : Nat) : ℚ) - 2) / 2⌋₊ + 1 :=
  have h := (C8_size_formula 96).1 231 231 11 11 4 4 2 2 2 2 (by decide) (by decide) (by decide)
    (by decide) (by decide) (by decide) (by decide) (by decide) (by decide) (by decide)
    (by decide) (by decide) (by decide) (by decide)
  ⟨by exact_mod_cast h.1, by exact_mod_cast h.2.2.1⟩

/-! ## Loops as folds over lists of stores -/

theorem foldl_invariant {α β : Type} (P : β → Prop) (f : β → α → β) (l : List α) (b : β)
    (hb : P b) (hf : ∀ b x, x ∈ l → P b → P (f b x)) : P (l.foldl f b) := by
  induction l generalizing b with
  | nil => exact hb
  | cons x xs ih =>
    rw [List.foldl_cons]
    exact ih _ (hf b x (List.mem_cons_self _ _) hb)
      (fun b y hy hp => hf b y (List.mem_cons_of_mem _ hy) hp)

theorem foldl_flatMap_eq {α β γ : Type} (f : γ → β → γ) (g : α → List β) (l : List α) (c : γ) :
    (l.flatMap g).foldl f c = l.foldl (fun c x => (g x).foldl f c) c := by
  induction l generalizing c with
  | nil => rfl
  | cons x xs ih => rw [List.flatMap_cons, List.foldl_append, ih, List.foldl_cons]

theorem applyWrites_append (es fs : List (Nat × Int)) (b : Buf) :
    applyWrites (es ++ fs) b = applyWrites fs (applyWrites es b) := by
  unfold applyWrites; rw [List.foldl_append]

theorem applyWrites_not_mem (es : List (Nat × Int)) (b : Buf) (k : Nat)
    (h : ∀ e ∈ es, e.1 ≠ k) : applyWrites es b k = b k := by
  induction es generalizing b with
  | nil => rfl
  | cons x xs ih =>
    have hx : x.1 ≠ k := h x (List.mem_cons_self _ _)
    have := ih (b.set x.1 x.2) (fun e he => h e (List.mem_cons_of_mem _ he))
    simp only [applyWrites, List.foldl_cons] at this ⊢
    rw [this]
    simp only [Buf.set]
    rw [if_neg (fun hk => hx hk.symm)]

theorem applyWrites_mem (es : List (Nat × Int)) (b : Buf) (e : Nat × Int) (he : e ∈ es)
    (hfun : ∀ e1 ∈ es, ∀ e2 ∈ es, e1.1 = e2.1 → e1.2 = e2.2) :
    applyWrites es b e.1 = e.2 := by
  induction es generalizing b e with
  | nil => cases he
  | cons x xs ih =>
    have hstep : applyWrites (x :: xs) b = applyWrites xs (b.set x.1 x.2) := rfl
    rw [hstep]
    by_cases hex : ∃ e2 ∈ xs, e2.1 = e.1
    · obtain ⟨e2, he2, h12⟩ := hex
      have hv : e2.2 = e.2 :=
        hfun e2 (List.mem_cons_of_mem _ he2) e he h12
      rw [← h12, ← hv]
      exact ih _ e2 he2 (fun e1 h1 e3 h3 => hfun e1 (List.mem_cons_of_mem _ h1) e3
        (List.mem_cons_of_mem _ h3))
    · have hnot : ∀ e2 ∈ xs, e2.1 ≠ e.1 := fun e2 he2 h => hex ⟨e2, he2, h⟩
      rw [applyWrites_not_mem xs _ e.1 hnot]
      rcases List.mem_cons.1 he with h | h
      · subst h; simp [Buf.set]
      · exact absurd rfl (hnot e h)

theorem write_outputs_eq (a : NaiveArgs) (output_int output_ref : Buf) :
    write_outputs a output_int output_ref = applyWrites (write_events a output_int) output_ref := by
  unfold write_outputs write_events applyWrites
  simp only [foldl_flatMap_eq, List.foldl_map]

theorem block_channels_eq (B C S : Nat) (src dst : Buf) :
    block_channels B C S src dst = applyWrites (block_events B C S src) dst := by
  unfold block_channels block_events applyWrites
  simp only [foldl_flatMap_eq, List.foldl_map]

/-! ## Strided loops terminate -/

theorem strideIters_eq (fuel limit stride itr : Nat) (hs : 1 ≤ stride)
    (hfuel : limit ≤ itr + fuel) :
    strideIters fuel limit stride itr
      = some (List.range' itr ((limit - itr + stride - 1) / stride) stride) := by
  induction fuel generalizing itr with
  | zero =>
    have h0 : ¬ itr < limit := by omega
    have hc : (limit - itr + stride - 1) / stride = 0 := by
      apply Nat.div_eq_of_lt; omega
    simp only [strideIters, if_neg h0, hc, List.range'_zero]
  | succ n ih =>
    by_cases h : itr < limit
    · have hc : (limit - itr + stride - 1) / stride
          = (limit - (itr + stride) + stride - 1) / stride + 1 := by
        by_cases h2 : itr + stride ≤ limit
        · have e1 : limit - itr + stride - 1 = (limit - (itr + stride) + stride - 1) + stride := by
            omega
          rw [e1, Nat.add_div_right _ (by omega)]
        · have e1 : limit - (itr + stride) + stride - 1 = stride - 1 := by omega
          have e2 : limit - itr + stride - 1 = (limit - itr - 1) + stride := by omega
          rw [e1, e2, Nat.add_div_right _ (by omega), Nat.div_eq_of_lt (by omega),
            Nat.div_eq_of_lt (by omega)]
      simp only [strideIters, if_pos h]
      rw [ih (itr + stride) (by omega), hc, List.range'_succ]
      rfl
    · have hc : (limit - itr + stride - 1) / stride = 0 := by
        apply Nat.div_eq_of_lt; omega
      simp only [strideIters, if_neg h, hc, List.range'_zero]

theorem intermediate_eq (fuel : Nat) (a : NaiveArgs) (input_ref biases_ref kernel_ref : Buf)
    (hsx : 1 ≤ a.kernel_stride_x) (hsy : 1 ≤ a.kernel_stride_y)
    (hfh : a.input_feature_map_height - a.kernel_height + 1 ≤ fuel)
    (hfw : a.input_feature_map_width - a.kernel_width + 1 ≤ fuel) :
    intermediate fuel a input_ref biases_ref kernel_ref
      = some (accumulate a
          (stride_positions (a.input_feature_map_height - a.kernel_height + 1) a.kernel_stride_y)
          (stride_positions (a.input_feature_map_width - a.kernel_width + 1) a.kernel_stride_x)
          input_ref kernel_ref biases_ref (fun _ => 0)) := by
  unfold intermediate stride_positions
  rw [strideIters_eq fuel _ _ 0 hsy (by omega), strideIters_eq fuel _ _ 0 hsx (by omega)]
  rfl

theorem naive_eq (fuel : Nat) (a : NaiveArgs) (input_ref output_ref biases_ref kernel_ref : Buf)
    (hsx : 1 ≤ a.kernel_stride_x) (hsy : 1 ≤ a.kernel_stride_y)
    (hfh : a.input_feature_map_height - a.kernel_height + 1 ≤ fuel)
    (hfw : a.input_feature_map_width - a.kernel_width + 1 ≤ fuel) :
    ult_nn_maxpooling_naive fuel a input_ref output_ref biases_ref kernel_ref
      = some (write_outputs a
          (accumulate a
            (stride_positions (a.input_feature_map_height - a.kernel_height + 1)
              a.kernel_stride_y)
            (stride_positions (a.input_feature_map_width - a.kernel_width + 1) a.kernel_stride_x)
            input_ref kernel_ref biases_ref (fun _ => 0))
          (memsetZero output_ref (output_cells a))) := by
  unfold ult_nn_maxpooling_naive
  rw [intermediate_eq fuel a input_ref biases_ref kernel_ref hsx hsy hfh hfw]
  rfl

/-! ## Mixed-radix indices -/

theorem radix_inj (n a b a' b' : Nat) (hb : b < n) (hb' : b' < n)
    (h : a * n + b = a' * n + b') : a = a' ∧ b = b' := by
  have hn : 0 < n := by omega
  have h1 : (a * n + b) / n = a := by
    rw [Nat.add_comm, Nat.add_mul_div_right _ _ hn, Nat.div_eq_of_lt hb, Nat.zero_add]
  have h2 : (a' * n + b') / n = a' := by
    rw [Nat.add_comm, Nat.add_mul_div_right _ _ hn, Nat.div_eq_of_lt hb', Nat.zero_add]
  have ha : a = a' := by rw [← h1, ← h2, h]
  subst ha
  exact ⟨rfl, by omega⟩

theorem radix_lt (A n a b : Nat) (ha : a < A) (hb : b < n) : a * n + b < A * n := by
  have h1 : (a + 1) * n ≤ A * n := Nat.mul_le_mul_right n ha
  have h2 : (a + 1) * n = a * n + n := by ring
  omega

theorem output_index_radix (a : NaiveArgs) (o y x : Nat) :
    output_index a o y x
      = (o * padded_height a + (y + a.center_y)) * padded_width a + (x + a.center_x) := by
  unfold output_index padded_height padded_width; ring

theorem mem_write_events (a : NaiveArgs) (output_int : Buf) (e : Nat × Int) :
    e ∈ write_events a output_int ↔
      ∃ o, o < a.num_output_feature_maps ∧ ∃ y, y < a.output_feature_map_height ∧
        ∃ x, x < a.output_feature_map_width ∧
          e = (output_index a o y x, output_value a output_int o y x) := by
  unfold write_events
  simp only [List.mem_flatMap, List.mem_map, List.mem_range]
  constructor
  · rintro ⟨o, ho, y, hy, x, hx, rfl⟩; exact ⟨o, ho, y, hy, x, hx, rfl⟩
  · rintro ⟨o, ho, y, hy, x, hx, rfl⟩; exact ⟨o, ho, y, hy, x, hx, rfl⟩

theorem output_index_inj (a : NaiveArgs) (o y x o' y' x' : Nat)
    (hy : y < a.output_feature_map_height) (hx : x < a.output_feature_map_width)
    (hy' : y' < a.output_feature_map_height) (hx' : x' < a.output_feature_map_width)
    (h : output_index a o y x = output_index a o' y' x') : o = o' ∧ y = y' ∧ x = x' := by
  rw [output_index_radix, output_index_radix] at h
  have hw : ∀ z, z < a.output_feature_map_width → z + a.center_x < padded_width a := by
    intro z hz; unfold padded_width; omega
  have hh : ∀ z, z < a.output_feature_map_height → z + a.center_y < padded_height a := by
    intro z hz; unfold padded_height; omega
  obtain ⟨h1, h2⟩ := radix_inj _ _ _ _ _ (hw x hx) (hw x' hx') h
  obtain ⟨h3, h4⟩ := radix_inj _ _ _ _ _ (hh y hy) (hh y' hy') h1
  exact ⟨h3, by omega, by omega⟩

theorem write_events_functional (a : NaiveArgs) (output_int : Buf) :
    ∀ e1 ∈ write_events a output_int, ∀ e2 ∈ write_events a output_int,
      e1.1 = e2.1 → e1.2 = e2.2 := by
  intro e1 h1 e2 h2 h
  obtain ⟨o, _, y, hy, x, hx, rfl⟩ := (mem_write_events a output_int e1).1 h1
  obtain ⟨o', _, y', hy', x', hx', rfl⟩ := (mem_write_events a output_int e2).1 h2
  obtain ⟨ho, hyy, hxx⟩ := output_index_inj a o y x o' y' x' hy hx hy' hx' h
  subst ho hyy hxx
  rfl

theorem write_outputs_inside (a : NaiveArgs) (output_int output_ref : Buf) (o y x : Nat)
    (ho : o < a.num_output_feature_maps) (hy : y < a.output_feature_map_height)
    (hx : x < a.output_feature_map_width) :
    write_outputs a output_int output_ref (output_index a o y x)
      = output_value a output_int o y x := by
  rw [write_outputs_eq]
  exact applyWrites_mem _ _ (output_index a o y x, output_value a output_int o y x)
    ((mem_write_events a output_int _).2 ⟨o, ho, y, hy, x, hx, rfl⟩)
    (write_events_functional a output_int)

theorem write_outputs_outside (a : NaiveArgs) (output_int output_ref : Buf) (o row col : Nat)
    (hrow : row < padded_height a) (hcol : col < padded_width a)
    (hout : ¬ (a.center_y ≤ row ∧ row < a.center_y + a.output_feature_map_height
      ∧ a.center_x ≤ col ∧ col < a.center_x + a.output_feature_map_width)) :
    write_outputs a output_int output_ref ((o * padded_height a + row) * padded_width a + col)
      = output_ref ((o * padded_height a + row) * padded_width a + col) := by
  rw [write_outputs_eq]
  apply applyWrites_not_mem
  intro e he heq
  obtain ⟨o', _, y, hy, x, hx, rfl⟩ := (mem_write_events a output_int e).1 he
  simp only at heq
  rw [output_index_radix] at heq
  have hxw : x + a.center_x < padded_width a := by unfold padded_width; omega
  have hyh : y + a.center_y < padded_height a := by unfold padded_height; omega
  obtain ⟨h1, h2⟩ := radix_inj _ _ _ _ _ hxw hcol heq
  obtain ⟨_, h4⟩ := radix_inj _ _ _ _ _ hyh hrow h1
  exact hout ⟨by omega, by omega, by omega, by omega⟩

theorem applyWrites_invariant (Q : Int → Prop) (es : List (Nat × Int)) (b : Buf) (k : Nat)
    (hb : Q (b k)) (hes : ∀ e ∈ es, Q e.2) : Q (applyWrites es b k) := by
  induction es generalizing b with
  | nil => exact hb
  | cons x xs ih =>
    have hstep : applyWrites (x :: xs) b = applyWrites xs (b.set x.1 x.2) := rfl
    rw [hstep]
    apply ih
    · simp only [Buf.set]
      split
      · exact hes x (List.mem_cons_self _ _)
      · exact hb
    · exact fun e he => hes e (List.mem_cons_of_mem _ he)

/-! ## Saturation and the padded output -/

/-- C5: the stored value is `min(max(r, -32768), 32767)`: values of the 16-bit range are
unchanged, 32768 becomes 32767 and -32769 becomes -32768, the narrowing to 16 bits changes
nothing, and after the reference has run every cell of `output_ref` lies in
`[-32768, 32767]`. -/
theorem C5_saturation :
    (∀ r : Int, saturate r = min (max r (-32768)) 32767)
    ∧ (∀ r : Int, -32768 ≤ r → r ≤ 32767 → saturate r = r)
    ∧ saturate 32768 = 32767 ∧ saturate (-32769) = -32768
    ∧ (∀ r : Int, wrap16 (saturate r) = saturate r)
    ∧ (∀ (fuel : Nat) (a : NaiveArgs) (input_ref output_ref biases_ref kernel_ref : Buf),
        a.kernel_width ≤ a.input_feature_map_width →
        a.kernel_height ≤ a.input_feature_map_height →
        1 ≤ a.kernel_stride_x → 1 ≤ a.kernel_stride_y →
        a.input_feature_map_height - a.kernel_height + 1 ≤ fuel →
        a.input_feature_map_width - a.kernel_width + 1 ≤ fuel →
        ∃ out, ult_nn_maxpooling_naive fuel a input_ref output_ref biases_ref kernel_ref
            = some out
          ∧ ∀ k, k < output_cells a → -32768 ≤ out k ∧ out k ≤ 32767) := by
  refine ⟨fun r => ?_, fun r h1 h2 => ?_, by decide, by decide, wrap16_saturate, ?_⟩
  · unfold saturate; omega
  · unfold saturate; omega
  · intro fuel a input_ref output_ref biases_ref kernel_ref _ _ hsx hsy hfh hfw
    refine ⟨_, naive_eq fuel a input_ref output_ref biases_ref kernel_ref hsx hsy hfh hfw, ?_⟩
    intro k hk
    rw [write_outputs_eq]
    apply applyWrites_invariant (fun v => -32768 ≤ v ∧ v ≤ 32767)
    · simp only [memsetZero, if_pos hk]; omega
    · intro e he
      obtain ⟨o, _, y, _, x, _, rfl⟩ := (mem_write_events a _ e).1 he
      simp only [output_value, post_pool]
      rw [wrap16_saturate]
      exact saturate_range _

theorem C5_saturation_witness :
    saturate 1234 = 1234
    ∧ ∃ out, ult_nn_maxpooling_naive 2 haloArgs rampBuf (constBuf 77) (constBuf 5) (constBuf 1)
        = some out
      ∧ ∀ k, k < output_cells haloArgs → -32768 ≤ out k ∧ out k ≤ 32767 :=
  ⟨C5_saturation.2.1 1234 (by decide) (by decide),
   C5_saturation.2.2.2.2.2 2 haloArgs rampBuf (constBuf 77) (constBuf 5) (constBuf 1)
    (by decide) (by decide) (by decide) (by decide) (by decide) (by decide)⟩

/-- C6: for every halo size and every content of the input, weight, bias and output buffers on
entry, the padded output (per channel `out_h + 2 * center_y` rows of `out_w + 2 * center_x`
columns) holds at `(y + center_y, x + center_x)` the result computed for pooled position
`(y, x)`, and 0 in every cell outside that rectangle. -/
theorem C6_halo_zero (fuel : Nat) (a : NaiveArgs)
    (input_ref output_ref biases_ref kernel_ref : Buf)
    (_hkw : a.kernel_width ≤ a.input_feature_map_width)
    (_hkh : a.kernel_height ≤ a.input_feature_map_height)
    (hsx : 1 ≤ a.kernel_stride_x) (hsy : 1 ≤ a.kernel_stride_y)
    (hfh : a.input_feature_map_height - a.kernel_height + 1 ≤ fuel)
    (hfw : a.input_feature_map_width - a.kernel_width + 1 ≤ fuel) :
    ∃ output_int out,
      intermediate fuel a input_ref biases_ref kernel_ref = some output_int
      ∧ ult_nn_maxpooling_naive fuel a input_ref output_ref biases_ref kernel_ref = some out
      ∧ (∀ o y x, o < a.num_output_feature_maps → y < a.output_feature_map_height →
          x < a.output_feature_map_width →
          out ((o * padded_height a + (y + a.center_y)) * padded_width a + (x + a.center_x))
            = post_pool a.activation a.accumulator_fraction a.output_fraction
                (pool_max a output_int o y x))
      ∧ (∀ o row col, o < a.num_output_feature_maps → row < padded_height a →
          col < padded_width a →
          ¬ (a.center_y ≤ row ∧ row < a.center_y + a.output_feature_map_height
            ∧ a.center_x ≤ col ∧ col < a.center_x + a.output_feature_map_width) →
          out ((o * padded_height a + row) * padded_width a + col) = 0) := by
  refine ⟨_, _, intermediate_eq fuel a input_ref biases_ref kernel_ref hsx hsy hfh hfw,
    naive_eq fuel a input_ref output_ref biases_ref kernel_ref hsx hsy hfh hfw, ?_, ?_⟩
  · intro o y x ho hy hx
    rw [← output_index_radix, write_outputs_inside a _ _ o y x ho hy hx]
    simp only [output_value, post_pool]
    rw [wrap16_saturate]
  · intro o row col ho hrow hcol hout
    rw [write_outputs_outside a _ _ o row col hrow hcol hout]
    have hlt : (o * padded_height a + row) * padded_width a + col < output_cells a := by
      have h1 : o * padded_height a + row < a.num_output_feature_maps * padded_height a :=
        radix_lt _ _ _ _ ho hrow
      have h2 := radix_lt _ _ _ _ h1 hcol
      have h3 : output_cells a = a.num_output_feature_maps * padded_height a * padded_width a := by
        unfold output_cells padded_height padded_width; ring
      omega
    simp only [memsetZero, if_pos hlt]

theorem C6_halo_zero_witness :
    ∃ output_int out,
      intermediate 2 haloArgs rampBuf (constBuf 5) (constBuf 1) = some output_int
      ∧ ult_nn_maxpooling_naive 2 haloArgs rampBuf (constBuf 77) (constBuf 5) (constBuf 1)
          = some out
      ∧ (∀ o y x, o < haloArgs.num_output_feature_maps → y < haloArgs.output_feature_map_height →
          x < haloArgs.output_feature_map_width →
          out ((o * padded_height haloArgs + (y + haloArgs.center_y)) * padded_width haloArgs
              + (x + haloArgs.center_x))
            = post_pool haloArgs.activation haloArgs.accumulator_fraction
                haloArgs.output_fraction (pool_max haloArgs output_int o y x))
      ∧ (∀ o row col, o < haloArgs.num_output_feature_maps → row < padded_height haloArgs →
          col < padded_width haloArgs →
          ¬ (haloArgs.center_y ≤ row ∧ row < haloArgs.center_y + haloArgs.output_feature_map_height
            ∧ haloArgs.center_x ≤ col
            ∧ col < haloArgs.center_x + haloArgs.output_feature_map_width) →
          out ((o * padded_height haloArgs + row) * padded_width haloArgs + col) = 0) :=
  C6_halo_zero 2 haloArgs rampBuf (constBuf 77) (constBuf 5) (constBuf 1)
    (by decide) (by decide) (by decide) (by decide) (by decide) (by decide)

/-! ## Channel blocking -/

theorem mem_block_events (B C S : Nat) (src : Buf) (e : Nat × Int) :
    e ∈ block_events B C S src ↔
      ∃ i, i < C / B ∧ ∃ j, j < S ∧ ∃ n, n < B ∧
        e = (n + j * B + i * S * B, src (n * S + j + i * S * B)) := by
  unfold block_events
  simp only [List.mem_flatMap, List.mem_map, List.mem_range]
  constructor
  · rintro ⟨i, hi, j, hj, n, hn, rfl⟩; exact ⟨i, hi, j, hj, n, hn, rfl⟩
  · rintro ⟨i, hi, j, hj, n, hn, rfl⟩; exact ⟨i, hi, j, hj, n, hn, rfl⟩

theorem block_dest_inj (B S i j n i' j' n' : Nat) (hj : j < S) (hn : n < B) (hj' : j' < S)
    (hn' : n' < B) (h : n + j * B + i * S * B = n' + j' * B + i' * S * B) :
    i = i' ∧ j = j' ∧ n = n' := by
  have e1 : n + j * B + i * S * B = (i * S + j) * B + n := by ring
  have e2 : n' + j' * B + i' * S * B = (i' * S + j') * B + n' := by ring
  rw [e1, e2] at h
  obtain ⟨h1, h2⟩ := radix_inj _ _ _ _ _ hn hn' h
  obtain ⟨h3, h4⟩ := radix_inj _ _ _ _ _ hj hj' h1
  exact ⟨h3, h4, h2⟩

theorem block_channels_apply (B C S : Nat) (src dst : Buf) (i j n : Nat) (hi : i < C / B)
    (hj : j < S) (hn : n < B) :
    block_channels B C S src dst (n + j * B + i * S * B) = src (n * S + j + i * S * B) := by
  rw [block_channels_eq]
  refine applyWrites_mem _ _ (n + j * B + i * S * B, src (n * S + j + i * S * B))
    ((mem_block_events B C S src _).2 ⟨i, hi, j, hj, n, hn, rfl⟩) ?_
  intro e1 h1 e2 h2 h
  obtain ⟨i1, _, j1, hj1, n1, hn1, rfl⟩ := (mem_block_events B C S src e1).1 h1
  obtain ⟨i2, _, j2, hj2, n2, hn2, rfl⟩ := (mem_block_events B C S src e2).1 h2
  obtain ⟨hi, hjj, hnn⟩ := block_dest_inj B S i1 j1 n1 i2 j2 n2 hj1 hn1 hj2 hn2 h
  subst hi hjj hnn
  rfl

theorem blocked_index_canonical (B S c j : Nat) (hj : j < S) :
    blocked_index B S (c * S + j) = c % B + j * B + (c / B) * S * B := by
  have hS : 0 < S := by omega
  have h1 : (c * S + j) / S = c := by
    rw [Nat.add_comm, Nat.add_mul_div_right _ _ hS, Nat.div_eq_of_lt hj, Nat.zero_add]
  have h2 : (c * S + j) % S = j := by
    rw [Nat.add_comm, Nat.add_mul_mod_self_right, Nat.mod_eq_of_lt hj]
  unfold blocked_index
  rw [h1, h2]

theorem canonical_split (S k : Nat) : k = (k / S) * S + k % S := by
  have := Nat.div_add_mod k S
  rw [Nat.mul_comm] at this
  exact this.symm

theorem channel_of_lt (C S k : Nat) (hk : k < C * S) : k / S < C ∧ k % S < S := by
  have hS : 0 < S := by
    rcases Nat.eq_zero_or_pos S with h | h
    · subst h; simp at hk
    · exact h
  exact ⟨Nat.div_lt_of_lt_mul (by rw [Nat.mul_comm]; exact hk), Nat.mod_lt _ hS⟩

theorem block_source (B S c j : Nat) :
    c % B * S + j + c / B * S * B = c * S + j := by
  have h := Nat.mod_add_div c B
  calc c % B * S + j + c / B * S * B = (c % B + B * (c / B)) * S + j := by ring
    _ = c * S + j := by rw [h]

theorem blocked_index_lt (B C S k : Nat) (hB : 0 < B) (hdvd : B ∣ C) (hk : k < C * S) :
    blocked_index B S k < C * S := by
  obtain ⟨hc, hj⟩ := channel_of_lt C S k hk
  have hi : k / S / B < C / B := Nat.div_lt_div_of_lt_of_dvd hdvd hc
  have hn : k / S % B < B := Nat.mod_lt _ hB
  have h1 : k / S / B * S + k % S < C / B * S := radix_lt _ _ _ _ hi hj
  have h2 := radix_lt _ _ _ _ h1 hn
  have h3 : C / B * S * B = C * S := by
    calc C / B * S * B = C / B * B * S := by ring
      _ = C * S := by rw [Nat.div_mul_cancel hdvd]
  have h4 : blocked_index B S k = (k / S / B * S + k % S) * B + k / S % B := by
    unfold blocked_index; ring
  omega

theorem blocked_index_injOn (B C S k k' : Nat) (hB : 0 < B) (hk : k < C * S) (hk' : k' < C * S)
    (h : blocked_index B S k = blocked_index B S k') : k = k' := by
  obtain ⟨_, hj⟩ := channel_of_lt C S k hk
  obtain ⟨_, hj'⟩ := channel_of_lt C S k' hk'
  unfold blocked_index at h
  obtain ⟨h1, h2, h3⟩ := block_dest_inj B S _ _ _ _ _ _ hj (Nat.mod_lt _ hB) hj'
    (Nat.mod_lt _ hB) h
  have hc : k / S = k' / S := by
    rw [← Nat.mod_add_div (k / S) B, ← Nat.mod_add_div (k' / S) B, h1, h3]
  rw [canonical_split S k, canonical_split S k', hc, h2]

theorem block_dest_exists (B C S d : Nat) (hB : 0 < B) (hdvd : B ∣ C) (hd : d < C * S) :
    d / B / S < C / B ∧ d / B % S < S ∧ d % B < B
      ∧ d % B + d / B % S * B + d / B / S * S * B = d := by
  have h3 : C / B * S * B = C * S := by
    calc C / B * S * B = C / B * B * S := by ring
      _ = C * S := by rw [Nat.div_mul_cancel hdvd]
  have hq : d / B < C / B * S := by
    apply Nat.div_lt_of_lt_mul
    calc d < C * S := hd
      _ = B * (C / B * S) := by rw [← h3]; ring
  obtain ⟨hi, hj⟩ := channel_of_lt (C / B) S (d / B) hq
  refine ⟨hi, hj, Nat.mod_lt _ hB, ?_⟩
  have e1 := Nat.mod_add_div d B
  have e2 := Nat.mod_add_div (d / B) S
  calc d % B + d / B % S * B + d / B / S * S * B
      = d % B + B * (d / B % S + S * (d / B / S)) := by ring
    _ = d := by rw [e2, e1]

theorem block_channels_canonical (B C S : Nat) (hB : 0 < B) (hdvd : B ∣ C) (src dst : Buf)
    (c j : Nat) (hc : c < C) (hj : j < S) :
    block_channels B C S src dst (c % B + j * B + c / B * S * B) = src (c * S + j) := by
  rw [block_channels_apply B C S src dst (c / B) j (c % B)
    (Nat.div_lt_div_of_lt_of_dvd hdvd hc) hj (Nat.mod_lt _ hB), block_source]

/-- C9: for a channel count `C` that is a multiple of the blocking factor `B`, the index map
`c * S + j ↦ (c mod B) + j * B + (c div B) * S * B` of the blocking loop nests (inputs with
`B = IFMBlock`, outputs with `B = 8`) is a bijection of `[0, C * S)` onto itself; every
destination cell is written by exactly one iteration `(i, j, n)` of the nest; the blocked
buffer holds each canonical cell at its destination; and the inverse gather gives back the
canonical buffer. -/
theorem C9_channel_blocking_bijection (B C S : Nat) (hB : 0 < B) (hdvd : B ∣ C) :
    Set.BijOn (blocked_index B S) {k | k < C * S} {k | k < C * S}
    ∧ (∀ d, d < C * S → ∃! p : Nat × Nat × Nat,
        p.1 < C / B ∧ p.2.1 < S ∧ p.2.2 < B ∧ p.2.2 + p.2.1 * B + p.1 * S * B = d)
    ∧ (∀ (src dst : Buf) (c j : Nat), c < C → j < S →
        blocked_index B S (c * S + j) = c % B + j * B + c / B * S * B
        ∧ block_channels B C S src dst (c % B + j * B + c / B * S * B) = src (c * S + j))
    ∧ (∀ (src dst : Buf) (k : Nat), k < C * S →
        unblock_channels B S (block_channels B C S src dst) k = src k) := by
  refine ⟨⟨?_, ?_, ?_⟩, ?_, ?_, ?_⟩
  · intro k hk
    exact blocked_index_lt B C S k hB hdvd hk
  · intro k hk k' hk' h
    exact blocked_index_injOn B C S k k' hB hk hk' h
  · intro d hd
    obtain ⟨hi, hj, hn, hsum⟩ := block_dest_exists B C S d hB hdvd hd
    have hc : d / B / S * B + d % B < C := by
      have := radix_lt _ _ _ _ hi hn
      rwa [Nat.div_mul_cancel hdvd] at this
    have hk : (d / B / S * B + d % B) * S + d / B % S < C * S := radix_lt _ _ _ _ hc hj
    refine ⟨(d / B / S * B + d % B) * S + d / B % S, hk, ?_⟩
    rw [blocked_index_canonical B S _ _ hj]
    have h1 : (d / B / S * B + d % B) % B = d % B := by
      rw [Nat.add_comm, Nat.add_mul_mod_self_right, Nat.mod_mod]
    have h2 : (d / B / S * B + d % B) / B = d / B / S := by
      rw [Nat.add_comm, Nat.add_mul_div_right _ _ hB, Nat.div_eq_of_lt hn, Nat.zero_add]
    rw [h1, h2]
    exact hsum
  · intro d hd
    obtain ⟨hi, hj, hn, hsum⟩ := block_dest_exists B C S d hB hdvd hd
    refine ⟨(d / B / S, d / B % S, d % B), ⟨hi, hj, hn, hsum⟩, ?_⟩
    rintro ⟨i, j, n⟩ ⟨_, hj', hn', hsum'⟩
    simp only at hj' hn' hsum'
    obtain ⟨h1, h2, h3⟩ := block_dest_inj B S i j n _ _ _ hj' hn' hj hn (hsum'.trans hsum.symm)
    rw [h1, h2, h3]
  · intro src dst c j hc hj
    exact ⟨blocked_index_canonical B S c j hj,
      block_channels_canonical B C S hB hdvd src dst c j hc hj⟩
  · intro src dst k hk
    obtain ⟨hc, hj⟩ := channel_of_lt C S k hk
    unfold unblock_channels
    have hsplit := canonical_split S k
    rw [hsplit, blocked_index_canonical B S _ _ hj,
      block_channels_canonical B C S hB hdvd src dst _ _ hc hj]

theorem C9_channel_blocking_bijection_witness :
    Set.BijOn (blocked_index 4 6) {k | k < 8 * 6} {k | k < 8 * 6}
    ∧ (∀ d, d < 8 * 6 → ∃! p : Nat × Nat × Nat,
        p.1 < 8 / 4 ∧ p.2.1 < 6 ∧ p.2.2 < 4 ∧ p.2.2 + p.2.1 * 4 + p.1 * 6 * 4 = d)
    ∧ (∀ (src dst : Buf) (c j : Nat), c < 8 → j < 6 →
        blocked_index 4 6 (c * 6 + j) = c % 4 + j * 4 + c / 4 * 6 * 4
        ∧ block_channels 4 8 6 src dst (c % 4 + j * 4 + c / 4 * 6 * 4) = src (c * 6 + j))
    ∧ (∀ (src dst : Buf) (k : Nat), k < 8 * 6 →
        unblock_channels 4 6 (block_channels 4 8 6 src dst) k = src k) :=
  C9_channel_blocking_bijection 4 8 6 (by decide) (by decide)

/-! ## The ramp-filling loops write the same values to both buffers -/

theorem foldl_agree {α : Type} (step : RampState → α → RampState) (cover : α → Nat → Prop)
    (l : List α) (k : Nat)
    (hstep : ∀ s x, x ∈ l → (s.bufT k = s.buf_ref k ∨ cover x k) →
      (step s x).bufT k = (step s x).buf_ref k)
    (s : RampState) (h : s.bufT k = s.buf_ref k ∨ ∃ x ∈ l, cover x k) :
    (l.foldl step s).bufT k = (l.foldl step s).buf_ref k := by
  induction l generalizing s with
  | nil =>
    rcases h with h | ⟨x, hx, _⟩
    · exact h
    · cases hx
  | cons x xs ih =>
    rw [List.foldl_cons]
    apply ih (fun s y hy hc => hstep s y (List.mem_cons_of_mem _ hy) hc)
    rcases h with h | ⟨y, hy, hc⟩
    · exact Or.inl (hstep s x (List.mem_cons_self _ _) (Or.inl h))
    · rcases List.mem_cons.1 hy with rfl | hy'
      · exact Or.inl (hstep s y (List.mem_cons_self _ _) (Or.inr hc))
      · exact Or.inr ⟨y, hy', hc⟩

theorem fill_input_agree (IFM W H : Nat) (s : RampState) (k : Nat)
    (h : s.bufT k = s.buf_ref k
      ∨ ∃ c ∈ List.range IFM, ∃ r ∈ List.range H, ∃ w ∈ List.range W, k = w + r * W + c * W * H) :
    (fill_input IFM W H s).bufT k = (fill_input IFM W H s).buf_ref k := by
  unfold fill_input
  refine foldl_agree _ (fun c k => ∃ r ∈ List.range H, ∃ w ∈ List.range W,
    k = w + r * W + c * W * H) _ k ?_ s h
  intro s c _ hc
  refine foldl_agree _ (fun r k => ∃ w ∈ List.range W, k = w + r * W + c * W * H) _ k ?_ _ hc
  intro s r _ hr
  refine foldl_agree _ (fun w k => k = w + r * W + c * W * H) _ k ?_ _ hr
  intro s w _ hw
  simp only [ult_nn_convolution_naive_set_input_value, Buf.set]
  rcases hw with hw | hw
  · rw [hw]
  · rw [if_pos hw, if_pos hw]

theorem IFMBlock_pos (n : Nat) : 0 < IFMBlock n := by
  unfold IFMBlock; split <;> decide

theorem blocked_neighbour (B S c j : Nat) (h : c % B + 1 < B) :
    (c + 1) % B + j * B + (c + 1) / B * S * B = c % B + j * B + c / B * S * B + 1 := by
  have hB : 0 < B := by omega
  have hc := Nat.mod_add_div c B
  have e : c + 1 = c % B + 1 + B * (c / B) := by omega
  have h1 : (c + 1) % B = c % B + 1 := by
    rw [e, Nat.add_mul_mod_self_left, Nat.mod_eq_of_lt h]
  have h2 : (c + 1) / B = c / B := by
    rw [e, Nat.add_mul_div_left _ _ hB, Nat.div_eq_of_lt h, Nat.zero_add]
  rw [h1, h2]; ring

/-- C10: after the initialisation, for an input channel count that is a multiple of
`IFMBlock` (4 for exactly 4 input channels, otherwise 8), the blocked buffer `input` holds at
`(c mod B) + (r * W + w) * B + (c div B) * W * H * B` the cell `(c, r, w)` of the canonical
buffer `input_ref`, whatever the buffers held on entry; consecutive channels of one block
are adjacent in memory at one spatial position. -/
theorem C10_input_blocked (m : Matrices) (inputT weightT : Buf)
    (OFM IFM ow oh W H KW KH cx cy : Nat) (hdvd : IFMBlock IFM ∣ IFM) :
    (IFMBlock 4 = 4 ∧ ∀ n, n ≠ 4 → IFMBlock n = 8)
    ∧ (∀ c r w, c < IFM → r < H → w < W →
        (ult_nn_convolution_both_initialize_matrices m inputT weightT OFM IFM ow oh W H KW KH
            cx cy).input
          (c % IFMBlock IFM + (r * W + w) * IFMBlock IFM + c / IFMBlock IFM * W * H * IFMBlock IFM)
        = (ult_nn_convolution_both_initialize_matrices m inputT weightT OFM IFM ow oh W H KW KH
            cx cy).input_ref (c * W * H + r * W + w))
    ∧ (∀ c r w, c % IFMBlock IFM + 1 < IFMBlock IFM →
        (c + 1) % IFMBlock IFM + (r * W + w) * IFMBlock IFM
            + (c + 1) / IFMBlock IFM * W * H * IFMBlock IFM
          = c % IFMBlock IFM + (r * W + w) * IFMBlock IFM
            + c / IFMBlock IFM * W * H * IFMBlock IFM + 1) := by
  refine ⟨⟨by decide, fun n hn => by unfold IFMBlock; rw [if_neg hn]⟩, ?_, ?_⟩
  · intro c r w hc hr hw
    have hj : r * W + w < W * H := by
      have := radix_lt H W r w hr hw
      rwa [Nat.mul_comm H W] at this
    have e1 : c % IFMBlock IFM + (r * W + w) * IFMBlock IFM
          + c / IFMBlock IFM * W * H * IFMBlock IFM
        = c % IFMBlock IFM + (r * W + w) * IFMBlock IFM
          + c / IFMBlock IFM * (W * H) * IFMBlock IFM := by ring
    have e2 : c * W * H + r * W + w = c * (W * H) + (r * W + w) := by ring
    simp only [ult_nn_convolution_both_initialize_matrices]
    rw [e1, block_channels_canonical (IFMBlock IFM) IFM (W * H) (IFMBlock_pos IFM) hdvd _ _ c
      (r * W + w) hc hj, ← e2]
    apply fill_input_agree
    refine Or.inr ⟨c, List.mem_range.2 hc, r, List.mem_range.2 hr, w, List.mem_range.2 hw, ?_⟩
    ring
  · intro c r w h
    have := blocked_neighbour (IFMBlock IFM) (W * H) c (r * W + w) h
    calc (c + 1) % IFMBlock IFM + (r * W + w) * IFMBlock IFM
          + (c + 1) / IFMBlock IFM * W * H * IFMBlock IFM
        = (c + 1) % IFMBlock IFM + (r * W + w) * IFMBlock IFM
          + (c + 1) / IFMBlock IFM * (W * H) * IFMBlock IFM := by ring
      _ = c % IFMBlock IFM + (r * W + w) * IFMBlock IFM
          + c / IFMBlock IFM * (W * H) * IFMBlock IFM + 1 := this
      _ = _ := by ring

theorem C10_input_blocked_witness :
    (ult_nn_convolution_both_initialize_matrices (constMatrices 7) (constBuf 8) (constBuf 9)
        8 4 2 2 5 5 2 2 0 0).input
      (3 % IFMBlock 4 + (2 * 5 + 1) * IFMBlock 4 + 3 / IFMBlock 4 * 5 * 5 * IFMBlock 4)
    = (ult_nn_convolution_both_initialize_matrices (constMatrices 7) (constBuf 8) (constBuf 9)
        8 4 2 2 5 5 2 2 0 0).input_ref (3 * 5 * 5 + 2 * 5 + 1) :=
  (C10_input_blocked (constMatrices 7) (constBuf 8) (constBuf 9) 8 4 2 2 5 5 2 2 0 0
    (by decide)).2.1 3 2 1 (by decide) (by decide) (by decide)

/-! ## The accumulation loops as a list of additions -/

theorem applyAdds_append (es fs : List (Nat × Int)) (b : Buf) :
    applyAdds (es ++ fs) b = applyAdds fs (applyAdds es b) := by
  unfold applyAdds; rw [List.foldl_append]

theorem accumulate_position_eq (a : NaiveArgs) (input_ref kernel_ref biases_ref : Buf)
    (o i h w : Nat) (acc : Buf) :
    accumulate_position a input_ref kernel_ref biases_ref o i h w acc
      = applyAdds (position_events a input_ref kernel_ref biases_ref o i h w) acc := by
  unfold accumulate_position position_events
  rw [applyAdds_append]
  unfold applyAdds accumulate_tap
  simp only [foldl_flatMap_eq, List.foldl_map, List.foldl_cons, List.foldl_nil]

theorem accumulate_eq (a : NaiveArgs) (hs ws : List Nat) (input_ref kernel_ref biases_ref : Buf)
    (acc : Buf) :
    accumulate a hs ws input_ref kernel_ref biases_ref acc
      = applyAdds (accumulate_events a hs ws input_ref kernel_ref biases_ref) acc := by
  unfold accumulate accumulate_events
  simp only [accumulate_position_eq]
  unfold applyAdds
  simp only [foldl_flatMap_eq]

theorem sumAt_nil (k : Nat) : sumAt k [] = 0 := rfl

theorem sumAt_cons (k : Nat) (e : Nat × Int) (es : List (Nat × Int)) :
    sumAt k (e :: es) = (if e.1 = k then e.2 else 0) + sumAt k es := by
  unfold sumAt; rw [List.map_cons, List.sum_cons]

theorem sumAt_append (k : Nat) (es fs : List (Nat × Int)) :
    sumAt k (es ++ fs) = sumAt k es + sumAt k fs := by
  unfold sumAt; rw [List.map_append, List.sum_append]

theorem sumAt_flatMap {α : Type} (k : Nat) (l : List α) (g : α → List (Nat × Int)) :
    sumAt k (l.flatMap g) = (l.map fun x => sumAt k (g x)).sum := by
  induction l with
  | nil => rfl
  | cons x xs ih =>
    rw [List.flatMap_cons, sumAt_append, ih, List.map_cons, List.sum_cons]

theorem sumAt_map_const {α : Type} (k idx : Nat) (l : List α) (f : α → Int) :
    sumAt k (l.map fun x => (idx, f x)) = if idx = k then (l.map f).sum else 0 := by
  induction l with
  | nil => simp [sumAt]
  | cons x xs ih =>
    rw [List.map_cons, sumAt_cons, ih, List.map_cons, List.sum_cons]
    split <;> simp

theorem applyAdds_apply (es : List (Nat × Int)) (b : Buf) (k : Nat)
    (hb : wrap32 (b k) = b k) : applyAdds es b k = wrap32 (b k + sumAt k es) := by
  induction es generalizing b with
  | nil => simp [applyAdds, sumAt_nil, hb]
  | cons e es ih =>
    have hstep : applyAdds (e :: es) b = applyAdds es (addAt b e.1 e.2) := rfl
    rw [hstep, sumAt_cons]
    by_cases h : e.1 = k
    · have hv : addAt b e.1 e.2 k = wrap32 (b k + e.2) := by
        simp [addAt, Buf.set, h]
      rw [ih _ (by rw [hv]; unfold wrap32; omega), hv, if_pos h, wrap32_add_left, add_assoc]
    · have hv : addAt b e.1 e.2 k = b k := by
        simp only [addAt, Buf.set]
        rw [if_neg (fun hk => h hk.symm)]
      rw [ih _ (by rw [hv]; exact hb), hv, if_neg h, zero_add]

theorem list_sum_range (n : Nat) (f : Nat → Int) :
    ((List.range n).map f).sum = ∑ i in Finset.range n, f i := by
  induction n with
  | zero => simp
  | succ n ih =>
    rw [List.range_succ, List.map_append, List.sum_append, ih, Finset.sum_range_succ]
    simp

theorem range'_eq_map (n s : Nat) : List.range' 0 n s = (List.range n).map fun i => i * s := by
  apply List.ext_getElem
  · simp
  · intro i h1 h2
    simp [List.getElem_range', Nat.mul_comm]

theorem list_sum_ite_const {α : Type} (c : Prop) [Decidable c] (l : List α) (g : α → Int) :
    (l.map fun x => if c then g x else 0).sum = if c then (l.map g).sum else 0 := by
  by_cases h : c
  · simp [h]
  · simp [h]

theorem sumAt_position_events (a : NaiveArgs) (input_ref kernel_ref biases_ref : Buf)
    (o i h w k : Nat) :
    sumAt k (position_events a input_ref kernel_ref biases_ref o i h w)
      = (if product_index a o h w = k then
          ((List.range a.kernel_height).map fun kH =>
            ((List.range a.kernel_width).map fun kW =>
              input_ref (input_index a i h w kH kW)
                * kernel_ref (kernel_index a o i kH kW)).sum).sum
        else 0)
        + (if bias_index a o h w = k then
            (if i = 0 ∧ BiasEn = true then 1 else 0) * biases_ref o
          else 0) := by
  unfold position_events
  rw [sumAt_append, sumAt_flatMap, sumAt_cons, sumAt_nil, add_zero]
  simp only [sumAt_map_const]
  rw [list_sum_ite_const]

theorem sumAt_accumulate_events (a : NaiveArgs) (hs ws : List Nat)
    (input_ref kernel_ref biases_ref : Buf) (k : Nat) :
    sumAt k (accumulate_events a hs ws input_ref kernel_ref biases_ref)
      = ((List.range a.num_output_feature_maps).map fun o =>
          ((List.range a.num_input_feature_maps).map fun i =>
            (hs.map fun h =>
              (ws.map fun w =>
                sumAt k (position_events a input_ref kernel_ref biases_ref o i h w)).sum).sum
            ).sum).sum := by
  unfold accumulate_events
  simp only [sumAt_flatMap]

theorem sum_collapse (OFM IFM n O Y X : Nat) (hO : O < OFM) (hY : Y < n) (hX : X < n)
    (T : Nat → Nat → Nat → Nat → Int) :
    (∑ o in Finset.range OFM, ∑ i in Finset.range IFM, ∑ y in Finset.range n,
      ∑ x in Finset.range n,
        if (o * n + y) * n + x = (O * n + Y) * n + X then T o i y x else 0)
      = ∑ i in Finset.range IFM, T O i Y X := by
  rw [Finset.sum_eq_single O]
  · apply Finset.sum_congr rfl
    intro i _
    rw [Finset.sum_eq_single Y]
    · rw [Finset.sum_eq_single X]
      · simp
      · intro x hx hne
        rw [if_neg]
        intro h
        exact hne (radix_inj _ _ _ _ _ (Finset.mem_range.1 hx) hX h).2
      · intro h
        exact absurd (Finset.mem_range.2 hX) h
    · intro y hy hne
      apply Finset.sum_eq_zero
      intro x hx
      rw [if_neg]
      intro h
      have h1 := (radix_inj _ _ _ _ _ (Finset.mem_range.1 hx) hX h).1
      exact hne (radix_inj _ _ _ _ _ (Finset.mem_range.1 hy) hY h1).2
    · intro h
      exact absurd (Finset.mem_range.2 hY) h
  · intro o _ hne
    apply Finset.sum_eq_zero
    intro i _
    apply Finset.sum_eq_zero
    intro y hy
    apply Finset.sum_eq_zero
    intro x hx
    rw [if_neg]
    intro h
    have h1 := (radix_inj _ _ _ _ _ (Finset.mem_range.1 hx) hX h).1
    exact hne (radix_inj _ _ _ _ _ (Finset.mem_range.1 hy) hY h1).1
  · intro h
    exact absurd (Finset.mem_range.2 hO) h

theorem input_index_canonical (a : NaiveArgs) (i h w kH kW : Nat) :
    input_index a i (h * a.kernel_stride_y) (w * a.kernel_stride_x) kH kW
      = (i * a.input_feature_map_height + (h * a.kernel_stride_y + kH))
          * a.input_feature_map_width + (w * a.kernel_stride_x + kW) := by
  unfold input_index; ring

theorem kernel_index_canonical (a : NaiveArgs) (o i kH kW : Nat) :
    kernel_index a o i kH kW
      = ((o * a.num_input_feature_maps + i) * a.kernel_height + kH) * a.kernel_width + kW := by
  unfold kernel_index; ring

theorem ite_add_ite_zero (c : Prop) [Decidable c] (A B : Int) :
    (if c then A else 0) + (if c then B else 0) = if c then A + B else 0 := by
  split <;> simp

theorem bias_once (IFM : Nat) (hifm : 1 ≤ IFM) (b : Int) :
    (∑ i in Finset.range IFM, (if i = 0 ∧ BiasEn = true then (1 : Int) else 0) * b) = b := by
  rw [Finset.sum_eq_single 0]
  · simp [BiasEn]
  · intro i _ hne
    simp [hne]
  · intro h
    exact absurd (Finset.mem_range.2 hifm) h

/-- When the convolution output is square (`n` rows of `n` columns), the accumulator cell of
output map `O` and position `(Y, X)` holds the exact contract sum reduced to 32 bits. -/
theorem accumulate_square (a : NaiveArgs) (input_ref kernel_ref biases_ref : Buf) (n : Nat)
    (hW : a.output_feature_map_width_int = n) (hH : a.output_feature_map_height_int = n)
    (hsx : 1 ≤ a.kernel_stride_x) (hsy : 1 ≤ a.kernel_stride_y)
    (hifm : 1 ≤ a.num_input_feature_maps) (O Y X : Nat)
    (hO : O < a.num_output_feature_maps) (hY : Y < n) (hX : X < n) :
    accumulate a ((List.range n).map fun y => y * a.kernel_stride_y)
        ((List.range n).map fun x => x * a.kernel_stride_x) input_ref kernel_ref biases_ref
        (fun _ => 0) ((O * n + Y) * n + X)
      = wrap32 (conv_sum a input_ref kernel_ref biases_ref O Y X) := by
  have hp : ∀ o y x, product_index a o (y * a.kernel_stride_y) (x * a.kernel_stride_x)
      = (o * n + y) * n + x := by
    intro o y x
    unfold product_index
    rw [hW, hH, Nat.mul_div_cancel _ (by omega : 0 < a.kernel_stride_y),
      Nat.mul_div_cancel _ (by omega : 0 < a.kernel_stride_x)]
    ring
  have hb : ∀ o y x, bias_index a o (y * a.kernel_stride_y) (x * a.kernel_stride_x)
      = (o * n + y) * n + x := by
    intro o y x
    unfold bias_index
    rw [hW, hH, Nat.mul_div_cancel _ (by omega : 0 < a.kernel_stride_y),
      Nat.mul_div_cancel _ (by omega : 0 < a.kernel_stride_x)]
    ring
  rw [accumulate_eq, applyAdds_apply _ _ _ (by decide), zero_add, sumAt_accumulate_events]
  simp only [List.map_map, Function.comp_def, sumAt_position_events, hp, hb, ite_add_ite_zero,
    list_sum_range]
  congr 1
  refine (sum_collapse a.num_output_feature_maps a.num_input_feature_maps n O Y X hO hY hX
    (fun o i y x =>
      (∑ kH in Finset.range a.kernel_height, ∑ kW in Finset.range a.kernel_width,
        input_ref (input_index a i (y * a.kernel_stride_y) (x * a.kernel_stride_x) kH kW)
          * kernel_ref (kernel_index a o i kH kW))
      + (if i = 0 ∧ BiasEn = true then 1 else 0) * biases_ref o)).trans ?_
  rw [Finset.sum_add_distrib, bias_once _ hifm]
  unfold conv_sum
  simp only [list_sum_range, input_index_canonical, kernel_index_canonical]
  ring

theorem stride_positions_eq (inp k s : Nat) (hs : 1 ≤ s) :
    stride_positions (inp - k + 1) s = (List.range ((inp - k) / s + 1)).map fun i => i * s := by
  unfold stride_positions
  have e : inp - k + 1 - 0 + s - 1 = (inp - k) + s := by omega
  rw [e, Nat.add_div_right _ (by omega : 0 < s), range'_eq_map]

/-! ## The 5x5 scenario -/

theorem pool_max_scenario (oi : Buf) (o y x : Nat) :
    pool_max scenarioArgs oi o y x
      = max (max (max (max (oi ((o * 4 + 2 * y) * 4 + 2 * x)) (oi ((o * 4 + 2 * y) * 4 + 2 * x)))
              (oi ((o * 4 + 2 * y) * 4 + (2 * x + 1))))
            (oi ((o * 4 + (2 * y + 1)) * 4 + 2 * x)))
          (oi ((o * 4 + (2 * y + 1)) * 4 + (2 * x + 1))) := by
  have e0 : o * 4 * 4 + y * 2 * 4 + x * 2 = (o * 4 + 2 * y) * 4 + 2 * x := by ring
  have e1 : ∀ dy dx, o * 4 * 4 + (y * 2 + dy) * 4 + x * 2 + dx
      = (o * 4 + (2 * y + dy)) * 4 + (2 * x + dx) := by
    intro dy dx; ring
  simp only [pool_max, pool_index, scenarioArgs, e0, e1]
  rfl

theorem conv_sum_scenario (input_ref kernel_ref biases_ref : Buf) (o h w : Nat) :
    conv_sum scenarioArgs input_ref kernel_ref biases_ref o h w
      = scenario_acc input_ref kernel_ref biases_ref o h w := by
  have e1 : (0 * 5 + (h * 1 + 0)) * 5 + (w * 1 + 0) = h * 5 + w := by ring
  have e2 : (0 * 5 + (h * 1 + 0)) * 5 + (w * 1 + 1) = h * 5 + (w + 1) := by ring
  have e3 : (0 * 5 + (h * 1 + 1)) * 5 + (w * 1 + 0) = (h + 1) * 5 + w := by ring
  have e4 : (0 * 5 + (h * 1 + 1)) * 5 + (w * 1 + 1) = (h + 1) * 5 + (w + 1) := by ring
  have k1 : ((o * 1 + 0) * 2 + 0) * 2 + 0 = o * 4 := by ring
  have k2 : ((o * 1 + 0) * 2 + 0) * 2 + 1 = o * 4 + 1 := by ring
  have k3 : ((o * 1 + 0) * 2 + 1) * 2 + 0 = o * 4 + 2 := by ring
  have k4 : ((o * 1 + 0) * 2 + 1) * 2 + 1 = o * 4 + 3 := by ring
  have r1 : List.range 1 = [0] := rfl
  have r2 : List.range 2 = [0, 1] := rfl
  simp only [conv_sum, scenario_acc, scenarioArgs, r1, r2, List.map_cons, List.map_nil,
    List.sum_cons, List.sum_nil, e1, e2, e3, e4, k1, k2, k3, k4]
  ring

theorem scenario_read (input_ref kernel_ref biases_ref : Buf)
    (hrange : ∀ o < 8, ∀ h < 4, ∀ w < 4,
      -2147483648 ≤ scenario_acc input_ref kernel_ref biases_ref o h w
      ∧ scenario_acc input_ref kernel_ref biases_ref o h w ≤ 2147483647)
    (o h w : Nat) (ho : o < 8) (hh : h < 4) (hw : w < 4) :
    accumulate scenarioArgs
        (stride_positions
          (scenarioArgs.input_feature_map_height - scenarioArgs.kernel_height + 1)
          scenarioArgs.kernel_stride_y)
        (stride_positions
          (scenarioArgs.input_feature_map_width - scenarioArgs.kernel_width + 1)
          scenarioArgs.kernel_stride_x)
        input_ref kernel_ref biases_ref (fun _ => 0) ((o * 4 + h) * 4 + w)
      = scenario_acc input_ref kernel_ref biases_ref o h w := by
  rw [stride_positions_eq _ _ _ (by decide), stride_positions_eq _ _ _ (by decide)]
  have := accumulate_square scenarioArgs input_ref kernel_ref biases_ref 4 rfl rfl (by decide)
    (by decide) (by decide) o h w ho hh hw
  rw [conv_sum_scenario, wrap32_of_range _ (hrange o ho h hh w hw).1 (hrange o ho h hh w hw).2]
    at this
  exact this

theorem scenario_formula (fuel : Nat) (hfuel : 4 ≤ fuel)
    (input_ref output_ref biases_ref kernel_ref : Buf)
    (hrange : ∀ o < 8, ∀ h < 4, ∀ w < 4,
      -2147483648 ≤ scenario_acc input_ref kernel_ref biases_ref o h w
      ∧ scenario_acc input_ref kernel_ref biases_ref o h w ≤ 2147483647) :
    ∃ out, ult_nn_maxpooling_naive fuel scenarioArgs input_ref output_ref biases_ref kernel_ref
        = some out
      ∧ ∀ o y x, o < 8 → y < 2 → x < 2 →
          out ((o * 2 + y) * 2 + x) = scenario_cell input_ref kernel_ref biases_ref o y x := by
  refine ⟨_, naive_eq fuel scenarioArgs input_ref output_ref biases_ref kernel_ref (by decide)
    (by decide) (by simpa [scenarioArgs] using hfuel) (by simpa [scenarioArgs] using hfuel), ?_⟩
  intro o y x ho hy hx
  have hidx : (o * 2 + y) * 2 + x = output_index scenarioArgs o y x := by
    simp only [output_index, scenarioArgs]; ring
  rw [hidx, write_outputs_inside scenarioArgs _ _ o y x ho hy hx]
  simp only [output_value, post_pool]
  rw [wrap16_saturate, pool_max_scenario,
    scenario_read input_ref kernel_ref biases_ref hrange o (2 * y) (2 * x) ho (by omega)
      (by omega),
    scenario_read input_ref kernel_ref biases_ref hrange o (2 * y) (2 * x + 1) ho (by omega)
      (by omega),
    scenario_read input_ref kernel_ref biases_ref hrange o (2 * y + 1) (2 * x) ho (by omega)
      (by omega),
    scenario_read input_ref kernel_ref biases_ref hrange o (2 * y + 1) (2 * x + 1) ho (by omega)
      (by omega)]
  have hres : rescale scenarioArgs.accumulator_fraction scenarioArgs.output_fraction
      = fun v => v / 65536 := by
    funext v
    exact rescale_right 16 0 v (by decide)
  have hact : scenarioArgs.activation = NN_ACTIVATION_FUNCTION_RELU := rfl
  rw [hres, hact]
  simp only [activate, scenario_cell, max_self, max_assoc]

theorem scenario_acc_congr (i1 k1 b1 i2 k2 b2 : Buf) (hi : ∀ k < 25, i1 k = i2 k)
    (hk : ∀ k < 32, k1 k = k2 k) (hb : ∀ k < 8, b1 k = b2 k) (o h w : Nat) (ho : o < 8)
    (hh : h < 4) (hw : w < 4) : scenario_acc i1 k1 b1 o h w = scenario_acc i2 k2 b2 o h w := by
  unfold scenario_acc
  rw [hb o ho, hi (h * 5 + w) (by omega), hi (h * 5 + (w + 1)) (by omega),
    hi ((h + 1) * 5 + w) (by omega), hi ((h + 1) * 5 + (w + 1)) (by omega),
    hk (o * 4) (by omega), hk (o * 4 + 1) (by omega), hk (o * 4 + 2) (by omega),
    hk (o * 4 + 3) (by omega)]

theorem scenario_cell_congr (i1 k1 b1 i2 k2 b2 : Buf) (hi : ∀ k < 25, i1 k = i2 k)
    (hk : ∀ k < 32, k1 k = k2 k) (hb : ∀ k < 8, b1 k = b2 k) (o y x : Nat) (ho : o < 8)
    (hy : y < 2) (hx : x < 2) : scenario_cell i1 k1 b1 o y x = scenario_cell i2 k2 b2 o y x := by
  unfold scenario_cell
  rw [scenario_acc_congr i1 k1 b1 i2 k2 b2 hi hk hb o (2 * y) (2 * x) ho (by omega) (by omega),
    scenario_acc_congr i1 k1 b1 i2 k2 b2 hi hk hb o (2 * y) (2 * x + 1) ho (by omega) (by omega),
    scenario_acc_congr i1 k1 b1 i2 k2 b2 hi hk hb o (2 * y + 1) (2 * x) ho (by omega) (by omega),
    scenario_acc_congr i1 k1 b1 i2 k2 b2 hi hk hb o (2 * y + 1) (2 * x + 1) ho (by omega)
      (by omega)]

set_option maxRecDepth 100000 in
theorem scenario_input_ramp (m : Matrices) (inputT weightT : Buf) (k : Nat) (hk : k < 25) :
    (ult_nn_convolution_both_initialize_matrices m inputT weightT 8 1 2 2 5 5 2 2 0 0).input_ref k
      = rampBuf k := by
  interval_cases k <;> rfl

set_option maxRecDepth 100000 in
theorem scenario_kernel_ramp (m : Matrices) (inputT weightT : Buf) (k : Nat) (hk : k < 32) :
    (ult_nn_convolution_both_initialize_matrices m inputT weightT 8 1 2 2 5 5 2 2 0 0).kernel_ref k
      = scenarioKernel k := by
  interval_cases k <;> rfl

set_option maxRecDepth 100000 in
theorem scenario_bias_ramp (m : Matrices) (inputT weightT : Buf) (k : Nat) (hk : k < 8) :
    (ult_nn_convolution_both_initialize_matrices m inputT weightT 8 1 2 2 5 5 2 2 0 0).biases_ref k
      = rampBuf k := by
  interval_cases k <;> rfl

set_option maxRecDepth 100000 in
theorem scenario_ramp_range : ∀ o < 8, ∀ h < 4, ∀ w < 4,
    -2147483648 ≤ scenario_acc rampBuf scenarioKernel rampBuf o h w
    ∧ scenario_acc rampBuf scenarioKernel rampBuf o h w ≤ 2147483647 := by
  decide

set_option maxRecDepth 100000 in
theorem scenario_ramp_cells :
    (List.range 8).map
        (fun k => scenario_cell rampBuf scenarioKernel rampBuf (k / 4) (k % 4 / 2) (k % 2))
      = [0, 0, 0, 0, 4, 5, 9, 10] := by
  decide

/-- C7: in the scenario of 8 output maps, 1 input map, 5x5 input, 2x2 kernel, stride 1, 2x2 max
pooling with stride 2, ReLU, fractions 16 and 0 and no halo, for all buffer contents whose
exact accumulators fit 32 bits, the reference returns per channel a 2x2 map whose cell
`(o, y, x)` is the hand-computed `clamp16(max(0, max over the window of the accumulators)
>> 16)`; with the buffers produced by the ramp initialisation, channel 0 is all zeros and
channel 1 is the rows (4, 5) and (9, 10). -/
theorem C7_scenario (fuel : Nat) (hfuel : 4 ≤ fuel) :
    (∀ input_ref output_ref biases_ref kernel_ref : Buf,
      (∀ o < 8, ∀ h < 4, ∀ w < 4,
        -2147483648 ≤ scenario_acc input_ref kernel_ref biases_ref o h w
        ∧ scenario_acc input_ref kernel_ref biases_ref o h w ≤ 2147483647) →
      ∃ out, ult_nn_maxpooling_naive fuel scenarioArgs input_ref output_ref biases_ref kernel_ref
          = some out
        ∧ ∀ o y x, o < 8 → y < 2 → x < 2 →
            out ((o * 2 + y) * 2 + x) = scenario_cell input_ref kernel_ref biases_ref o y x)
    ∧ (∀ (m : Matrices) (inputT weightT : Buf),
      ∃ out, ult_nn_maxpooling_naive fuel scenarioArgs
          (ult_nn_convolution_both_initialize_matrices m inputT weightT 8 1 2 2 5 5 2 2 0 0).input_ref
          (ult_nn_convolution_both_initialize_matrices m inputT weightT 8 1 2 2 5 5 2 2 0 0).output_ref
          (ult_nn_convolution_both_initialize_matrices m inputT weightT 8 1 2 2 5 5 2 2 0 0).biases_ref
          (ult_nn_convolution_both_initialize_matrices m inputT weightT 8 1 2 2 5 5 2 2 0 0).kernel_ref
          = some out
        ∧ (List.range 8).map out = [0, 0, 0, 0, 4, 5, 9, 10]) := by
  refine ⟨fun input_ref output_ref biases_ref kernel_ref hrange =>
    scenario_formula fuel hfuel input_ref output_ref biases_ref kernel_ref hrange, ?_⟩
  intro m inputT weightT
  have hi := scenario_input_ramp m inputT weightT
  have hk := scenario_kernel_ramp m inputT weightT
  have hb := scenario_bias_ramp m inputT weightT
  have hrange : ∀ o < 8, ∀ h < 4, ∀ w < 4,
      -2147483648 ≤ scenario_acc
          (ult_nn_convolution_both_initialize_matrices m inputT weightT 8 1 2 2 5 5 2 2 0
            0).input_ref
          (ult_nn_convolution_both_initialize_matrices m inputT weightT 8 1 2 2 5 5 2 2 0
            0).kernel_ref
          (ult_nn_convolution_both_initialize_matrices m inputT weightT 8 1 2 2 5 5 2 2 0
            0).biases_ref o h w
      ∧ scenario_acc
          (ult_nn_convolution_both_initialize_matrices m inputT weightT 8 1 2 2 5 5 2 2 0
            0).input_ref
          (ult_nn_convolution_both_initialize_matrices m inputT weightT 8 1 2 2 5 5 2 2 0
            0).kernel_ref
          (ult_nn_convolution_both_initialize_matrices m inputT weightT 8 1 2 2 5 5 2 2 0
            0).biases_ref o h w ≤ 2147483647 := by
    intro o ho h hh w hw
    rw [scenario_acc_congr _ _ _ _ _ _ hi hk hb o h w ho hh hw]
    exact scenario_ramp_range o ho h hh w hw
  obtain ⟨out, hout, hcells⟩ := scenario_formula fuel hfuel _
    (ult_nn_convolution_both_initialize_matrices m inputT weightT 8 1 2 2 5 5 2 2 0 0).output_ref
    _ _ hrange
  refine ⟨out, hout, ?_⟩
  have hcell : ∀ k, k < 8 →
      out k = scenario_cell rampBuf scenarioKernel rampBuf (k / 4) (k % 4 / 2) (k % 2) := by
    intro k hk8
    have e : k = (k / 4 * 2 + k % 4 / 2) * 2 + k % 2 := by omega
    rw [← scenario_cell_congr _ _ _ _ _ _ hi hk hb (k / 4) (k % 4 / 2) (k % 2) (by omega)
      (by omega) (by omega), ← hcells (k / 4) (k % 4 / 2) (k % 2) (by omega) (by omega) (by omega),
      ← e]
  rw [← scenario_ramp_cells]
  apply List.map_congr_left
  intro k hk8
  exact hcell k (List.mem_range.1 hk8)

theorem C7_scenario_witness :
    ∃ out, ult_nn_maxpooling_naive 4 scenarioArgs rampBuf (constBuf 77) rampBuf scenarioKernel
        = some out
      ∧ ∀ o y x, o < 8 → y < 2 → x < 2 →
          out ((o * 2 + y) * 2 + x) = scenario_cell rampBuf scenarioKernel rampBuf o y x :=
  (C7_scenario 4 (by decide)).1 rampBuf (constBuf 77) rampBuf scenarioKernel (by decide)

/-! ## Shapes outside the tested configuration -/

/-- C1: on an input of 2 rows by 3 columns with a 1x1 kernel (a non-square convolution
output), the accumulation loops leave in the intermediate map, read row-major with `W_int`
columns, the values 100, 101, 105, 104, 105, 100, whereas the contract sums
`bias + input * weight` are 100, 101, 102, 103, 104, 105: the products are stored with the
row pitch `H_int` and the bias with the row pitch `W_int`. -/
theorem C1_nonsquare_accumulator :
    (intermediate 3 nonSquareArgs rampBuf (constBuf 100) (constBuf 1)).map
        (fun output_int => (List.range 6).map output_int)
      = some [100, 101, 105, 104, 105, 100]
    ∧ (List.range 6).map
        (fun k => wrap32 (conv_sum nonSquareArgs rampBuf (constBuf 1) (constBuf 100) 0 (k / 3)
          (k % 3)))
      = [100, 101, 102, 103, 104, 105]
    ∧ product_index nonSquareArgs 0 1 0 = 2 ∧ bias_index nonSquareArgs 0 1 0 = 3 := by
  decide

/-- C2: with a 2x2 pooling window and pooling stride 1 on the 2x2 intermediate map
0, 1, 2, 3, the value the reference feeds to the activation is 0, the maximum over a window of
`pool_stride` by `pool_stride` cells, whereas the maximum over the `pool_height` by
`pool_width` window is 3; the stored output is 0. -/
theorem C2_pool_window_is_stride :
    (intermediate 2 poolArgs rampBuf (constBuf 0) (constBuf 1)).map
        (fun output_int => ((List.range 4).map output_int, pool_max poolArgs output_int 0 0 0,
          window_max poolArgs output_int 0 0 0))
      = some ([0, 1, 2, 3], 0, 3)
    ∧ (ult_nn_maxpooling_naive 2 poolArgs rampBuf (constBuf 77) (constBuf 0) (constBuf 1)).map
        (fun out => out 0) = some 0 := by
  decide

/-! ## Weight blocking -/

theorem block_kernel_eq (B OFM IFM KW KH : Nat) (weightT kernel : Buf) :
    block_kernel B OFM IFM KW KH weightT kernel
      = applyWrites (kernel_events B OFM IFM KW KH weightT) kernel := by
  unfold block_kernel kernel_events applyWrites kernel_dest kernel_src
  simp only [foldl_flatMap_eq, List.foldl_map]

theorem mem_kernel_events (B OFM IFM KW KH : Nat) (weightT : Buf) (e : Nat × Int) :
    e ∈ kernel_events B OFM IFM KW KH weightT ↔
      ∃ k, k < OFM / B ∧ ∃ i, i < KW * KH ∧ ∃ j, j < IFM / 2 ∧ ∃ n, n < B ∧ ∃ m, m < 2 ∧
        e = (kernel_dest B (IFM / 2) KW KH k i j n m, weightT (kernel_src B IFM KW KH k i j n m))
    := by
  unfold kernel_events
  simp only [List.mem_flatMap, List.mem_map, List.mem_range]
  constructor
  · rintro ⟨k, hk, i, hi, j, hj, n, hn, m, hm, rfl⟩
    exact ⟨k, hk, i, hi, j, hj, n, hn, m, hm, rfl⟩
  · rintro ⟨k, hk, i, hi, j, hj, n, hn, m, hm, rfl⟩
    exact ⟨k, hk, i, hi, j, hj, n, hn, m, hm, rfl⟩

theorem kernel_dest_radix (B ItrIn KW KH k i j n m : Nat) :
    kernel_dest B ItrIn KW KH k i j n m
      = ((((k * (KW * KH) + i) * ItrIn + j) * B + n) * 2 + m) := by
  unfold kernel_dest; ring

theorem kernel_src_radix (B IFM KW KH k i j n m : Nat) :
    kernel_src B IFM KW KH k i j n m
      = ((k * B + n) * IFM + (2 * j + m)) * (KW * KH) + i := by
  unfold kernel_src; ring

theorem kernel_dest_inj (B ItrIn KW KH k i j n m k' i' j' n' m' : Nat)
    (hi : i < KW * KH) (hj : j < ItrIn) (hn : n < B) (hm : m < 2)
    (hi' : i' < KW * KH) (hj' : j' < ItrIn) (hn' : n' < B) (hm' : m' < 2)
    (h : kernel_dest B ItrIn KW KH k i j n m = kernel_dest B ItrIn KW KH k' i' j' n' m') :
    k = k' ∧ i = i' ∧ j = j' ∧ n = n' ∧ m = m' := by
  rw [kernel_dest_radix, kernel_dest_radix] at h
  obtain ⟨h1, em⟩ := radix_inj _ _ _ _ _ hm hm' h
  obtain ⟨h2, en⟩ := radix_inj _ _ _ _ _ hn hn' h1
  obtain ⟨h3, ej⟩ := radix_inj _ _ _ _ _ hj hj' h2
  obtain ⟨ek, ei⟩ := radix_inj _ _ _ _ _ hi hi' h3
  exact ⟨ek, ei, ej, en, em⟩

theorem kernel_src_inj (B IFM KW KH k i j n m k' i' j' n' m' : Nat)
    (hi : i < KW * KH) (hj : j < IFM / 2) (hn : n < B) (hm : m < 2)
    (hi' : i' < KW * KH) (hj' : j' < IFM / 2) (hn' : n' < B) (hm' : m' < 2) (heven : 2 ∣ IFM)
    (h : kernel_src B IFM KW KH k i j n m = kernel_src B IFM KW KH k' i' j' n' m') :
    k = k' ∧ i = i' ∧ j = j' ∧ n = n' ∧ m = m' := by
  rw [kernel_src_radix, kernel_src_radix] at h
  have hc : 2 * j + m < IFM := by
    have := Nat.div_mul_cancel heven; omega
  have hc' : 2 * j' + m' < IFM := by
    have := Nat.div_mul_cancel heven; omega
  obtain ⟨h1, ei⟩ := radix_inj _ _ _ _ _ hi hi' h
  obtain ⟨h2, ec⟩ := radix_inj _ _ _ _ _ hc hc' h1
  obtain ⟨ek, en⟩ := radix_inj _ _ _ _ _ hn hn' h2
  exact ⟨ek, ei, by omega, en, by omega⟩

theorem block_kernel_apply (B OFM IFM KW KH : Nat) (weightT kernel : Buf) (k i j n m : Nat)
    (hk : k < OFM / B) (hi : i < KW * KH) (hj : j < IFM / 2) (hn : n < B) (hm : m < 2) :
    block_kernel B OFM IFM KW KH weightT kernel (kernel_dest B (IFM / 2) KW KH k i j n m)
      = weightT (kernel_src B IFM KW KH k i j n m) := by
  rw [block_kernel_eq]
  refine applyWrites_mem _ _
    (kernel_dest B (IFM / 2) KW KH k i j n m, weightT (kernel_src B IFM KW KH k i j n m))
    ((mem_kernel_events B OFM IFM KW KH weightT _).2 ⟨k, hk, i, hi, j, hj, n, hn, m, hm, rfl⟩) ?_
  intro e1 h1 e2 h2 h
  obtain ⟨k1, _, i1, hi1, j1, hj1, n1, hn1, m1, hm1, rfl⟩ :=
    (mem_kernel_events B OFM IFM KW KH weightT e1).1 h1
  obtain ⟨k2, _, i2, hi2, j2, hj2, n2, hn2, m2, hm2, rfl⟩ :=
    (mem_kernel_events B OFM IFM KW KH weightT e2).1 h2
  obtain ⟨ek, ei, ej, en, em⟩ :=
    kernel_dest_inj B (IFM / 2) KW KH k1 i1 j1 n1 m1 k2 i2 j2 n2 m2 hi1 hj1 hn1 hm1 hi2 hj2 hn2
      hm2 h
  subst ek ei ej en em
  rfl

theorem kernel_cells_eq (B OFM IFM K : Nat) (hdvd : B ∣ OFM) (heven : 2 ∣ IFM) :
    OFM / B * K * (IFM / 2) * B * 2 = OFM * IFM * K := by
  calc OFM / B * K * (IFM / 2) * B * 2 = (OFM / B * B) * (IFM / 2 * 2) * K := by ring
    _ = OFM * IFM * K := by rw [Nat.div_mul_cancel hdvd, Nat.div_mul_cancel heven]

theorem kernel_dest_exists (B ItrOut ItrIn KW KH d : Nat)
    (hd : d < ItrOut * (KW * KH) * ItrIn * B * 2) :
    ∃ k i j n m, k < ItrOut ∧ i < KW * KH ∧ j < ItrIn ∧ n < B ∧ m < 2
      ∧ kernel_dest B ItrIn KW KH k i j n m = d := by
  obtain ⟨h1, hm⟩ := channel_of_lt _ 2 d hd
  obtain ⟨h2, hn⟩ := channel_of_lt _ B (d / 2) h1
  obtain ⟨h3, hj⟩ := channel_of_lt _ ItrIn (d / 2 / B) h2
  obtain ⟨hk, hi⟩ := channel_of_lt _ (KW * KH) (d / 2 / B / ItrIn) h3
  refine ⟨d / 2 / B / ItrIn / (KW * KH), d / 2 / B / ItrIn % (KW * KH), d / 2 / B % ItrIn,
    d / 2 % B, d % 2, hk, hi, hj, hn, hm, ?_⟩
  rw [kernel_dest_radix, ← canonical_split (KW * KH), ← canonical_split ItrIn,
    ← canonical_split B, ← canonical_split 2]

theorem kernel_blocked_index_canonical (B IFM KW KH o c t : Nat) (hc : c < IFM)
    (ht : t < KW * KH) :
    kernel_blocked_index B IFM KW KH ((o * IFM + c) * (KW * KH) + t)
      = kernel_dest B (IFM / 2) KW KH (o / B) t (c / 2) (o % B) (c % 2) := by
  have hK : 0 < KW * KH := by omega
  have hI : 0 < IFM := by omega
  have h1 : ((o * IFM + c) * (KW * KH) + t) / (KW * KH) = o * IFM + c := by
    rw [Nat.add_comm, Nat.add_mul_div_right _ _ hK, Nat.div_eq_of_lt ht, Nat.zero_add]
  have h2 : ((o * IFM + c) * (KW * KH) + t) % (KW * KH) = t := by
    rw [Nat.add_comm, Nat.add_mul_mod_self_right, Nat.mod_eq_of_lt ht]
  have h3 : (o * IFM + c) / IFM = o := by
    rw [Nat.add_comm, Nat.add_mul_div_right _ _ hI, Nat.div_eq_of_lt hc, Nat.zero_add]
  have h4 : (o * IFM + c) % IFM = c := by
    rw [Nat.add_comm, Nat.add_mul_mod_self_right, Nat.mod_eq_of_lt hc]
  unfold kernel_blocked_index
  rw [h1, h2, h3, h4]

theorem block_kernel_canonical (B OFM IFM KW KH : Nat) (hB : 0 < B) (hdvd : B ∣ OFM)
    (heven : 2 ∣ IFM) (weightT kernel : Buf) (o c t : Nat) (ho : o < OFM) (hc : c < IFM)
    (ht : t < KW * KH) :
    block_kernel B OFM IFM KW KH weightT kernel
        (kernel_dest B (IFM / 2) KW KH (o / B) t (c / 2) (o % B) (c % 2))
      = weightT ((o * IFM + c) * (KW * KH) + t) := by
  rw [block_kernel_apply B OFM IFM KW KH weightT kernel (o / B) t (c / 2) (o % B) (c % 2)
    (Nat.div_lt_div_of_lt_of_dvd hdvd ho) ht (Nat.div_lt_div_of_lt_of_dvd heven hc)
    (Nat.mod_lt _ hB) (Nat.mod_lt _ (by decide)), kernel_src_radix]
  have e1 : o / B * B + o % B = o := by
    have := Nat.div_add_mod o B; rw [Nat.mul_comm] at this; exact this
  have e2 : 2 * (c / 2) + c % 2 = c := Nat.div_add_mod c 2
  rw [e1, e2]

theorem canonical_weight_split (IFM K s : Nat) :
    s = (s / K / IFM * IFM + s / K % IFM) * K + s % K := by
  rw [← canonical_split IFM, ← canonical_split K]

theorem canonical_weight_lt (OFM IFM K s : Nat) (hs : s < OFM * IFM * K) :
    s / K / IFM < OFM ∧ s / K % IFM < IFM ∧ s % K < K := by
  obtain ⟨h1, ht⟩ := channel_of_lt _ K s hs
  obtain ⟨ho, hc⟩ := channel_of_lt _ IFM (s / K) h1
  exact ⟨ho, hc, ht⟩

theorem kernel_dest_lt (B ItrOut ItrIn KW KH k i j n m : Nat) (hk : k < ItrOut)
    (hi : i < KW * KH) (hj : j < ItrIn) (hn : n < B) (hm : m < 2) :
    kernel_dest B ItrIn KW KH k i j n m < ItrOut * (KW * KH) * ItrIn * B * 2 := by
  rw [kernel_dest_radix]
  exact radix_lt _ _ _ _ (radix_lt _ _ _ _ (radix_lt _ _ _ _ (radix_lt _ _ _ _ hk hi) hj) hn) hm

theorem kernel_blocked_index_lt (B OFM IFM KW KH s : Nat) (hB : 0 < B) (hdvd : B ∣ OFM)
    (heven : 2 ∣ IFM) (hs : s < OFM * IFM * (KW * KH)) :
    kernel_blocked_index B IFM KW KH s < OFM * IFM * (KW * KH) := by
  obtain ⟨ho, hc, ht⟩ := canonical_weight_lt OFM IFM (KW * KH) s hs
  rw [← kernel_cells_eq B OFM IFM (KW * KH) hdvd heven]
  unfold kernel_blocked_index
  exact kernel_dest_lt B (OFM / B) (IFM / 2) KW KH _ _ _ _ _
    (Nat.div_lt_div_of_lt_of_dvd hdvd ho) ht (Nat.div_lt_div_of_lt_of_dvd heven hc)
    (Nat.mod_lt _ hB) (Nat.mod_lt _ (by decide))

theorem kernel_blocked_index_inj (B OFM IFM KW KH s s' : Nat) (hB : 0 < B) (heven : 2 ∣ IFM)
    (hs : s < OFM * IFM * (KW * KH)) (hs' : s' < OFM * IFM * (KW * KH))
    (h : kernel_blocked_index B IFM KW KH s = kernel_blocked_index B IFM KW KH s') : s = s' := by
  obtain ⟨_, hc, ht⟩ := canonical_weight_lt OFM IFM (KW * KH) s hs
  obtain ⟨_, hc', ht'⟩ := canonical_weight_lt OFM IFM (KW * KH) s' hs'
  unfold kernel_blocked_index at h
  obtain ⟨ek, ei, ej, en, em⟩ := kernel_dest_inj B (IFM / 2) KW KH _ _ _ _ _ _ _ _ _ _ ht
    (Nat.div_lt_div_of_lt_of_dvd heven hc) (Nat.mod_lt _ hB) (Nat.mod_lt _ (by decide)) ht'
    (Nat.div_lt_div_of_lt_of_dvd heven hc') (Nat.mod_lt _ hB) (Nat.mod_lt _ (by decide)) h
  have eo : s / (KW * KH) / IFM = s' / (KW * KH) / IFM := by
    rw [← Nat.mod_add_div (s / (KW * KH) / IFM) B, ← Nat.mod_add_div (s' / (KW * KH) / IFM) B,
      ek, en]
  have ec : s / (KW * KH) % IFM = s' / (KW * KH) % IFM := by omega
  rw [canonical_weight_split IFM (KW * KH) s, canonical_weight_split IFM (KW * KH) s', eo, ec, ei]

theorem kernel_blocked_index_surj (B OFM IFM KW KH d : Nat) (hB : 0 < B) (hdvd : B ∣ OFM)
    (heven : 2 ∣ IFM) (hd : d < OFM * IFM * (KW * KH)) :
    ∃ s, s < OFM * IFM * (KW * KH) ∧ kernel_blocked_index B IFM KW KH s = d := by
  rw [← kernel_cells_eq B OFM IFM (KW * KH) hdvd heven] at hd
  obtain ⟨k, i, j, n, m, hk, hi, hj, hn, hm, hdest⟩ :=
    kernel_dest_exists B (OFM / B) (IFM / 2) KW KH d hd
  have ho : k * B + n < OFM := by
    have := radix_lt _ _ _ _ hk hn
    rwa [Nat.div_mul_cancel hdvd] at this
  have hc : 2 * j + m < IFM := by
    have := Nat.div_mul_cancel heven; omega
  refine ⟨((k * B + n) * IFM + (2 * j + m)) * (KW * KH) + i,
    radix_lt _ _ _ _ (radix_lt _ _ _ _ ho hc) hi, ?_⟩
  rw [kernel_blocked_index_canonical B IFM KW KH _ _ _ hc hi]
  have e1 : (k * B + n) / B = k := by
    rw [Nat.add_comm, Nat.add_mul_div_right _ _ hB, Nat.div_eq_of_lt hn, Nat.zero_add]
  have e2 : (k * B + n) % B = n := by
    rw [Nat.add_comm, Nat.add_mul_mod_self_right, Nat.mod_eq_of_lt hn]
  have e3 : (2 * j + m) / 2 = j := by omega
  have e4 : (2 * j + m) % 2 = m := by omega
  rw [e1, e2, e3, e4]
  exact hdest

/-- C11: for an output-channel count that is a multiple of `OFMBlock = 32` and an even
input-channel count, the weight-blocking loop nest maps the canonical weight indices
bijectively onto `[0, OFM * IFM * KW * KH)`: every cell of `kernel` is the destination of
exactly one iteration `(k, i, j, n, m)`, distinct iterations read distinct canonical cells,
the canonical weight `(o, c, kr, kc)` is stored at its blocked offset whatever `kernel` held
before, and the inverse gather gives back the canonical weight buffer. -/
theorem C11_weight_blocking_bijection (OFM IFM KW KH : Nat) (hdvd : 32 ∣ OFM)
    (heven : 2 ∣ IFM) :
    Set.BijOn (kernel_blocked_index 32 IFM KW KH) {s | s < OFM * IFM * KW * KH}
      {d | d < OFM * IFM * KW * KH}
    ∧ (∀ d, d < OFM * IFM * KW * KH → ∃! p : Nat × Nat × Nat × Nat × Nat,
        p.1 < OFM / 32 ∧ p.2.1 < KW * KH ∧ p.2.2.1 < IFM / 2 ∧ p.2.2.2.1 < 32 ∧ p.2.2.2.2 < 2
        ∧ kernel_dest 32 (IFM / 2) KW KH p.1 p.2.1 p.2.2.1 p.2.2.2.1 p.2.2.2.2 = d)
    ∧ (∀ k i j n m k' i' j' n' m' : Nat, i < KW * KH → j < IFM / 2 → n < 32 → m < 2 →
        i' < KW * KH → j' < IFM / 2 → n' < 32 → m' < 2 →
        kernel_src 32 IFM KW KH k i j n m = kernel_src 32 IFM KW KH k' i' j' n' m' →
        k = k' ∧ i = i' ∧ j = j' ∧ n = n' ∧ m = m')
    ∧ (∀ (weightT kernel : Buf) (o c kr kc : Nat), o < OFM → c < IFM → kr < KH → kc < KW →
        block_kernel 32 OFM IFM KW KH weightT kernel
            (kernel_blocked_index 32 IFM KW KH (kc + kr * KW + c * KW * KH + o * KW * KH * IFM))
          = weightT (kc + kr * KW + c * KW * KH + o * KW * KH * IFM))
    ∧ (∀ (weightT kernel : Buf) (s : Nat), s < OFM * IFM * KW * KH →
        unblock_kernel 32 IFM KW KH (block_kernel 32 OFM IFM KW KH weightT kernel) s
          = weightT s) := by
  have hN : OFM * IFM * KW * KH = OFM * IFM * (KW * KH) := by ring
  have hB : 0 < 32 := by decide
  have hstored : ∀ (weightT kernel : Buf) (o c t : Nat), o < OFM → c < IFM → t < KW * KH →
      block_kernel 32 OFM IFM KW KH weightT kernel
          (kernel_blocked_index 32 IFM KW KH ((o * IFM + c) * (KW * KH) + t))
        = weightT ((o * IFM + c) * (KW * KH) + t) := by
    intro weightT kernel o c t ho hc ht
    rw [kernel_blocked_index_canonical 32 IFM KW KH o c t hc ht]
    exact block_kernel_canonical 32 OFM IFM KW KH hB hdvd heven weightT kernel o c t ho hc ht
  rw [hN]
  refine ⟨⟨?_, ?_, ?_⟩, ?_, ?_, ?_, ?_⟩
  · intro s hs
    exact kernel_blocked_index_lt 32 OFM IFM KW KH s hB hdvd heven hs
  · intro s hs s' hs' h
    exact kernel_blocked_index_inj 32 OFM IFM KW KH s s' hB heven hs hs' h
  · intro d hd
    obtain ⟨s, hs, h⟩ := kernel_blocked_index_surj 32 OFM IFM KW KH d hB hdvd heven hd
    exact ⟨s, hs, h⟩
  · intro d hd
    rw [← kernel_cells_eq 32 OFM IFM (KW * KH) hdvd heven] at hd
    obtain ⟨k, i, j, n, m, hk, hi, hj, hn, hm, hdest⟩ :=
      kernel_dest_exists 32 (OFM / 32) (IFM / 2) KW KH d hd
    refine ⟨(k, i, j, n, m), ⟨hk, hi, hj, hn, hm, hdest⟩, ?_⟩
    rintro ⟨k', i', j', n', m'⟩ ⟨_, hi', hj', hn', hm', hdest'⟩
    simp only at hi' hj' hn' hm' hdest'
    obtain ⟨ek, ei, ej, en, em⟩ := kernel_dest_inj 32 (IFM / 2) KW KH k' i' j' n' m' k i j n m
      hi' hj' hn' hm' hi hj hn hm (hdest'.trans hdest.symm)
    rw [ek, ei, ej, en, em]
  · intro k i j n m k' i' j' n' m' hi hj hn hm hi' hj' hn' hm' h
    exact kernel_src_inj 32 IFM KW KH k i j n m k' i' j' n' m' hi hj hn hm hi' hj' hn' hm'
      heven h
  · intro weightT kernel o c kr kc ho hc hkr hkc
    have e : kc + kr * KW + c * KW * KH + o * KW * KH * IFM
        = (o * IFM + c) * (KW * KH) + (kr * KW + kc) := by ring
    have ht : kr * KW + kc < KW * KH := by
      have := radix_lt KH KW kr kc hkr hkc
      rwa [Nat.mul_comm KH KW] at this
    rw [e]
    exact hstored weightT kernel o c (kr * KW + kc) ho hc ht
  · intro weightT kernel s hs
    obtain ⟨ho, hc, ht⟩ := canonical_weight_lt OFM IFM (KW * KH) s hs
    unfold unblock_kernel
    have hsplit := canonical_weight_split IFM (KW * KH) s
    rw [hsplit]
    exact hstored weightT kernel _ _ _ ho hc ht

theorem C11_weight_blocking_bijection_witness :
    unblock_kernel 32 4 3 2 (block_kernel 32 64 4 3 2 rampBuf (constBuf 0)) 1000 = rampBuf 1000
    ∧ block_kernel 32 64 4 3 2 rampBuf (constBuf 0)
        (kernel_blocked_index 32 4 3 2 (1 + 1 * 3 + 2 * 3 * 2 + 40 * 3 * 2 * 4))
      = rampBuf (1 + 1 * 3 + 2 * 3 * 2 + 40 * 3 * 2 * 4) :=
  ⟨(C11_weight_blocking_bijection 64 4 3 2 (by decide) (by decide)).2.2.2.2 rampBuf (constBuf 0)
      1000 (by decide),
   (C11_weight_blocking_bijection 64 4 3 2 (by decide) (by decide)).2.2.2.1 rampBuf (constBuf 0)
      40 2 1 1 (by decide) (by decide) (by decide) (by decide)⟩

theorem weight_offset_eq (IFM KW KH o c kr kc : Nat) (hc : c < IFM) (hkr : kr < KH)
    (hkc : kc < KW) :
    weight_offset IFM KW KH o c kr kc
      = c % 2 + 2 * (o % 32) + 64 * (c / 2) + 64 * (IFM / 2) * (kr * KW + kc)
        + 64 * (IFM / 2) * (KW * KH) * (o / 32) := by
  have e : kc + kr * KW + c * KW * KH + o * KW * KH * IFM
      = (o * IFM + c) * (KW * KH) + (kr * KW + kc) := by ring
  have ht : kr * KW + kc < KW * KH := by
    have := radix_lt KH KW kr kc hkr hkc
    rwa [Nat.mul_comm KH KW] at this
  unfold weight_offset
  rw [e, kernel_blocked_index_canonical 32 IFM KW KH o c _ hc ht]
  unfold kernel_dest
  ring

theorem block_kernel_weight (OFM IFM KW KH : Nat) (hdvd : 32 ∣ OFM) (heven : 2 ∣ IFM)
    (weightT kernel : Buf) (o c kr kc : Nat) (ho : o < OFM) (hc : c < IFM) (hkr : kr < KH)
    (hkc : kc < KW) :
    block_kernel 32 OFM IFM KW KH weightT kernel (weight_offset IFM KW KH o c kr kc)
      = weightT (kc + kr * KW + c * KW * KH + o * KW * KH * IFM) := by
  have e : kc + kr * KW + c * KW * KH + o * KW * KH * IFM
      = (o * IFM + c) * (KW * KH) + (kr * KW + kc) := by ring
  have ht : kr * KW + kc < KW * KH := by
    have := radix_lt KH KW kr kc hkr hkc
    rwa [Nat.mul_comm KH KW] at this
  unfold weight_offset
  rw [e, kernel_blocked_index_canonical 32 IFM KW KH o c _ hc ht]
  exact block_kernel_canonical 32 OFM IFM KW KH (by decide) hdvd heven weightT kernel o c _ ho hc
    ht

/-- C12 as amended: in the blocked weight buffer the axes are ordered, fastest first: input
map within a pair (step 1), output map within its block of 32 (step 2), input-map pair
(step 64), kernel column (step `64 * (IFM / 2)`), kernel row (step `64 * (IFM / 2) * KW`),
output block (step `64 * (IFM / 2) * KW * KH`); the canonical weight `(o, c, kr, kc)` is
stored at `weight_offset`. -/
theorem C12_weight_axis_order (OFM IFM KW KH : Nat) (hdvd : 32 ∣ OFM) (heven : 2 ∣ IFM)
    (o c kr kc : Nat) (ho : o < OFM) (hc : c < IFM) (hkr : kr < KH) (hkc : kc < KW) :
    (∀ weightT kernel : Buf,
        block_kernel 32 OFM IFM KW KH weightT kernel (weight_offset IFM KW KH o c kr kc)
          = weightT (kc + kr * KW + c * KW * KH + o * KW * KH * IFM))
    ∧ (c % 2 = 0 →
        weight_offset IFM KW KH o (c + 1) kr kc = weight_offset IFM KW KH o c kr kc + 1)
    ∧ (o % 32 < 31 →
        weight_offset IFM KW KH (o + 1) c kr kc = weight_offset IFM KW KH o c kr kc + 2)
    ∧ (c + 2 < IFM →
        weight_offset IFM KW KH o (c + 2) kr kc = weight_offset IFM KW KH o c kr kc + 64)
    ∧ (kc + 1 < KW →
        weight_offset IFM KW KH o c kr (kc + 1)
          = weight_offset IFM KW KH o c kr kc + 64 * (IFM / 2))
    ∧ (kr + 1 < KH →
        weight_offset IFM KW KH o c (kr + 1) kc
          = weight_offset IFM KW KH o c kr kc + 64 * (IFM / 2) * KW)
    ∧ weight_offset IFM KW KH (o + 32) c kr kc
        = weight_offset IFM KW KH o c kr kc + 64 * (IFM / 2) * KW * KH := by
  refine ⟨?_, ?_, ?_, ?_, ?_, ?_, ?_⟩
  · intro weightT kernel
    exact block_kernel_weight OFM IFM KW KH hdvd heven weightT kernel o c kr kc ho hc hkr hkc
  · intro hpar
    have hc1 : c + 1 < IFM := by
      have := Nat.div_mul_cancel heven; omega
    rw [weight_offset_eq IFM KW KH o (c + 1) kr kc hc1 hkr hkc,
      weight_offset_eq IFM KW KH o c kr kc hc hkr hkc]
    have e1 : (c + 1) % 2 = c % 2 + 1 := by omega
    have e2 : (c + 1) / 2 = c / 2 := by omega
    rw [e1, e2]; ring
  · intro hlane
    rw [weight_offset_eq IFM KW KH (o + 1) c kr kc hc hkr hkc,
      weight_offset_eq IFM KW KH o c kr kc hc hkr hkc]
    have e1 : (o + 1) % 32 = o % 32 + 1 := by omega
    have e2 : (o + 1) / 32 = o / 32 := by omega
    rw [e1, e2]; ring
  · intro hc2
    rw [weight_offset_eq IFM KW KH o (c + 2) kr kc hc2 hkr hkc,
      weight_offset_eq IFM KW KH o c kr kc hc hkr hkc]
    have e1 : (c + 2) % 2 = c % 2 := by omega
    have e2 : (c + 2) / 2 = c / 2 + 1 := by omega
    rw [e1, e2]; ring
  · intro hkc1
    rw [weight_offset_eq IFM KW KH o c kr (kc + 1) hc hkr hkc1,
      weight_offset_eq IFM KW KH o c kr kc hc hkr hkc]
    ring
  · intro hkr1
    rw [weight_offset_eq IFM KW KH o c (kr + 1) kc hc hkr1 hkc,
      weight_offset_eq IFM KW KH o c kr kc hc hkr hkc]
    ring
  · rw [weight_offset_eq IFM KW KH (o + 32) c kr kc hc hkr hkc,
      weight_offset_eq IFM KW KH o c kr kc hc hkr hkc]
    have e1 : (o + 32) % 32 = o % 32 := by omega
    have e2 : (o + 32) / 32 = o / 32 + 1 := by omega
    rw [e1, e2]; ring

theorem C12_weight_axis_order_witness :
    weight_offset 4 3 2 5 (2 + 1) 1 1 = weight_offset 4 3 2 5 2 1 1 + 1
    ∧ weight_offset 4 3 2 5 2 1 (1 + 1) = weight_offset 4 3 2 5 2 1 1 + 64 * (4 / 2) :=
  ⟨(C12_weight_axis_order 64 4 3 2 (by decide) (by decide) 5 2 1 1 (by decide) (by decide)
      (by decide) (by decide)).2.1 (by decide),
   (C12_weight_axis_order 64 4 3 2 (by decide) (by decide) 5 2 1 1 (by decide) (by decide)
      (by decide) (by decide)).2.2.2.2.1 (by decide)⟩

set_option maxRecDepth 100000 in
/-- C12 as stated fails: with 32 output maps, 2 input maps and a kernel of 1 row by 2 columns,
the weights `(0, 0, 0, 0)` and `(0, 0, 0, 1)`, which differ only in kernel column, are stored
64 cells apart; the cell next to the first one holds the weight of input map 1. -/
theorem C12_kernel_column_not_adjacent :
    weight_offset 2 2 1 0 0 0 0 = 0
    ∧ weight_offset 2 2 1 0 0 0 1 = 64
    ∧ weight_offset 2 2 1 0 0 0 1 ≠ weight_offset 2 2 1 0 0 0 0 + 1
    ∧ block_kernel 32 32 2 2 1 rampBuf (constBuf (-1)) 0 = rampBuf 0
    ∧ block_kernel 32 32 2 2 1 rampBuf (constBuf (-1)) 64 = rampBuf 1
    ∧ block_kernel 32 32 2 2 1 rampBuf (constBuf (-1)) 1 = rampBuf (0 + 0 * 2 + 1 * 2 * 1) := by
  decide

/-! ## The equivalence checker -/

theorem compare_loop_false (f g : Buf) (l : List Nat) :
    l.foldl (fun passed i => if passed = true ∧ f i ≠ g i then false else passed) false
      = false := by
  induction l with
  | nil => rfl
  | cons x xs ih => simpa using ih

theorem compare_loop_true (f g : Buf) (l : List Nat) :
    l.foldl (fun passed i => if passed = true ∧ f i ≠ g i then false else passed) true = true
      ↔ ∀ i ∈ l, f i = g i := by
  induction l with
  | nil => simp
  | cons x xs ih =>
    rw [List.foldl_cons]
    by_cases h : f x = g x
    · simp only [h, ne_eq, not_true_eq_false, and_false, if_false]
      rw [ih]
      simp [h]
    · simp only [h, ne_eq, not_false_eq_true, and_self, if_true]
      rw [compare_loop_false]
      simp [h]

theorem check_outputs_iff (outputOpt output_ref outputT : Buf) (OFM ow oh cx cy : Nat) :
    ult_nn_convolution_check_outputs outputOpt output_ref outputT OFM ow oh cx cy = true
      ↔ ∀ d, d < (ow + 2 * cx) * (oh + 2 * cy) * OFM →
          block_channels 8 OFM ((ow + 2 * cx) * (oh + 2 * cy)) output_ref outputT d
            = outputOpt d := by
  unfold ult_nn_convolution_check_outputs
  simp only [compare_loop_true, List.mem_range]

theorem check_outputs_canonical (outputOpt output_ref outputT : Buf) (OFM ow oh cx cy : Nat)
    (hdvd : 8 ∣ OFM) :
    ult_nn_convolution_check_outputs outputOpt output_ref outputT OFM ow oh cx cy = true
      ↔ ∀ c j, c < OFM → j < (ow + 2 * cx) * (oh + 2 * cy) →
          outputOpt (c % 8 + 8 * j + 8 * ((ow + 2 * cx) * (oh + 2 * cy)) * (c / 8))
            = output_ref (c * ((ow + 2 * cx) * (oh + 2 * cy)) + j) := by
  rw [check_outputs_iff]
  have hidx : ∀ c j S : Nat, c % 8 + 8 * j + 8 * S * (c / 8) = c % 8 + j * 8 + c / 8 * S * 8 := by
    intro c j S; ring
  constructor
  · intro h c j hc hj
    have hd : c % 8 + j * 8 + c / 8 * ((ow + 2 * cx) * (oh + 2 * cy)) * 8
        < (ow + 2 * cx) * (oh + 2 * cy) * OFM := by
      have := blocked_index_lt 8 OFM ((ow + 2 * cx) * (oh + 2 * cy))
        (c * ((ow + 2 * cx) * (oh + 2 * cy)) + j) (by decide) hdvd (radix_lt _ _ _ _ hc hj)
      rw [blocked_index_canonical 8 _ c j hj] at this
      rw [Nat.mul_comm _ OFM]
      exact this
    rw [hidx, ← h _ hd]
    exact block_channels_canonical 8 OFM _ (by decide) hdvd output_ref outputT c j hc hj
  · intro h d hd
    rw [Nat.mul_comm _ OFM] at hd
    obtain ⟨hi, hj, hn, hsum⟩ := block_dest_exists 8 OFM _ d (by decide) hdvd hd
    have hc : d / 8 / ((ow + 2 * cx) * (oh + 2 * cy)) * 8 + d % 8 < OFM := by
      have := radix_lt _ _ _ _ hi hn
      rwa [Nat.div_mul_cancel hdvd] at this
    have e1 : (d / 8 / ((ow + 2 * cx) * (oh + 2 * cy)) * 8 + d % 8) % 8 = d % 8 := by omega
    have e2 : (d / 8 / ((ow + 2 * cx) * (oh + 2 * cy)) * 8 + d % 8) / 8
        = d / 8 / ((ow + 2 * cx) * (oh + 2 * cy)) := by omega
    have hopt := h _ _ hc hj
    rw [hidx, e1, e2, hsum] at hopt
    rw [hopt]
    have hblk := block_channels_canonical 8 OFM _ (by decide) hdvd output_ref outputT _ _ hc hj
    rw [e1, e2, hsum] at hblk
    exact hblk

/-- C13: for an output-channel count that is a multiple of 8, the checker returns true exactly
when the optimized buffer, read through the blocked layout, equals the reference
element-wise over all channels and all padded spatial positions (halo included); one
differing element makes it return false. -/
theorem C13_check_outputs (outputOpt output_ref outputT : Buf) (OFM ow oh cx cy : Nat)
    (hdvd : 8 ∣ OFM) :
    (ult_nn_convolution_check_outputs outputOpt output_ref outputT OFM ow oh cx cy = true
      ↔ ∀ c j, c < OFM → j < (ow + 2 * cx) * (oh + 2 * cy) →
          outputOpt (c % 8 + 8 * j + 8 * ((ow + 2 * cx) * (oh + 2 * cy)) * (c / 8))
            = output_ref (c * ((ow + 2 * cx) * (oh + 2 * cy)) + j))
    ∧ (∀ c j, c < OFM → j < (ow + 2 * cx) * (oh + 2 * cy) →
        outputOpt (c % 8 + 8 * j + 8 * ((ow + 2 * cx) * (oh + 2 * cy)) * (c / 8))
          ≠ output_ref (c * ((ow + 2 * cx) * (oh + 2 * cy)) + j) →
        ult_nn_convolution_check_outputs outputOpt output_ref outputT OFM ow oh cx cy
          = false) := by
  refine ⟨check_outputs_canonical outputOpt output_ref outputT OFM ow oh cx cy hdvd, ?_⟩
  intro c j hc hj hne
  cases hres : ult_nn_convolution_check_outputs outputOpt output_ref outputT OFM ow oh cx cy
  · rfl
  · exact absurd
      ((check_outputs_canonical outputOpt output_ref outputT OFM ow oh cx cy hdvd).1 hres c j
        hc hj) hne

theorem C13_check_outputs_witness :
    ult_nn_convolution_check_outputs
        (block_channels 8 8 9 rampBuf (constBuf 0)) rampBuf (constBuf 5) 8 1 1 1 1 = true
    ∧ ult_nn_convolution_check_outputs
        ((block_channels 8 8 9 rampBuf (constBuf 0)).set 3 (-1)) rampBuf (constBuf 5) 8 1 1 1 1
      = false :=
  ⟨((C13_check_outputs (block_channels 8 8 9 rampBuf (constBuf 0)) rampBuf (constBuf 5) 8 1 1 1 1
      (by decide)).1).2 (fun c j hc hj => by
        have h := block_channels_canonical 8 8 9 (by decide) (by decide) rampBuf (constBuf 0) c j
          hc hj
        have e : c % 8 + 8 * j + 8 * ((1 + 2 * 1) * (1 + 2 * 1)) * (c / 8)
            = c % 8 + j * 8 + c / 8 * 9 * 8 := by ring
        rw [e]; exact h),
   (C13_check_outputs ((block_channels 8 8 9 rampBuf (constBuf 0)).set 3 (-1)) rampBuf
      (constBuf 5) 8 1 1 1 1 (by decide)).2 3 0 (by decide) (by decide) (by decide)⟩

/-! ## Channel padding of the test driver -/

/-- C16: for a request of 8 output maps the padding step of `ult_perform_test` hands 8 output
channels to the layout transforms: a multiple of `OFMOutBlock = 8` but not of
`OFMBlock = 32`, so that the weight-blocking loop nest runs `8 / 32 = 0` outer iterations and
leaves the blocked weight buffer as it was; a request of 40 is padded to 40, again not a
multiple of 32. -/
theorem C16_padding_misses_weight_block :
    (ult_perform_test_sizes 8 5 5 2 2 1 1 2 2 2 2).num_output_feature_maps = 8
    ∧ (ult_perform_test_sizes 8 5 5 2 2 1 1 2 2 2 2).num_output_feature_maps % 8 = 0
    ∧ (ult_perform_test_sizes 8 5 5 2 2 1 1 2 2 2 2).num_output_feature_maps % 32 ≠ 0
    ∧ (∀ (IFM KW KH : Nat) (weightT kernel : Buf),
        block_kernel 32 (ult_perform_test_sizes 8 5 5 2 2 1 1 2 2 2 2).num_output_feature_maps
          IFM KW KH weightT kernel = kernel)
    ∧ (ult_perform_test_sizes 40 5 5 2 2 1 1 2 2 2 2).num_output_feature_maps = 40
    ∧ (ult_perform_test_sizes 40 5 5 2 2 1 1 2 2 2 2).num_output_feature_maps % 32 ≠ 0 := by
  refine ⟨by decide, by decide, by decide, ?_, by decide, by decide⟩
  intro IFM KW KH weightT kernel
  have h8 : (ult_perform_test_sizes 8 5 5 2 2 1 1 2 2 2 2).num_output_feature_maps = 8 := by
    decide
  rw [h8]
  rfl

/-! ## Bounds and iteration counts of the position loops -/

theorem strideIters_mem_lt (fuel limit stride itr : Nat) (l : List Nat)
    (h : strideIters fuel limit stride itr = some l) : ∀ x ∈ l, x < limit := by
  induction fuel generalizing itr l with
  | zero =>
    by_cases hlt : itr < limit
    · simp [strideIters, hlt] at h
    · simp only [strideIters, if_neg hlt, Option.some.injEq] at h
      subst h
      intro x hx; cases hx
  | succ n ih =>
    by_cases hlt : itr < limit
    · simp only [strideIters, if_pos hlt, Option.map_eq_some'] at h
      obtain ⟨l', hl', rfl⟩ := h
      intro x hx
      rcases List.mem_cons.1 hx with rfl | hx'
      · exact hlt
      · exact ih _ _ hl' x hx'
    · simp only [strideIters, if_neg hlt, Option.some.injEq] at h
      subst h
      intro x hx; cases hx

theorem input_index_rows (a : NaiveArgs) (i h w kH kW : Nat) :
    input_index a i h w kH kW
      = (i * a.input_feature_map_height + (h + kH)) * a.input_feature_map_width + (w + kW) := by
  unfold input_index; ring

theorem input_index_lt (a : NaiveArgs) (i h w kH kW : Nat) (hi : i < a.num_input_feature_maps)
    (hh : h + kH < a.input_feature_map_height) (hw : w + kW < a.input_feature_map_width) :
    input_index a i h w kH kW
      < a.num_input_feature_maps * a.input_feature_map_width * a.input_feature_map_height := by
  rw [input_index_rows]
  have := radix_lt _ _ _ _ (radix_lt _ _ _ _ hi hh) hw
  calc _ < a.num_input_feature_maps * a.input_feature_map_height * a.input_feature_map_width :=
        this
    _ = _ := by ring

theorem kernel_index_lt (a : NaiveArgs) (o i kH kW : Nat) (ho : o < a.num_output_feature_maps)
    (hi : i < a.num_input_feature_maps) (hkH : kH < a.kernel_height)
    (hkW : kW < a.kernel_width) :
    kernel_index a o i kH kW
      < a.num_output_feature_maps * a.num_input_feature_maps * a.kernel_height
          * a.kernel_width := by
  rw [kernel_index_canonical]
  exact radix_lt _ _ _ _ (radix_lt _ _ _ _ (radix_lt _ _ _ _ ho hi) hkH) hkW

/-- C18: for `kernel ≤ input` in both dimensions and strides `≥ 1`, both position loops
terminate and every visited window lies inside its input channel: `hItr + kH < height` and
`wItr + kW < width`, the input read index is the canonical index of row `hItr + kH` and
column `wItr + kW` of channel `ifmItr` and is below `IFM * W * H`, and the weight read index
is below `OFM * IFM * KH * KW`. -/
theorem C18_window_inside_input (fuel : Nat) (a : NaiveArgs)
    (hkw : a.kernel_width ≤ a.input_feature_map_width)
    (hkh : a.kernel_height ≤ a.input_feature_map_height)
    (hsx : 1 ≤ a.kernel_stride_x) (hsy : 1 ≤ a.kernel_stride_y)
    (hfh : a.input_feature_map_height - a.kernel_height + 1 ≤ fuel)
    (hfw : a.input_feature_map_width - a.kernel_width + 1 ≤ fuel) :
    ∃ hs ws,
      strideIters fuel (a.input_feature_map_height - a.kernel_height + 1) a.kernel_stride_y 0
        = some hs
      ∧ strideIters fuel (a.input_feature_map_width - a.kernel_width + 1) a.kernel_stride_x 0
        = some ws
      ∧ ∀ hItr ∈ hs, ∀ wItr ∈ ws, ∀ kH, kH < a.kernel_height → ∀ kW, kW < a.kernel_width →
          hItr + kH < a.input_feature_map_height
          ∧ wItr + kW < a.input_feature_map_width
          ∧ (∀ ifmItr, ifmItr < a.num_input_feature_maps →
              input_index a ifmItr hItr wItr kH kW
                = (ifmItr * a.input_feature_map_height + (hItr + kH))
                    * a.input_feature_map_width + (wItr + kW)
              ∧ input_index a ifmItr hItr wItr kH kW
                < a.num_input_feature_maps * a.input_feature_map_width
                    * a.input_feature_map_height)
          ∧ (∀ ofmItr ifmItr, ofmItr < a.num_output_feature_maps →
              ifmItr < a.num_input_feature_maps →
              kernel_index a ofmItr ifmItr kH kW
                < a.num_output_feature_maps * a.num_input_feature_maps * a.kernel_height
                    * a.kernel_width) := by
  refine ⟨_, _, strideIters_eq fuel _ _ 0 hsy (by omega), strideIters_eq fuel _ _ 0 hsx (by omega),
    ?_⟩
  intro hItr hh wItr hw kH hkH kW hkW
  have h1 := strideIters_mem_lt fuel _ _ 0 _ (strideIters_eq fuel _ _ 0 hsy (by omega)) hItr hh
  have h2 := strideIters_mem_lt fuel _ _ 0 _ (strideIters_eq fuel _ _ 0 hsx (by omega)) wItr hw
  have hrow : hItr + kH < a.input_feature_map_height := by omega
  have hcol : wItr + kW < a.input_feature_map_width := by omega
  refine ⟨hrow, hcol, ?_, ?_⟩
  · intro ifmItr hi
    exact ⟨input_index_rows a ifmItr hItr wItr kH kW,
      input_index_lt a ifmItr hItr wItr kH kW hi hrow hcol⟩
  · intro ofmItr ifmItr ho hi
    exact kernel_index_lt a ofmItr ifmItr kH kW ho hi hkH hkW

theorem C18_window_inside_input_witness :
    ∃ hs ws,
      strideIters 4 (scenarioArgs.input_feature_map_height - scenarioArgs.kernel_height + 1)
        scenarioArgs.kernel_stride_y 0 = some hs
      ∧ strideIters 4 (scenarioArgs.input_feature_map_width - scenarioArgs.kernel_width + 1)
        scenarioArgs.kernel_stride_x 0 = some ws
      ∧ ∀ hItr ∈ hs, ∀ wItr ∈ ws, ∀ kH, kH < scenarioArgs.kernel_height →
          ∀ kW, kW < scenarioArgs.kernel_width →
          hItr + kH < scenarioArgs.input_feature_map_height
          ∧ wItr + kW < scenarioArgs.input_feature_map_width
          ∧ (∀ ifmItr, ifmItr < scenarioArgs.num_input_feature_maps →
              input_index scenarioArgs ifmItr hItr wItr kH kW
                = (ifmItr * scenarioArgs.input_feature_map_height + (hItr + kH))
                    * scenarioArgs.input_feature_map_width + (wItr + kW)
              ∧ input_index scenarioArgs ifmItr hItr wItr kH kW
                < scenarioArgs.num_input_feature_maps * scenarioArgs.input_feature_map_width
                    * scenarioArgs.input_feature_map_height)
          ∧ (∀ ofmItr ifmItr, ofmItr < scenarioArgs.num_output_feature_maps →
              ifmItr < scenarioArgs.num_input_feature_maps →
              kernel_index scenarioArgs ofmItr ifmItr kH kW
                < scenarioArgs.num_output_feature_maps * scenarioArgs.num_input_feature_maps
                    * scenarioArgs.kernel_height * scenarioArgs.kernel_width) :=
  C18_window_inside_input 4 scenarioArgs (by decide) (by decide) (by decide) (by decide)
    (by decide) (by decide)

theorem range'_div_stride (n s : Nat) (hs : 1 ≤ s) :
    (List.range' 0 n s).map (fun h => h / s) = List.range n := by
  rw [range'_eq_map, List.map_map]
  have : ((fun h => h / s) ∘ fun i => i * s) = id := by
    funext i
    simp [Nat.mul_div_cancel _ (by omega : 0 < s)]
  rw [this, List.map_id]

theorem strideIters_none (fuel limit stride itr : Nat) (h : fuel * stride + itr < limit) :
    strideIters fuel limit stride itr = none := by
  induction fuel generalizing itr with
  | zero =>
    have hlt : itr < limit := by omega
    simp [strideIters, hlt]
  | succ n ih =>
    have e : (n + 1) * stride = n * stride + stride := by ring
    have hlt : itr < limit := by omega
    simp only [strideIters, if_pos hlt]
    rw [ih (itr + stride) (by omega)]
    rfl

/-- C19: for `kernel ≤ input` and stride `≥ 1` the position loop
`for (itr = 0; itr < in - kernel + 1; itr += stride)` terminates after exactly
`floor((in - kernel) / stride) + 1` iterations, which is the size `ult_perform_test`
computes for the intermediate map when it fits 32 bits, and `itr / stride` takes the values
`0, 1, ..., conv_out - 1` in turn, each exactly once. -/
theorem C19_position_loop_count (fuel inp k s : Nat) (hk : k ≤ inp) (hs : 1 ≤ s)
    (hfuel : inp - k + 1 ≤ fuel) :
    ∃ l, strideIters fuel (inp - k + 1) s 0 = some l
      ∧ l.length = (inp - k) / s + 1
      ∧ l.length = ⌊((inp : ℚ) - k) / s⌋₊ + 1
      ∧ l.map (fun itr => itr / s) = List.range ((inp - k) / s + 1)
      ∧ (inp < 4294967296 → (inp - k) / s + 1 < 4294967296 → conv_size inp k s = l.length)
      ∧ (∀ fuel', fuel' < (inp - k) / s + 1 → strideIters fuel' (inp - k + 1) s 0 = none) := by
  have hcount : (inp - k + 1 - 0 + s - 1) / s = (inp - k) / s + 1 := by
    have e : inp - k + 1 - 0 + s - 1 = (inp - k) + s := by omega
    rw [e, Nat.add_div_right _ (by omega : 0 < s)]
  refine ⟨_, strideIters_eq fuel _ s 0 hs (by omega), ?_, ?_, ?_, ?_, ?_⟩
  · rw [List.length_range', hcount]
  · rw [List.length_range', hcount, floor_formula inp k s hk]
  · rw [hcount, range'_div_stride _ s hs]
  · intro hin hrep
    rw [List.length_range', hcount]
    exact conv_size_eq inp k s hin hk hrep
  · intro fuel' hf
    apply strideIters_none
    have h1 : fuel' * s ≤ (inp - k) / s * s := Nat.mul_le_mul_right s (by omega)
    have h2 : (inp - k) / s * s ≤ inp - k := Nat.div_mul_le_self _ _
    omega

theorem C19_position_loop_count_witness :
    ∃ l, strideIters 221 (231 - 11 + 1) 4 0 = some l
      ∧ l.length = (231 - 11) / 4 + 1
      ∧ l.length = ⌊(((231 : Nat) : ℚ) - ((11 : Nat) : ℚ)) / ((4 : Nat) : ℚ)⌋₊ + 1
      ∧ l.map (fun itr => itr / 4) = List.range ((231 - 11) / 4 + 1)
      ∧ ((231 : Nat) < 4294967296 → (231 - 11) / 4 + 1 < 4294967296 →
          conv_size 231 11 4 = l.length)
      ∧ (∀ fuel', fuel' < (231 - 11) / 4 + 1 → strideIters fuel' (231 - 11 + 1) 4 0 = none) :=
  C19_position_loop_count 221 231 11 4 (by decide) (by decide) (by decide)

/-! ## Increments through the post-pooling stage -/

theorem saturate_of_range (r : Int) (h1 : -32768 ≤ r) (h2 : r ≤ 32767) : saturate r = r := by
  unfold saturate; omega

theorem wrap32_sub_of_small (x y : Int) (h1 : -32768 ≤ wrap32 x) (h2 : wrap32 x ≤ 32767)
    (h3 : -32768 ≤ wrap32 (x + y)) (h4 : wrap32 (x + y) ≤ 32767) :
    wrap32 (x + y) - wrap32 x = wrap32 y := by
  unfold wrap32 at *; omega

theorem floor_div_add (m d P : Int) (hP : 0 < P) :
    ((m + d) / P = m / P + d / P ∨ (m + d) / P = m / P + d / P + 1)
    ∧ (P ∣ d → (m + d) / P = m / P + d / P) := by
  have hne : P ≠ 0 := by omega
  have hm := Int.emod_add_ediv m P
  have hd := Int.emod_add_ediv d P
  have hm0 := Int.emod_nonneg m hne
  have hd0 := Int.emod_nonneg d hne
  have hm1 := Int.emod_lt_of_pos m hP
  have hd1 := Int.emod_lt_of_pos d hP
  have e : m + d = (m % P + d % P) + P * (m / P + d / P) := by
    have : P * (m / P + d / P) = P * (m / P) + P * (d / P) := by ring
    omega
  have hsplit : (m + d) / P = (m % P + d % P) / P + (m / P + d / P) := by
    rw [e, Int.add_mul_ediv_left _ _ hne]
  constructor
  · by_cases hr : m % P + d % P < P
    · left
      rw [hsplit, Int.ediv_eq_zero_of_lt (by omega) hr]; ring
    · right
      have e2 : m % P + d % P = (m % P + d % P - P) + P * 1 := by ring
      rw [hsplit, e2, Int.add_mul_ediv_left _ _ hne,
        Int.ediv_eq_zero_of_lt (by omega) (by omega)]
      ring
  · intro hdvd
    have hz : d % P = 0 := Int.emod_eq_zero_of_dvd hdvd
    rw [hsplit, hz, add_zero, Int.ediv_eq_zero_of_lt hm0 hm1]; ring

theorem activate_of_nonneg (act : NN_ACTIVATION_FUNCTION) (m : Int)
    (h : act = NN_ACTIVATION_FUNCTION_RELU → 0 ≤ m) : activate act m = m := by
  cases act with
  | NN_ACTIVATION_FUNCTION_NONE => rfl
  | NN_ACTIVATION_FUNCTION_RELU =>
    have := h rfl
    simp only [activate]; omega
  | OTHER => rfl

/-- C14 as amended: when the pooled maximum goes from `m` to `m + d` with `d ≥ 0`, the
activation being the identity on `m` (no ReLU, or `m ≥ 0`) and neither rescaled value
leaving `[-32768, 32767]`, the stored output changes by exactly the 32-bit left shift of `d`
when `accumulator_fraction ≤ output_fraction`; when `accumulator_fraction > output_fraction`
it increases by `d >> s` or by `(d >> s) + 1`, and by exactly `d >> s` when `d` is a multiple
of `2 ^ s`. -/
theorem C14_post_pool_increment (act : NN_ACTIVATION_FUNCTION) (af of : Nat) (m d : Int)
    (hd : 0 ≤ d) (hact : act = NN_ACTIVATION_FUNCTION_RELU → 0 ≤ m)
    (hm : -32768 ≤ rescale af of m ∧ rescale af of m ≤ 32767)
    (hmd : -32768 ≤ rescale af of (m + d) ∧ rescale af of (m + d) ≤ 32767) :
    (af ≤ of →
        post_pool act af of (m + d) - post_pool act af of m = rescale af of d
        ∧ rescale af of d = wrap32 (d * 2 ^ (of - af)))
    ∧ (of < af →
        rescale af of d = d / 2 ^ (af - of)
        ∧ (post_pool act af of (m + d) - post_pool act af of m = rescale af of d
          ∨ post_pool act af of (m + d) - post_pool act af of m = rescale af of d + 1)
        ∧ ((2 : Int) ^ (af - of) ∣ d →
            post_pool act af of (m + d) - post_pool act af of m = rescale af of d)) := by
  have ha1 : activate act m = m := activate_of_nonneg act m hact
  have ha2 : activate act (m + d) = m + d :=
    activate_of_nonneg act (m + d) (fun h => by have := hact h; omega)
  have hpost : post_pool act af of (m + d) - post_pool act af of m
      = rescale af of (m + d) - rescale af of m := by
    unfold post_pool
    rw [ha1, ha2, saturate_of_range _ hm.1 hm.2, saturate_of_range _ hmd.1 hmd.2]
  rw [hpost]
  constructor
  · intro hle
    refine ⟨?_, rescale_left af of d hle⟩
    rw [rescale_left af of m hle] at hm
    rw [rescale_left af of (m + d) hle] at hmd
    rw [rescale_left af of m hle, rescale_left af of (m + d) hle, rescale_left af of d hle]
    have e : (m + d) * 2 ^ (of - af) = m * 2 ^ (of - af) + d * 2 ^ (of - af) := by ring
    rw [e] at hmd ⊢
    exact wrap32_sub_of_small _ _ hm.1 hm.2 hmd.1 hmd.2
  · intro hlt
    have hP : (0 : Int) < 2 ^ (af - of) := by positivity
    obtain ⟨h1, h2⟩ := floor_div_add m d (2 ^ (af - of)) hP
    rw [rescale_right af of (m + d) hlt, rescale_right af of m hlt, rescale_right af of d hlt]
    refine ⟨rfl, ?_, ?_⟩
    · rcases h1 with h | h
      · left; omega
      · right; omega
    · intro hdvd
      have := h2 hdvd
      omega

theorem C14_post_pool_increment_witness :
    post_pool NN_ACTIVATION_FUNCTION_RELU 16 0 (65536 + 131072)
        - post_pool NN_ACTIVATION_FUNCTION_RELU 16 0 65536
      = rescale 16 0 131072
    ∧ post_pool NN_ACTIVATION_FUNCTION_NONE 0 2 (-5 + 3)
        - post_pool NN_ACTIVATION_FUNCTION_NONE 0 2 (-5)
      = rescale 0 2 3 :=
  ⟨((C14_post_pool_increment NN_ACTIVATION_FUNCTION_RELU 16 0 65536 131072 (by decide)
      (fun _ => by decide) (by decide) (by decide)).2 (by decide)).2.2 (by decide),
   ((C14_post_pool_increment NN_ACTIVATION_FUNCTION_NONE 0 2 (-5) 3 (by decide)
      (fun h => by cases h) (by decide) (by decide)).1 (by decide)).1⟩

/-- C14 as stated fails: with a right shift by one bit, raising the pooled maximum from 1 to 2
raises the output from 0 to 1 although the shifted increment `1 >> 1` is 0; with ReLU and
equal fractions, raising the pooled maximum from -10 to 10 raises the output from 0 to 10
although the increment is 20.  No value is near a saturation boundary. -/
theorem C14_increment_not_exact :
    post_pool NN_ACTIVATION_FUNCTION_NONE 1 0 (1 + 1) - post_pool NN_ACTIVATION_FUNCTION_NONE 1 0 1
      = 1
    ∧ rescale 1 0 1 = 0
    ∧ post_pool NN_ACTIVATION_FUNCTION_RELU 0 0 (-10 + 20)
        - post_pool NN_ACTIVATION_FUNCTION_RELU 0 0 (-10) = 10
    ∧ rescale 0 0 20 = 20 := by
  decide

/-! ## Partial sums of the accumulators -/

theorem sumAt_events_square (a : NaiveArgs) (input_ref kernel_ref biases_ref : Buf) (n : Nat)
    (hW : a.output_feature_map_width_int = n) (hH : a.output_feature_map_height_int = n)
    (hsx : 1 ≤ a.kernel_stride_x) (hsy : 1 ≤ a.kernel_stride_y)
    (hifm : 1 ≤ a.num_input_feature_maps) (O Y X : Nat)
    (hO : O < a.num_output_feature_maps) (hY : Y < n) (hX : X < n) :
    sumAt ((O * n + Y) * n + X)
        (accumulate_events a ((List.range n).map fun y => y * a.kernel_stride_y)
          ((List.range n).map fun x => x * a.kernel_stride_x) input_ref kernel_ref biases_ref)
      = conv_sum a input_ref kernel_ref biases_ref O Y X := by
  have hp : ∀ o y x, product_index a o (y * a.kernel_stride_y) (x * a.kernel_stride_x)
      = (o * n + y) * n + x := by
    intro o y x
    unfold product_index
    rw [hW, hH, Nat.mul_div_cancel _ (by omega : 0 < a.kernel_stride_y),
      Nat.mul_div_cancel _ (by omega : 0 < a.kernel_stride_x)]
    ring
  have hb : ∀ o y x, bias_index a o (y * a.kernel_stride_y) (x * a.kernel_stride_x)
      = (o * n + y) * n + x := by
    intro o y x
    unfold bias_index
    rw [hW, hH, Nat.mul_div_cancel _ (by omega : 0 < a.kernel_stride_y),
      Nat.mul_div_cancel _ (by omega : 0 < a.kernel_stride_x)]
    ring
  rw [sumAt_accumulate_events]
  simp only [List.map_map, Function.comp_def, sumAt_position_events, hp, hb, ite_add_ite_zero,
    list_sum_range]
  refine (sum_collapse a.num_output_feature_maps a.num_input_feature_maps n O Y X hO hY hX
    (fun o i y x =>
      (∑ kH in Finset.range a.kernel_height, ∑ kW in Finset.range a.kernel_width,
        input_ref (input_index a i (y * a.kernel_stride_y) (x * a.kernel_stride_x) kH kW)
          * kernel_ref (kernel_index a o i kH kW))
      + (if i = 0 ∧ BiasEn = true then 1 else 0) * biases_ref o)).trans ?_
  rw [Finset.sum_add_distrib, bias_once _ hifm]
  unfold conv_sum
  simp only [list_sum_range, input_index_canonical, kernel_index_canonical]
  ring

theorem map_absEvent_position (a : NaiveArgs) (input_ref kernel_ref biases_ref : Buf)
    (o i h w : Nat) :
    (position_events a input_ref kernel_ref biases_ref o i h w).map absEvent
      = position_events a (absBuf input_ref) (absBuf kernel_ref) (absBuf biases_ref) o i h w := by
  unfold position_events
  simp only [List.map_append, List.map_flatMap, List.map_map, List.map_cons, List.map_nil,
    Function.comp_def, absEvent, absBuf, abs_mul]
  congr 2
  split <;> simp

theorem map_absEvent_events (a : NaiveArgs) (hs ws : List Nat)
    (input_ref kernel_ref biases_ref : Buf) :
    (accumulate_events a hs ws input_ref kernel_ref biases_ref).map absEvent
      = accumulate_events a hs ws (absBuf input_ref) (absBuf kernel_ref) (absBuf biases_ref) := by
  unfold accumulate_events
  simp only [List.map_flatMap, map_absEvent_position]

theorem sumAt_abs_nonneg (k : Nat) (l : List (Nat × Int)) : 0 ≤ sumAt k (l.map absEvent) := by
  induction l with
  | nil => simp [sumAt]
  | cons e es ih =>
    rw [List.map_cons, sumAt_cons]
    have : (0 : Int) ≤ if (absEvent e).1 = k then (absEvent e).2 else 0 := by
      split
      · exact abs_nonneg _
      · exact le_refl _
    omega

theorem abs_sumAt_le (k : Nat) (l : List (Nat × Int)) :
    |sumAt k l| ≤ sumAt k (l.map absEvent) := by
  induction l with
  | nil => simp [sumAt]
  | cons e es ih =>
    rw [List.map_cons, sumAt_cons, sumAt_cons]
    have h1 : |(if e.1 = k then e.2 else 0)| = if (absEvent e).1 = k then (absEvent e).2 else 0 := by
      simp only [absEvent]
      split <;> simp
    calc |(if e.1 = k then e.2 else 0) + sumAt k es|
        ≤ |(if e.1 = k then e.2 else 0)| + |sumAt k es| := abs_add _ _
      _ ≤ _ := by rw [h1]; omega

theorem sumAt_abs_prefix (k : Nat) (l' l : List (Nat × Int)) (h : l' <+: l) :
    sumAt k (l'.map absEvent) ≤ sumAt k (l.map absEvent) := by
  obtain ⟨r, rfl⟩ := h
  rw [List.map_append, sumAt_append]
  have := sumAt_abs_nonneg k r
  omega

theorem list_sum_range_le (n : Nat) (f : Nat → Int) (c : Int) (h : ∀ i, i < n → f i ≤ c) :
    ((List.range n).map f).sum ≤ n * c := by
  induction n with
  | zero => simp
  | succ n ih =>
    rw [List.range_succ, List.map_append, List.sum_append]
    have h1 := ih (fun i hi => h i (by omega))
    have h2 := h n (by omega)
    simp only [List.map_cons, List.map_nil, List.sum_cons, List.sum_nil, add_zero]
    push_cast
    linarith

theorem position_inside (inp k s y t : Nat) (hk : k ≤ inp) (hy : y < (inp - k) / s + 1)
    (ht : t < k) : y * s + t < inp := by
  have h1 : y * s ≤ (inp - k) / s * s := Nat.mul_le_mul_right s (by omega)
  have h2 : (inp - k) / s * s ≤ inp - k := Nat.div_mul_le_self _ _
  omega

theorem conv_sum_abs_le (a : NaiveArgs) (input_ref kernel_ref biases_ref : Buf) (A K D : Nat)
    (hkw : a.kernel_width ≤ a.input_feature_map_width)
    (hkh : a.kernel_height ≤ a.input_feature_map_height)
    (hin : ∀ idx, idx < a.num_input_feature_maps * a.input_feature_map_width
        * a.input_feature_map_height → |input_ref idx| ≤ (A : Int))
    (hker : ∀ idx, idx < a.num_output_feature_maps * a.num_input_feature_maps * a.kernel_height
        * a.kernel_width → |kernel_ref idx| ≤ (K : Int))
    (hbias : ∀ o, o < a.num_output_feature_maps → |biases_ref o| ≤ (D : Int))
    (O Y X : Nat) (hO : O < a.num_output_feature_maps)
    (hY : Y < (a.input_feature_map_height - a.kernel_height) / a.kernel_stride_y + 1)
    (hX : X < (a.input_feature_map_width - a.kernel_width) / a.kernel_stride_x + 1) :
    conv_sum a (absBuf input_ref) (absBuf kernel_ref) (absBuf biases_ref) O Y X
      ≤ ((a.num_input_feature_maps * a.kernel_height * a.kernel_width * A * K + D : Nat) : Int)
    := by
  unfold conv_sum
  have hterm : ∀ i, i < a.num_input_feature_maps → ∀ kH, kH < a.kernel_height →
      ∀ kW, kW < a.kernel_width →
      absBuf input_ref ((i * a.input_feature_map_height + (Y * a.kernel_stride_y + kH))
          * a.input_feature_map_width + (X * a.kernel_stride_x + kW))
        * absBuf kernel_ref (((O * a.num_input_feature_maps + i) * a.kernel_height + kH)
          * a.kernel_width + kW) ≤ (A : Int) * K := by
    intro i hi kH hkH kW hkW
    have hrow := position_inside _ _ a.kernel_stride_y Y kH hkh hY hkH
    have hcol := position_inside _ _ a.kernel_stride_x X kW hkw hX hkW
    have h1 : (i * a.input_feature_map_height + (Y * a.kernel_stride_y + kH))
          * a.input_feature_map_width + (X * a.kernel_stride_x + kW)
        < a.num_input_feature_maps * a.input_feature_map_width * a.input_feature_map_height := by
      have := radix_lt _ _ _ _ (radix_lt _ _ _ _ hi hrow) hcol
      calc _ < a.num_input_feature_maps * a.input_feature_map_height
            * a.input_feature_map_width := this
        _ = _ := by ring
    have h2 : ((O * a.num_input_feature_maps + i) * a.kernel_height + kH) * a.kernel_width + kW
        < a.num_output_feature_maps * a.num_input_feature_maps * a.kernel_height
          * a.kernel_width :=
      radix_lt _ _ _ _ (radix_lt _ _ _ _ (radix_lt _ _ _ _ hO hi) hkH) hkW
    exact mul_le_mul (hin _ h1) (hker _ h2) (abs_nonneg _) (by positivity)
  have hs3 : ∀ i, i < a.num_input_feature_maps → ∀ kH, kH < a.kernel_height →
      ((List.range a.kernel_width).map fun kW =>
        absBuf input_ref ((i * a.input_feature_map_height + (Y * a.kernel_stride_y + kH))
            * a.input_feature_map_width + (X * a.kernel_stride_x + kW))
          * absBuf kernel_ref (((O * a.num_input_feature_maps + i) * a.kernel_height + kH)
            * a.kernel_width + kW)).sum ≤ (a.kernel_width : Int) * ((A : Int) * K) :=
    fun i hi kH hkH => list_sum_range_le _ _ _ (hterm i hi kH hkH)
  have hs2 : ∀ i, i < a.num_input_feature_maps →
      ((List.range a.kernel_height).map fun kH =>
        ((List.range a.kernel_width).map fun kW =>
          absBuf input_ref ((i * a.input_feature_map_height + (Y * a.kernel_stride_y + kH))
              * a.input_feature_map_width + (X * a.kernel_stride_x + kW))
            * absBuf kernel_ref (((O * a.num_input_feature_maps + i) * a.kernel_height + kH)
              * a.kernel_width + kW)).sum).sum
        ≤ (a.kernel_height : Int) * ((a.kernel_width : Int) * ((A : Int) * K)) :=
    fun i hi => list_sum_range_le _ _ _ (hs3 i hi)
  have hs1 := list_sum_range_le a.num_input_feature_maps _ _ hs2
  have hb : absBuf biases_ref O ≤ (D : Int) := hbias O hO
  push_cast
  have e : (a.num_input_feature_maps : Int) * a.kernel_height * a.kernel_width * A * K
      = (a.num_input_feature_maps : Int)
        * ((a.kernel_height : Int) * ((a.kernel_width : Int) * ((A : Int) * K))) := by ring
  rw [e]
  linarith

theorem prefix_sum_bound (a : NaiveArgs) (input_ref kernel_ref biases_ref : Buf)
    (n A K D : Nat)
    (hW : a.output_feature_map_width_int = n) (hH : a.output_feature_map_height_int = n)
    (hnH : (a.input_feature_map_height - a.kernel_height) / a.kernel_stride_y + 1 = n)
    (hnW : (a.input_feature_map_width - a.kernel_width) / a.kernel_stride_x + 1 = n)
    (hkw : a.kernel_width ≤ a.input_feature_map_width)
    (hkh : a.kernel_height ≤ a.input_feature_map_height)
    (hsx : 1 ≤ a.kernel_stride_x) (hsy : 1 ≤ a.kernel_stride_y)
    (hifm : 1 ≤ a.num_input_feature_maps)
    (hin : ∀ idx, idx < a.num_input_feature_maps * a.input_feature_map_width
        * a.input_feature_map_height → |input_ref idx| ≤ (A : Int))
    (hker : ∀ idx, idx < a.num_output_feature_maps * a.num_input_feature_maps * a.kernel_height
        * a.kernel_width → |kernel_ref idx| ≤ (K : Int))
    (hbias : ∀ o, o < a.num_output_feature_maps → |biases_ref o| ≤ (D : Int))
    (es : List (Nat × Int))
    (hes : es <+: accumulate_events a
      (stride_positions (a.input_feature_map_height - a.kernel_height + 1) a.kernel_stride_y)
      (stride_positions (a.input_feature_map_width - a.kernel_width + 1) a.kernel_stride_x)
      input_ref kernel_ref biases_ref)
    (o h w : Nat) (ho : o < a.num_output_feature_maps) (hh : h < n) (hw : w < n) :
    |sumAt ((o * n + h) * n + w) es|
      ≤ ((a.num_input_feature_maps * a.kernel_height * a.kernel_width * A * K + D : Nat) : Int)
    := by
  have h1 := abs_sumAt_le ((o * n + h) * n + w) es
  have h2 := sumAt_abs_prefix ((o * n + h) * n + w) _ _ hes
  rw [map_absEvent_events, stride_positions_eq _ _ _ hsy, stride_positions_eq _ _ _ hsx, hnH, hnW,
    sumAt_events_square a _ _ _ n hW hH hsx hsy hifm o h w ho hh hw] at h2
  have h3 := conv_sum_abs_le a input_ref kernel_ref biases_ref A K D hkw hkh hin hker hbias o h w
    ho (by omega) (by omega)
  omega

theorem scenario_magnitudes :
    (∀ idx, idx < 25 → |rampBuf idx| ≤ ((24 : Nat) : Int))
    ∧ (∀ idx, idx < 32 → |scenarioKernel idx| ≤ ((32768 : Nat) : Int))
    ∧ (∀ o, o < 8 → |rampBuf o| ≤ ((7 : Nat) : Int)) := by
  refine ⟨?_, ?_, ?_⟩
  · intro idx h
    rw [abs_le]
    simp only [rampBuf]
    push_cast
    omega
  · intro idx h
    rw [abs_le]
    simp only [scenarioKernel, wrap16]
    push_cast
    omega
  · intro o h
    rw [abs_le]
    simp only [rampBuf]
    push_cast
    omega

/-- C15: for a shape whose convolution output is square, if every input magnitude is at most
`A`, every weight magnitude at most `K`, every bias magnitude at most `D` and
`IFM * KH * KW * A * K + D ≤ 2 ^ 31 - 1`, then after every prefix of the accumulations, in
program order, every accumulator cell holds the exact partial sum, which lies in the signed
32-bit range; at the end each cell holds the exact contract sum.  The 5x5 scenario with the
ramp initialisation meets the hypothesis with `A = 24`, `K = 32768`, `D = 7`. -/
theorem C15_accumulators_fit :
    (∀ (a : NaiveArgs) (input_ref kernel_ref biases_ref : Buf) (n A K D : Nat),
      a.output_feature_map_width_int = n → a.output_feature_map_height_int = n →
      (a.input_feature_map_height - a.kernel_height) / a.kernel_stride_y + 1 = n →
      (a.input_feature_map_width - a.kernel_width) / a.kernel_stride_x + 1 = n →
      a.kernel_width ≤ a.input_feature_map_width →
      a.kernel_height ≤ a.input_feature_map_height →
      1 ≤ a.kernel_stride_x → 1 ≤ a.kernel_stride_y → 1 ≤ a.num_input_feature_maps →
      (∀ idx, idx < a.num_input_feature_maps * a.input_feature_map_width
          * a.input_feature_map_height → |input_ref idx| ≤ (A : Int)) →
      (∀ idx, idx < a.num_output_feature_maps * a.num_input_feature_maps * a.kernel_height
          * a.kernel_width → |kernel_ref idx| ≤ (K : Int)) →
      (∀ o, o < a.num_output_feature_maps → |biases_ref o| ≤ (D : Int)) →
      a.num_input_feature_maps * a.kernel_height * a.kernel_width * A * K + D ≤ 2147483647 →
      (∀ es : List (Nat × Int),
          es <+: accumulate_events a
            (stride_positions (a.input_feature_map_height - a.kernel_height + 1)
              a.kernel_stride_y)
            (stride_positions (a.input_feature_map_width - a.kernel_width + 1)
              a.kernel_stride_x)
            input_ref kernel_ref biases_ref →
          ∀ o h w, o < a.num_output_feature_maps → h < n → w < n →
            -2147483648 ≤ sumAt ((o * n + h) * n + w) es
            ∧ sumAt ((o * n + h) * n + w) es ≤ 2147483647
            ∧ applyAdds es (fun _ => 0) ((o * n + h) * n + w)
                = sumAt ((o * n + h) * n + w) es)
      ∧ (∀ fuel, a.input_feature_map_height - a.kernel_height + 1 ≤ fuel →
          a.input_feature_map_width - a.kernel_width + 1 ≤ fuel →
          ∃ output_int, intermediate fuel a input_ref biases_ref kernel_ref = some output_int
            ∧ output_int = applyAdds (accumulate_events a
                (stride_positions (a.input_feature_map_height - a.kernel_height + 1)
                  a.kernel_stride_y)
                (stride_positions (a.input_feature_map_width - a.kernel_width + 1)
                  a.kernel_stride_x)
                input_ref kernel_ref biases_ref) (fun _ => 0)
            ∧ ∀ o h w, o < a.num_output_feature_maps → h < n → w < n →
                output_int ((o * n + h) * n + w)
                  = conv_sum a input_ref kernel_ref biases_ref o h w))
    ∧ (∀ (m : Matrices) (inputT weightT : Buf),
        (∀ idx, idx < scenarioArgs.num_input_feature_maps * scenarioArgs.input_feature_map_width
            * scenarioArgs.input_feature_map_height →
          |(ult_nn_convolution_both_initialize_matrices m inputT weightT 8 1 2 2 5 5 2 2 0
              0).input_ref idx| ≤ ((24 : Nat) : Int))
        ∧ (∀ idx, idx < scenarioArgs.num_output_feature_maps
            * scenarioArgs.num_input_feature_maps * scenarioArgs.kernel_height
            * scenarioArgs.kernel_width →
          |(ult_nn_convolution_both_initialize_matrices m inputT weightT 8 1 2 2 5 5 2 2 0
              0).kernel_ref idx| ≤ ((32768 : Nat) : Int))
        ∧ (∀ o, o < scenarioArgs.num_output_feature_maps →
          |(ult_nn_convolution_both_initialize_matrices m inputT weightT 8 1 2 2 5 5 2 2 0
              0).biases_ref o| ≤ ((7 : Nat) : Int))
        ∧ scenarioArgs.num_input_feature_maps * scenarioArgs.kernel_height
            * scenarioArgs.kernel_width * 24 * 32768 + 7 ≤ 2147483647) := by
  refine ⟨?_, ?_⟩
  · intro a input_ref kernel_ref biases_ref n A K D hW hH hnH hnW hkw hkh hsx hsy hifm hin hker
      hbias hbound
    have hcell : ∀ es : List (Nat × Int),
        es <+: accumulate_events a
          (stride_positions (a.input_feature_map_height - a.kernel_height + 1)
            a.kernel_stride_y)
          (stride_positions (a.input_feature_map_width - a.kernel_width + 1)
            a.kernel_stride_x)
          input_ref kernel_ref biases_ref →
        ∀ o h w, o < a.num_output_feature_maps → h < n → w < n →
          -2147483648 ≤ sumAt ((o * n + h) * n + w) es
          ∧ sumAt ((o * n + h) * n + w) es ≤ 2147483647
          ∧ applyAdds es (fun _ => 0) ((o * n + h) * n + w)
              = sumAt ((o * n + h) * n + w) es := by
      intro es hes o h w ho hh hw
      have hb := prefix_sum_bound a input_ref kernel_ref biases_ref n A K D hW hH hnH hnW hkw hkh
        hsx hsy hifm hin hker hbias es hes o h w ho hh hw
      have hb2 : ((a.num_input_feature_maps * a.kernel_height * a.kernel_width * A * K + D : Nat)
          : Int) ≤ 2147483647 := by exact_mod_cast hbound
      have hb3 := abs_le.1 (le_trans hb hb2)
      refine ⟨by omega, hb3.2, ?_⟩
      rw [applyAdds_apply _ _ _ (by decide), zero_add]
      exact wrap32_of_range _ (by omega) hb3.2
    refine ⟨hcell, ?_⟩
    intro fuel hfh hfw
    refine ⟨_, intermediate_eq fuel a input_ref biases_ref kernel_ref hsx hsy hfh hfw,
      accumulate_eq _ _ _ _ _ _ _, ?_⟩
    intro o h w ho hh hw
    rw [accumulate_eq, (hcell _ (List.prefix_refl _) o h w ho hh hw).2.2,
      stride_positions_eq _ _ _ hsy, stride_positions_eq _ _ _ hsx, hnH, hnW]
    exact sumAt_events_square a _ _ _ n hW hH hsx hsy hifm o h w ho hh hw
  · intro m inputT weightT
    obtain ⟨h1, h2, h3⟩ := scenario_magnitudes
    refine ⟨?_, ?_, ?_, by decide⟩
    · intro idx hidx
      rw [scenario_input_ramp m inputT weightT idx hidx]
      exact h1 idx hidx
    · intro idx hidx
      rw [scenario_kernel_ramp m inputT weightT idx hidx]
      exact h2 idx hidx
    · intro o ho
      rw [scenario_bias_ramp m inputT weightT o ho]
      exact h3 o ho

theorem C15_accumulators_fit_witness :
    ∃ output_int, intermediate 4 scenarioArgs rampBuf rampBuf scenarioKernel = some output_int
      ∧ ∀ o h w, o < 8 → h < 4 → w < 4 →
          output_int ((o * 4 + h) * 4 + w)
            = conv_sum scenarioArgs rampBuf scenarioKernel rampBuf o h w :=
  have h := ((C15_accumulators_fit.1 scenarioArgs rampBuf scenarioKernel rampBuf 4 24 32768 7
    rfl rfl (by decide) (by decide) (by decide) (by decide) (by decide) (by decide) (by decide)
    scenario_magnitudes.1 scenario_magnitudes.2.1 scenario_magnitudes.2.2 (by decide)).2 4
    (by decide) (by decide))
  ⟨h.choose, h.choose_spec.1, h.choose_spec.2.2⟩

/-! ## Independence of the input-channel order -/

theorem permNat_fin {n : Nat} (p : Equiv.Perm (Fin n)) (i : Fin n) :
    permNat p (i : Nat) = (p i : Nat) := by
  unfold permNat
  rw [dif_pos i.2]

theorem permNat_lt {n : Nat} (p : Equiv.Perm (Fin n)) (i : Nat) (h : i < n) :
    permNat p i < n := by
  unfold permNat
  rw [dif_pos h]
  exact (p ⟨i, h⟩).2

theorem sum_perm_range (n : Nat) (p : Equiv.Perm (Fin n)) (G : Nat → Int) :
    ((List.range n).map fun i => G (permNat p i)).sum = ((List.range n).map G).sum := by
  rw [list_sum_range, list_sum_range, Finset.sum_range, Finset.sum_range]
  simp only [permNat_fin]
  exact Equiv.sum_comp p (fun i : Fin n => G (i : Nat))

theorem permute_input_read (a : NaiveArgs) (p : Equiv.Perm (Fin a.num_input_feature_maps))
    (input_ref : Buf) (i h w kH kW : Nat)
    (hrow : h + kH < a.input_feature_map_height) (hcol : w + kW < a.input_feature_map_width) :
    permute_input a.num_input_feature_maps
        (a.input_feature_map_width * a.input_feature_map_height) p input_ref
        (input_index a i h w kH kW)
      = input_ref (input_index a (permNat p i) h w kH kW) := by
  have hS : (h + kH) * a.input_feature_map_width + (w + kW)
      < a.input_feature_map_width * a.input_feature_map_height := by
    have := radix_lt _ _ _ _ hrow hcol
    rwa [Nat.mul_comm a.input_feature_map_height] at this
  have e : ∀ c, input_index a c h w kH kW
      = c * (a.input_feature_map_width * a.input_feature_map_height)
        + ((h + kH) * a.input_feature_map_width + (w + kW)) := by
    intro c; unfold input_index; ring
  have hpos : 0 < a.input_feature_map_width * a.input_feature_map_height := by omega
  unfold permute_input
  rw [e i, e (permNat p i)]
  have h1 : (i * (a.input_feature_map_width * a.input_feature_map_height)
      + ((h + kH) * a.input_feature_map_width + (w + kW)))
        / (a.input_feature_map_width * a.input_feature_map_height) = i := by
    rw [Nat.add_comm, Nat.add_mul_div_right _ _ hpos, Nat.div_eq_of_lt hS, Nat.zero_add]
  have h2 : (i * (a.input_feature_map_width * a.input_feature_map_height)
      + ((h + kH) * a.input_feature_map_width + (w + kW)))
        % (a.input_feature_map_width * a.input_feature_map_height)
      = (h + kH) * a.input_feature_map_width + (w + kW) := by
    rw [Nat.add_comm, Nat.add_mul_mod_self_right, Nat.mod_eq_of_lt hS]
  rw [h1, h2]

theorem permute_kernel_read (a : NaiveArgs) (p : Equiv.Perm (Fin a.num_input_feature_maps))
    (kernel_ref : Buf) (o i kH kW : Nat) (hi : i < a.num_input_feature_maps)
    (hkH : kH < a.kernel_height) (hkW : kW < a.kernel_width) :
    permute_kernel a.num_input_feature_maps (a.kernel_height * a.kernel_width) p kernel_ref
        (kernel_index a o i kH kW)
      = kernel_ref (kernel_index a o (permNat p i) kH kW) := by
  have hK : kH * a.kernel_width + kW < a.kernel_height * a.kernel_width :=
    radix_lt _ _ _ _ hkH hkW
  have e : ∀ c, kernel_index a o c kH kW
      = (o * a.num_input_feature_maps + c) * (a.kernel_height * a.kernel_width)
        + (kH * a.kernel_width + kW) := by
    intro c; unfold kernel_index; ring
  have hpos : 0 < a.kernel_height * a.kernel_width := by omega
  have hI : 0 < a.num_input_feature_maps := by omega
  unfold permute_kernel
  rw [e i, e (permNat p i)]
  have h1 : ((o * a.num_input_feature_maps + i) * (a.kernel_height * a.kernel_width)
      + (kH * a.kernel_width + kW)) / (a.kernel_height * a.kernel_width)
        = o * a.num_input_feature_maps + i := by
    rw [Nat.add_comm, Nat.add_mul_div_right _ _ hpos, Nat.div_eq_of_lt hK, Nat.zero_add]
  have h2 : ((o * a.num_input_feature_maps + i) * (a.kernel_height * a.kernel_width)
      + (kH * a.kernel_width + kW)) % (a.kernel_height * a.kernel_width)
        = kH * a.kernel_width + kW := by
    rw [Nat.add_comm, Nat.add_mul_mod_self_right, Nat.mod_eq_of_lt hK]
  have h3 : (o * a.num_input_feature_maps + i) / a.num_input_feature_maps = o := by
    rw [Nat.add_comm, Nat.add_mul_div_right _ _ hI, Nat.div_eq_of_lt hi, Nat.zero_add]
  have h4 : (o * a.num_input_feature_maps + i) % a.num_input_feature_maps = i := by
    rw [Nat.add_comm, Nat.add_mul_mod_self_right, Nat.mod_eq_of_lt hi]
  rw [h1, h2, h3, h4]

theorem tap_sum_perm (a : NaiveArgs) (p : Equiv.Perm (Fin a.num_input_feature_maps))
    (input_ref kernel_ref : Buf) (o i h w : Nat) (hi : i < a.num_input_feature_maps)
    (hrow : ∀ kH, kH < a.kernel_height → h + kH < a.input_feature_map_height)
    (hcol : ∀ kW, kW < a.kernel_width → w + kW < a.input_feature_map_width) :
    tap_sum a
        (permute_input a.num_input_feature_maps
          (a.input_feature_map_width * a.input_feature_map_height) p input_ref)
        (permute_kernel a.num_input_feature_maps (a.kernel_height * a.kernel_width) p kernel_ref)
        o i h w
      = tap_sum a input_ref kernel_ref o (permNat p i) h w := by
  unfold tap_sum
  congr 1
  apply List.map_congr_left
  intro kH hkH
  congr 1
  apply List.map_congr_left
  intro kW hkW
  rw [permute_input_read a p input_ref i h w kH kW (hrow kH (List.mem_range.1 hkH))
      (hcol kW (List.mem_range.1 hkW)),
    permute_kernel_read a p kernel_ref o i kH kW hi (List.mem_range.1 hkH)
      (List.mem_range.1 hkW)]

theorem sum_positions_split (a : NaiveArgs) (input_ref kernel_ref biases_ref : Buf)
    (hs ws : List Nat) (k o i : Nat) :
    (hs.map fun h => (ws.map fun w =>
        sumAt k (position_events a input_ref kernel_ref biases_ref o i h w)).sum).sum
      = chan_sum a input_ref kernel_ref hs ws k o i + bias_sum a biases_ref hs ws k o i := by
  unfold chan_sum bias_sum tap_sum
  simp only [sumAt_position_events, List.sum_map_add]

theorem chan_sum_perm (a : NaiveArgs) (p : Equiv.Perm (Fin a.num_input_feature_maps))
    (input_ref kernel_ref : Buf) (hs ws : List Nat) (k o i : Nat)
    (hi : i < a.num_input_feature_maps)
    (hrow : ∀ h ∈ hs, ∀ kH, kH < a.kernel_height → h + kH < a.input_feature_map_height)
    (hcol : ∀ w ∈ ws, ∀ kW, kW < a.kernel_width → w + kW < a.input_feature_map_width) :
    chan_sum a
        (permute_input a.num_input_feature_maps
          (a.input_feature_map_width * a.input_feature_map_height) p input_ref)
        (permute_kernel a.num_input_feature_maps (a.kernel_height * a.kernel_width) p kernel_ref)
        hs ws k o i
      = chan_sum a input_ref kernel_ref hs ws k o (permNat p i) := by
  unfold chan_sum
  congr 1
  apply List.map_congr_left
  intro h hh
  congr 1
  apply List.map_congr_left
  intro w hw
  rw [tap_sum_perm a p input_ref kernel_ref o i h w hi (hrow h hh) (hcol w hw)]

theorem sumAt_events_perm (a : NaiveArgs) (p : Equiv.Perm (Fin a.num_input_feature_maps))
    (input_ref kernel_ref biases_ref : Buf) (hs ws : List Nat) (k : Nat)
    (hrow : ∀ h ∈ hs, ∀ kH, kH < a.kernel_height → h + kH < a.input_feature_map_height)
    (hcol : ∀ w ∈ ws, ∀ kW, kW < a.kernel_width → w + kW < a.input_feature_map_width) :
    sumAt k (accumulate_events a hs ws
        (permute_input a.num_input_feature_maps
          (a.input_feature_map_width * a.input_feature_map_height) p input_ref)
        (permute_kernel a.num_input_feature_maps (a.kernel_height * a.kernel_width) p kernel_ref)
        biases_ref)
      = sumAt k (accumulate_events a hs ws input_ref kernel_ref biases_ref) := by
  rw [sumAt_accumulate_events, sumAt_accumulate_events]
  simp only [sum_positions_split]
  congr 1
  apply List.map_congr_left
  intro o _
  rw [List.sum_map_add, List.sum_map_add]
  congr 1
  have h1 : (List.range a.num_input_feature_maps).map (fun i =>
      chan_sum a
        (permute_input a.num_input_feature_maps
          (a.input_feature_map_width * a.input_feature_map_height) p input_ref)
        (permute_kernel a.num_input_feature_maps (a.kernel_height * a.kernel_width) p kernel_ref)
        hs ws k o i)
      = (List.range a.num_input_feature_maps).map (fun i =>
          chan_sum a input_ref kernel_ref hs ws k o (permNat p i)) := by
    apply List.map_congr_left
    intro i hi
    exact chan_sum_perm a p input_ref kernel_ref hs ws k o i (List.mem_range.1 hi) hrow hcol
  rw [h1]
  exact sum_perm_range a.num_input_feature_maps p
    (fun i => chan_sum a input_ref kernel_ref hs ws k o i)

theorem stride_positions_mem_lt (limit stride x : Nat) (hs : 1 ≤ stride)
    (hx : x ∈ stride_positions limit stride) : x < limit := by
  have h := strideIters_eq limit limit stride 0 hs (by omega)
  exact strideIters_mem_lt limit limit stride 0 _ h x hx

theorem accumulate_perm (a : NaiveArgs) (p : Equiv.Perm (Fin a.num_input_feature_maps))
    (input_ref kernel_ref biases_ref : Buf)
    (hkw : a.kernel_width ≤ a.input_feature_map_width)
    (hkh : a.kernel_height ≤ a.input_feature_map_height)
    (hsx : 1 ≤ a.kernel_stride_x) (hsy : 1 ≤ a.kernel_stride_y) :
    accumulate a
        (stride_positions (a.input_feature_map_height - a.kernel_height + 1) a.kernel_stride_y)
        (stride_positions (a.input_feature_map_width - a.kernel_width + 1) a.kernel_stride_x)
        (permute_input a.num_input_feature_maps
          (a.input_feature_map_width * a.input_feature_map_height) p input_ref)
        (permute_kernel a.num_input_feature_maps (a.kernel_height * a.kernel_width) p kernel_ref)
        biases_ref (fun _ => 0)
      = accumulate a
        (stride_positions (a.input_feature_map_height - a.kernel_height + 1) a.kernel_stride_y)
        (stride_positions (a.input_feature_map_width - a.kernel_width + 1) a.kernel_stride_x)
        input_ref kernel_ref biases_ref (fun _ => 0) := by
  funext k
  rw [accumulate_eq, accumulate_eq, applyAdds_apply _ _ _ (by decide),
    applyAdds_apply _ _ _ (by decide)]
  congr 2
  apply sumAt_events_perm
  · intro h hh kH hkH
    have := stride_positions_mem_lt _ _ h hsy hh
    omega
  · intro w hw kW hkW
    have := stride_positions_mem_lt _ _ w hsx hw
    omega

/-- C20: for every permutation `p` of the input channels, running the reference on the input
and the weights with their input-channel axis permuted by `p` returns the same output buffer
as the unpermuted run; when the convolution output is square and there is at least one
input channel, each accumulator of the permuted run is the bias, counted once, plus the sum
of the products of the original tensors, in wrapping 32-bit arithmetic. -/
theorem C20_channel_order_independent (fuel : Nat) (a : NaiveArgs)
    (p : Equiv.Perm (Fin a.num_input_feature_maps))
    (input_ref output_ref biases_ref kernel_ref : Buf)
    (hkw : a.kernel_width ≤ a.input_feature_map_width)
    (hkh : a.kernel_height ≤ a.input_feature_map_height)
    (hsx : 1 ≤ a.kernel_stride_x) (hsy : 1 ≤ a.kernel_stride_y)
    (hfh : a.input_feature_map_height - a.kernel_height + 1 ≤ fuel)
    (hfw : a.input_feature_map_width - a.kernel_width + 1 ≤ fuel) :
    (∀ i r c, i < a.num_input_feature_maps → r < a.input_feature_map_height →
        c < a.input_feature_map_width →
        permute_input a.num_input_feature_maps
            (a.input_feature_map_width * a.input_feature_map_height) p input_ref
            ((i * a.input_feature_map_height + r) * a.input_feature_map_width + c)
          = input_ref ((permNat p i * a.input_feature_map_height + r)
              * a.input_feature_map_width + c))
    ∧ (∀ o i kH kW, i < a.num_input_feature_maps → kH < a.kernel_height →
        kW < a.kernel_width →
        permute_kernel a.num_input_feature_maps (a.kernel_height * a.kernel_width) p kernel_ref
            (((o * a.num_input_feature_maps + i) * a.kernel_height + kH) * a.kernel_width + kW)
          = kernel_ref (((o * a.num_input_feature_maps + permNat p i) * a.kernel_height + kH)
              * a.kernel_width + kW))
    ∧ (∃ out,
        ult_nn_maxpooling_naive fuel a
            (permute_input a.num_input_feature_maps
              (a.input_feature_map_width * a.input_feature_map_height) p input_ref)
            output_ref biases_ref
            (permute_kernel a.num_input_feature_maps (a.kernel_height * a.kernel_width) p
              kernel_ref) = some out
        ∧ ult_nn_maxpooling_naive fuel a input_ref output_ref biases_ref kernel_ref = some out)
    ∧ (∀ n, a.output_feature_map_width_int = n → a.output_feature_map_height_int = n →
        (a.input_feature_map_height - a.kernel_height) / a.kernel_stride_y + 1 = n →
        (a.input_feature_map_width - a.kernel_width) / a.kernel_stride_x + 1 = n →
        1 ≤ a.num_input_feature_maps →
        ∃ output_int,
          intermediate fuel a
              (permute_input a.num_input_feature_maps
                (a.input_feature_map_width * a.input_feature_map_height) p input_ref)
              biases_ref
              (permute_kernel a.num_input_feature_maps (a.kernel_height * a.kernel_width) p
                kernel_ref) = some output_int
          ∧ ∀ o h w, o < a.num_output_feature_maps → h < n → w < n →
              output_int ((o * n + h) * n + w)
                = wrap32 (conv_sum a input_ref kernel_ref biases_ref o h w)) := by
  refine ⟨?_, ?_, ?_, ?_⟩
  · intro i r c _ hr hc
    have h := permute_input_read a p input_ref i r c 0 0 (by omega) (by omega)
    rw [input_index_rows, input_index_rows] at h
    simpa using h
  · intro o i kH kW hi hkH hkW
    have h := permute_kernel_read a p kernel_ref o i kH kW hi hkH hkW
    rw [kernel_index_canonical, kernel_index_canonical] at h
    exact h
  · refine ⟨_, ?_, naive_eq fuel a input_ref output_ref biases_ref kernel_ref hsx hsy hfh hfw⟩
    rw [naive_eq fuel a _ output_ref biases_ref _ hsx hsy hfh hfw,
      accumulate_perm a p input_ref kernel_ref biases_ref hkw hkh hsx hsy]
  · intro n hW hH hnH hnW hifm
    refine ⟨_, intermediate_eq fuel a _ biases_ref _ hsx hsy hfh hfw, ?_⟩
    intro o h w ho hh hw
    rw [accumulate_perm a p input_ref kernel_ref biases_ref hkw hkh hsx hsy,
      stride_positions_eq _ _ _ hsy, stride_positions_eq _ _ _ hsx, hnH, hnW]
    exact accumulate_square a input_ref kernel_ref biases_ref n hW hH hsx hsy hifm o h w ho hh hw

theorem C20_channel_order_independent_witness :
    ∃ out,
      ult_nn_maxpooling_naive 2 twoChannelArgs
          (permute_input twoChannelArgs.num_input_feature_maps
            (twoChannelArgs.input_feature_map_width * twoChannelArgs.input_feature_map_height)
            swapChannels rampBuf)
          (constBuf 77) (constBuf 5)
          (permute_kernel twoChannelArgs.num_input_feature_maps
            (twoChannelArgs.kernel_height * twoChannelArgs.kernel_width)
            swapChannels rampBuf) = some out
      ∧ ult_nn_maxpooling_naive 2 twoChannelArgs rampBuf (constBuf 77) (constBuf 5) rampBuf
          = some out :=
  (C20_channel_order_independent 2 twoChannelArgs swapChannels rampBuf
    (constBuf 77) (constBuf 5) rampBuf (by decide) (by decide) (by decide) (by decide)
    (by decide) (by decide)).2.2.1

/-! ## The driver with the engine of the contract -/

theorem fill_kernel_agree (OFM IFM KW KH : Nat) (s : RampState) (k : Nat)
    (h : s.bufT k = s.buf_ref k
      ∨ ∃ o ∈ List.range OFM, ∃ c ∈ List.range IFM, ∃ r ∈ List.range KH, ∃ w ∈ List.range KW,
          k = w + r * KW + c * KW * KH + o * KW * KH * IFM) :
    (fill_kernel OFM IFM KW KH s).bufT k = (fill_kernel OFM IFM KW KH s).buf_ref k := by
  unfold fill_kernel
  refine foldl_agree _ (fun o k => ∃ c ∈ List.range IFM, ∃ r ∈ List.range KH,
    ∃ w ∈ List.range KW, k = w + r * KW + c * KW * KH + o * KW * KH * IFM) _ k ?_ s h
  intro s o _ ho
  refine foldl_agree _ (fun c k => ∃ r ∈ List.range KH, ∃ w ∈ List.range KW,
    k = w + r * KW + c * KW * KH + o * KW * KH * IFM) _ k ?_ _ ho
  intro s c _ hc
  refine foldl_agree _ (fun r k => ∃ w ∈ List.range KW,
    k = w + r * KW + c * KW * KH + o * KW * KH * IFM) _ k ?_ _ hc
  intro s r _ hr
  refine foldl_agree _ (fun w k => k = w + r * KW + c * KW * KH + o * KW * KH * IFM) _ k ?_ _ hr
  intro s w _ hw
  simp only [ult_nn_convolution_naive_set_kernel_value, Buf.set]
  rcases hw with hw | hw
  · rw [hw]
  · rw [if_pos hw, if_pos hw]

theorem fill_biases_apply (n : Nat) (b : Buf) (o : Nat) (ho : o < n) :
    fill_biases n b o = wrap32 (o : Int) := by
  unfold fill_biases
  induction n with
  | zero => omega
  | succ n ih =>
    rw [List.range_succ, List.foldl_append]
    simp only [List.foldl_cons, List.foldl_nil, Buf.set]
    by_cases h : o = n
    · rw [if_pos h, h]
    · rw [if_neg h]
      exact ih (by omega)

theorem applyWrites_congr_at (es : List (Nat × Int)) (b1 b2 : Buf) (k : Nat)
    (h : b1 k = b2 k) : applyWrites es b1 k = applyWrites es b2 k := by
  induction es generalizing b1 b2 with
  | nil => exact h
  | cons e es ih =>
    have s1 : applyWrites (e :: es) b1 = applyWrites es (b1.set e.1 e.2) := rfl
    have s2 : applyWrites (e :: es) b2 = applyWrites es (b2.set e.1 e.2) := rfl
    rw [s1, s2]
    apply ih
    simp only [Buf.set]
    split
    · rfl
    · exact h

theorem flatMap_congr_mem {α β : Type} (l : List α) (f g : α → List β)
    (h : ∀ x ∈ l, f x = g x) : l.flatMap f = l.flatMap g := by
  induction l with
  | nil => rfl
  | cons x xs ih =>
    rw [List.flatMap_cons, List.flatMap_cons, h x (List.mem_cons_self _ _),
      ih (fun y hy => h y (List.mem_cons_of_mem _ hy))]

theorem position_events_congr (a : NaiveArgs) (i1 k1 b1 i2 k2 b2 : Buf)
    (hi : ∀ idx, idx < a.num_input_feature_maps * a.input_feature_map_width
        * a.input_feature_map_height → i1 idx = i2 idx)
    (hk : ∀ idx, idx < a.num_output_feature_maps * a.num_input_feature_maps * a.kernel_height
        * a.kernel_width → k1 idx = k2 idx)
    (hb : ∀ o, o < a.num_output_feature_maps → b1 o = b2 o)
    (o i h w : Nat) (ho : o < a.num_output_feature_maps) (hifm : i < a.num_input_feature_maps)
    (hrow : ∀ kH, kH < a.kernel_height → h + kH < a.input_feature_map_height)
    (hcol : ∀ kW, kW < a.kernel_width → w + kW < a.input_feature_map_width) :
    position_events a i1 k1 b1 o i h w = position_events a i2 k2 b2 o i h w := by
  unfold position_events
  rw [hb o ho]
  congr 1
  apply flatMap_congr_mem
  intro kH hkH
  apply List.map_congr_left
  intro kW hkW
  rw [hi _ (input_index_lt a i h w kH kW hifm (hrow kH (List.mem_range.1 hkH))
      (hcol kW (List.mem_range.1 hkW))),
    hk _ (kernel_index_lt a o i kH kW ho hifm (List.mem_range.1 hkH) (List.mem_range.1 hkW))]

theorem accumulate_events_congr (a : NaiveArgs) (i1 k1 b1 i2 k2 b2 : Buf) (hs ws : List Nat)
    (hi : ∀ idx, idx < a.num_input_feature_maps * a.input_feature_map_width
        * a.input_feature_map_height → i1 idx = i2 idx)
    (hk : ∀ idx, idx < a.num_output_feature_maps * a.num_input_feature_maps * a.kernel_height
        * a.kernel_width → k1 idx = k2 idx)
    (hb : ∀ o, o < a.num_output_feature_maps → b1 o = b2 o)
    (hrow : ∀ h ∈ hs, ∀ kH, kH < a.kernel_height → h + kH < a.input_feature_map_height)
    (hcol : ∀ w ∈ ws, ∀ kW, kW < a.kernel_width → w + kW < a.input_feature_map_width) :
    accumulate_events a hs ws i1 k1 b1 = accumulate_events a hs ws i2 k2 b2 := by
  unfold accumulate_events
  apply flatMap_congr_mem
  intro o ho
  apply flatMap_congr_mem
  intro i hifm
  apply flatMap_congr_mem
  intro h hh
  apply flatMap_congr_mem
  intro w hw
  exact position_events_congr a i1 k1 b1 i2 k2 b2 hi hk hb o i h w (List.mem_range.1 ho)
    (List.mem_range.1 hifm) (hrow h hh) (hcol w hw)

/-- The reference reads only the cells of its three input tensors: two runs on buffers that
agree on those cells return outputs that agree on every cell of the padded output. -/
theorem naive_congr (fuel : Nat) (a : NaiveArgs) (i1 o1 b1 k1 i2 o2 b2 k2 : Buf)
    (hkw : a.kernel_width ≤ a.input_feature_map_width)
    (hkh : a.kernel_height ≤ a.input_feature_map_height)
    (hsx : 1 ≤ a.kernel_stride_x) (hsy : 1 ≤ a.kernel_stride_y)
    (hfh : a.input_feature_map_height - a.kernel_height + 1 ≤ fuel)
    (hfw : a.input_feature_map_width - a.kernel_width + 1 ≤ fuel)
    (hi : ∀ idx, idx < a.num_input_feature_maps * a.input_feature_map_width
        * a.input_feature_map_height → i1 idx = i2 idx)
    (hk : ∀ idx, idx < a.num_output_feature_maps * a.num_input_feature_maps * a.kernel_height
        * a.kernel_width → k1 idx = k2 idx)
    (hb : ∀ o, o < a.num_output_feature_maps → b1 o = b2 o) :
    ∃ r1 r2, ult_nn_maxpooling_naive fuel a i1 o1 b1 k1 = some r1
      ∧ ult_nn_maxpooling_naive fuel a i2 o2 b2 k2 = some r2
      ∧ ∀ k, k < output_cells a → r1 k = r2 k := by
  refine ⟨_, _, naive_eq fuel a i1 o1 b1 k1 hsx hsy hfh hfw,
    naive_eq fuel a i2 o2 b2 k2 hsx hsy hfh hfw, ?_⟩
  intro k hk'
  have hacc : accumulate a
      (stride_positions (a.input_feature_map_height - a.kernel_height + 1) a.kernel_stride_y)
      (stride_positions (a.input_feature_map_width - a.kernel_width + 1) a.kernel_stride_x)
      i1 k1 b1 (fun _ => 0)
      = accumulate a
      (stride_positions (a.input_feature_map_height - a.kernel_height + 1) a.kernel_stride_y)
      (stride_positions (a.input_feature_map_width - a.kernel_width + 1) a.kernel_stride_x)
      i2 k2 b2 (fun _ => 0) := by
    rw [accumulate_eq, accumulate_eq]
    refine congrArg (fun es => applyAdds es (fun _ => 0)) ?_
    apply accumulate_events_congr a i1 k1 b1 i2 k2 b2 _ _ hi hk hb
    · intro h hh kH hkH
      have := stride_positions_mem_lt _ _ h hsy hh
      omega
    · intro w hw kW hkW
      have := stride_positions_mem_lt _ _ w hsx hw
      omega
  rw [hacc, write_outputs_eq, write_outputs_eq]
  apply applyWrites_congr_at
  simp only [memsetZero, if_pos hk']

theorem padded_count_eq (n W H KW KH sx sy psx psy pzx pzy : Nat) (hn : n + 7 < 4294967296) :
    (ult_perform_test_sizes n W H KW KH sx sy psx psy pzx pzy).num_output_feature_maps
      = n + (8 - n % 8) % 8 := by
  have hc : C_simd_width = 8 := rfl
  simp only [ult_perform_test_sizes, hc, u32, u32sub]
  omega

/-- C25: the padding step `n += (8 - n mod 8) mod 8`, in 32-bit unsigned arithmetic, replaces
every output-channel count `n` with `n + 7 < 2 ^ 32` by the least multiple of 8 that is at
least `n`, and leaves `n` unchanged exactly when `n` is a multiple of 8. -/
theorem C25_padding_least_multiple (n W H KW KH sx sy psx psy pzx pzy : Nat)
    (hn : n + 7 < 4294967296) :
    C_simd_width = 8
    ∧ (ult_perform_test_sizes n W H KW KH sx sy psx psy pzx pzy).num_output_feature_maps
        = n + (8 - n % 8) % 8
    ∧ 8 ∣ (ult_perform_test_sizes n W H KW KH sx sy psx psy pzx pzy).num_output_feature_maps
    ∧ n ≤ (ult_perform_test_sizes n W H KW KH sx sy psx psy pzx pzy).num_output_feature_maps
    ∧ (∀ m, 8 ∣ m → n ≤ m →
        (ult_perform_test_sizes n W H KW KH sx sy psx psy pzx pzy).num_output_feature_maps ≤ m)
    ∧ ((ult_perform_test_sizes n W H KW KH sx sy psx psy pzx pzy).num_output_feature_maps = n
        ↔ 8 ∣ n) := by
  rw [padded_count_eq n W H KW KH sx sy psx psy pzx pzy hn]
  refine ⟨rfl, rfl, ?_, ?_, ?_, ?_⟩
  · omega
  · omega
  · intro m hm hle; omega
  · constructor
    · intro h; omega
    · intro h; omega

theorem C25_padding_least_multiple_witness :
    (ult_perform_test_sizes 90 231 231 11 11 4 4 2 2 2 2).num_output_feature_maps
        = 90 + (8 - 90 % 8) % 8
    ∧ 8 ∣ (ult_perform_test_sizes 90 231 231 11 11 4 4 2 2 2 2).num_output_feature_maps
    ∧ (ult_perform_test_sizes 90 231 231 11 11 4 4 2 2 2 2).num_output_feature_maps = 96 :=
  ⟨(C25_padding_least_multiple 90 231 231 11 11 4 4 2 2 2 2 (by decide)).2.1,
   (C25_padding_least_multiple 90 231 231 11 11 4 4 2 2 2 2 (by decide)).2.2.1, by decide⟩

/-! ## Ranges and monotonicity of the pooling and post-pooling stages -/

theorem accumulate_cell_range (a : NaiveArgs) (hs ws : List Nat)
    (input_ref kernel_ref biases_ref : Buf) (k : Nat) :
    -2147483648 ≤ accumulate a hs ws input_ref kernel_ref biases_ref (fun _ => 0) k
    ∧ accumulate a hs ws input_ref kernel_ref biases_ref (fun _ => 0) k ≤ 2147483647 := by
  rw [accumulate_eq, applyAdds_apply _ _ _ (by decide)]
  exact wrap32_range _

theorem foldl_rel {α β γ : Type} (R : β → γ → Prop) (f : β → α → β) (g : γ → α → γ)
    (l : List α) (b : β) (c : γ) (h0 : R b c)
    (hstep : ∀ b c x, x ∈ l → R b c → R (f b x) (g c x)) :
    R (l.foldl f b) (l.foldl g c) := by
  induction l generalizing b c with
  | nil => exact h0
  | cons x xs ih =>
    rw [List.foldl_cons, List.foldl_cons]
    exact ih _ _ (hstep b c x (List.mem_cons_self _ _) h0)
      (fun b c y hy h => hstep b c y (List.mem_cons_of_mem _ hy) h)

theorem pool_max_range (a : NaiveArgs) (output_int : Buf) (o y x : Nat)
    (h : ∀ k, -2147483648 ≤ output_int k ∧ output_int k ≤ 2147483647) :
    -2147483648 ≤ pool_max a output_int o y x ∧ pool_max a output_int o y x ≤ 2147483647 := by
  unfold pool_max
  apply foldl_invariant (fun v : Int => -2147483648 ≤ v ∧ v ≤ 2147483647)
  · exact h _
  · intro b maxY _ hb
    apply foldl_invariant (fun v : Int => -2147483648 ≤ v ∧ v ≤ 2147483647)
    · exact hb
    · intro b' maxX _ hb'
      have := h (pool_index a o y x maxY maxX)
      constructor
      · exact le_trans hb'.1 (le_max_left _ _)
      · exact max_le hb'.2 this.2

theorem pool_max_mono (a : NaiveArgs) (oi oi' : Buf) (o y x : Nat) (h : ∀ k, oi k ≤ oi' k) :
    pool_max a oi o y x ≤ pool_max a oi' o y x := by
  unfold pool_max
  apply foldl_rel (fun u v : Int => u ≤ v)
  · exact h _
  · intro b c maxY _ hbc
    apply foldl_rel (fun u v : Int => u ≤ v)
    · exact hbc
    · intro b' c' maxX _ hbc'
      exact max_le_max hbc' (h _)

theorem activate_mono (act : NN_ACTIVATION_FUNCTION) (m m' : Int) (h : m ≤ m') :
    activate act m ≤ activate act m' := by
  cases act with
  | NN_ACTIVATION_FUNCTION_NONE => exact h
  | NN_ACTIVATION_FUNCTION_RELU => simp only [activate]; omega
  | OTHER => exact h

theorem activate_range (act : NN_ACTIVATION_FUNCTION) (m : Int) (h1 : -2147483648 ≤ m)
    (h2 : m ≤ 2147483647) :
    -2147483648 ≤ activate act m ∧ activate act m ≤ 2147483647 := by
  cases act with
  | NN_ACTIVATION_FUNCTION_NONE => exact ⟨h1, h2⟩
  | NN_ACTIVATION_FUNCTION_RELU => simp only [activate]; omega
  | OTHER => exact ⟨h1, h2⟩

theorem rescale_mono (af of : Nat) (hfr : of ≤ af) (v v' : Int) (h : v ≤ v')
    (h1 : -2147483648 ≤ v) (h2 : v' ≤ 2147483647) : rescale af of v ≤ rescale af of v' := by
  rcases Nat.lt_or_ge of af with hlt | hge
  · rw [rescale_right af of v hlt, rescale_right af of v' hlt]
    exact Int.ediv_le_ediv (by positivity) h
  · have heq : af = of := le_antisymm hge hfr
    subst heq
    rw [rescale_left af af v (le_refl _), rescale_left af af v' (le_refl _)]
    simp only [Nat.sub_self, pow_zero, mul_one]
    rw [wrap32_of_range v h1 (by omega), wrap32_of_range v' (by omega) h2]
    exact h

theorem saturate_mono (r r' : Int) (h : r ≤ r') : saturate r ≤ saturate r' := by
  unfold saturate; omega

theorem rescale_equal (af : Nat) (v : Int) (h1 : -2147483648 ≤ v) (h2 : v ≤ 2147483647) :
    rescale af af v = v := by
  rw [rescale_left af af v (le_refl _)]
  simp only [Nat.sub_self, pow_zero, mul_one]
  exact wrap32_of_range v h1 h2

theorem rescale_nonneg (af of : Nat) (hfr : of ≤ af) (v : Int) (h0 : 0 ≤ v)
    (h2 : v ≤ 2147483647) : 0 ≤ rescale af of v := by
  rcases Nat.lt_or_ge of af with hlt | hge
  · rw [rescale_right af of v hlt]
    exact Int.ediv_nonneg h0 (by positivity)
  · have heq : af = of := le_antisymm hge hfr
    subst heq
    rw [rescale_equal af v (by omega) h2]
    exact h0

/-- C26: when `accumulator_fraction = output_fraction` the shift amount is 0, the rescale
takes the left-shift branch and leaves every 32-bit value unchanged, and the output cell of
pooled position `(y, x)` holds `clamp16(act(pooled maximum))`. -/
theorem C26_equal_fractions_identity (fuel : Nat) (a : NaiveArgs)
    (input_ref output_ref biases_ref kernel_ref : Buf)
    (hfr : a.accumulator_fraction = a.output_fraction)
    (hkw : a.kernel_width ≤ a.input_feature_map_width)
    (hkh : a.kernel_height ≤ a.input_feature_map_height)
    (hsx : 1 ≤ a.kernel_stride_x) (hsy : 1 ≤ a.kernel_stride_y)
    (hfh : a.input_feature_map_height - a.kernel_height + 1 ≤ fuel)
    (hfw : a.input_feature_map_width - a.kernel_width + 1 ≤ fuel) :
    acc_shift a.accumulator_fraction a.output_fraction = 0
    ∧ ¬ (acc_shift a.accumulator_fraction a.output_fraction > 0)
    ∧ (∀ v : Int, rescale a.accumulator_fraction a.output_fraction v = wrap32 v)
    ∧ (∀ v : Int, -2147483648 ≤ v → v ≤ 2147483647 →
        rescale a.accumulator_fraction a.output_fraction v = v)
    ∧ ∃ output_int out,
        intermediate fuel a input_ref biases_ref kernel_ref = some output_int
        ∧ ult_nn_maxpooling_naive fuel a input_ref output_ref biases_ref kernel_ref = some out
        ∧ ∀ o y x, o < a.num_output_feature_maps → y < a.output_feature_map_height →
            x < a.output_feature_map_width →
            out ((o * padded_height a + (y + a.center_y)) * padded_width a + (x + a.center_x))
              = saturate (activate a.activation (pool_max a output_int o y x)) := by
  have hkw' := hkw
  have hkh' := hkh
  have hs0 : acc_shift a.accumulator_fraction a.output_fraction = 0 := by
    unfold acc_shift; rw [hfr]; omega
  refine ⟨hs0, by rw [hs0]; decide, ?_, ?_, ?_⟩
  · intro v
    rw [rescale_left _ _ v (le_of_eq hfr), hfr]
    simp only [Nat.sub_self, pow_zero, mul_one]
  · intro v h1 h2
    rw [hfr]
    exact rescale_equal _ v h1 h2
  · have hrange := accumulate_cell_range a
      (stride_positions (a.input_feature_map_height - a.kernel_height + 1) a.kernel_stride_y)
      (stride_positions (a.input_feature_map_width - a.kernel_width + 1) a.kernel_stride_x)
      input_ref kernel_ref biases_ref
    refine ⟨_, _, intermediate_eq fuel a input_ref biases_ref kernel_ref hsx hsy hfh hfw,
      naive_eq fuel a input_ref output_ref biases_ref kernel_ref hsx hsy hfh hfw, ?_⟩
    intro o y x ho hy hx
    rw [← output_index_radix, write_outputs_inside a _ _ o y x ho hy hx]
    simp only [output_value, post_pool]
    rw [wrap16_saturate, hfr]
    have hp := pool_max_range a _ o y x hrange
    have ha := activate_range a.activation _ hp.1 hp.2
    rw [rescale_equal _ _ ha.1 ha.2]

theorem C26_equal_fractions_identity_witness :
    ∃ output_int out,
      intermediate 2 haloArgs rampBuf (constBuf 5) (constBuf 1) = some output_int
      ∧ ult_nn_maxpooling_naive 2 haloArgs rampBuf (constBuf 77) (constBuf 5) (constBuf 1)
          = some out
      ∧ ∀ o y x, o < haloArgs.num_output_feature_maps → y < haloArgs.output_feature_map_height →
          x < haloArgs.output_feature_map_width →
          out ((o * padded_height haloArgs + (y + haloArgs.center_y)) * padded_width haloArgs
              + (x + haloArgs.center_x))
            = saturate (activate haloArgs.activation (pool_max haloArgs output_int o y x)) :=
  (C26_equal_fractions_identity 2 haloArgs rampBuf (constBuf 77) (constBuf 5) (constBuf 1) rfl
    (by decide) (by decide) (by decide) (by decide) (by decide) (by decide)).2.2.2.2

/-- C27: with the ReLU activation and `accumulator_fraction ≥ output_fraction`, every cell of
`output_ref` lies in `[0, 32767]` after the reference has run, whatever the inputs, weights,
biases and previous content of the buffer. -/
theorem C27_relu_output_range (fuel : Nat) (a : NaiveArgs)
    (input_ref output_ref biases_ref kernel_ref : Buf)
    (hrelu : a.activation = NN_ACTIVATION_FUNCTION_RELU)
    (hfr : a.output_fraction ≤ a.accumulator_fraction)
    (hkw : a.kernel_width ≤ a.input_feature_map_width)
    (hkh : a.kernel_height ≤ a.input_feature_map_height)
    (hsx : 1 ≤ a.kernel_stride_x) (hsy : 1 ≤ a.kernel_stride_y)
    (hfh : a.input_feature_map_height - a.kernel_height + 1 ≤ fuel)
    (hfw : a.input_feature_map_width - a.kernel_width + 1 ≤ fuel) :
    ∃ out, ult_nn_maxpooling_naive fuel a input_ref output_ref biases_ref kernel_ref = some out
      ∧ ∀ k, k < output_cells a → 0 ≤ out k ∧ out k ≤ 32767 := by
  have hkw' := hkw
  have hkh' := hkh
  refine ⟨_, naive_eq fuel a input_ref output_ref biases_ref kernel_ref hsx hsy hfh hfw, ?_⟩
  intro k hk
  rw [write_outputs_eq]
  apply applyWrites_invariant (fun v => 0 ≤ v ∧ v ≤ 32767)
  · simp only [memsetZero, if_pos hk]; omega
  · intro e he
    obtain ⟨o, _, y, _, x, _, rfl⟩ := (mem_write_events a _ e).1 he
    simp only [output_value, post_pool]
    rw [wrap16_saturate, hrelu]
    have hp := pool_max_range a _ o y x (accumulate_cell_range a
      (stride_positions (a.input_feature_map_height - a.kernel_height + 1) a.kernel_stride_y)
      (stride_positions (a.input_feature_map_width - a.kernel_width + 1) a.kernel_stride_x)
      input_ref kernel_ref biases_ref)
    have ha0 : 0 ≤ activate NN_ACTIVATION_FUNCTION_RELU (pool_max a
        (accumulate a
          (stride_positions (a.input_feature_map_height - a.kernel_height + 1)
            a.kernel_stride_y)
          (stride_positions (a.input_feature_map_width - a.kernel_width + 1)
            a.kernel_stride_x)
          input_ref kernel_ref biases_ref (fun _ => 0)) o y x) := by
      simp only [activate]; omega
    have ha := activate_range NN_ACTIVATION_FUNCTION_RELU _ hp.1 hp.2
    have hr := rescale_nonneg _ _ hfr _ ha0 ha.2
    have hs := saturate_range (rescale a.accumulator_fraction a.output_fraction
      (activate NN_ACTIVATION_FUNCTION_RELU (pool_max a
        (accumulate a
          (stride_positions (a.input_feature_map_height - a.kernel_height + 1)
            a.kernel_stride_y)
          (stride_positions (a.input_feature_map_width - a.kernel_width + 1)
            a.kernel_stride_x)
          input_ref kernel_ref biases_ref (fun _ => 0)) o y x)))
    refine ⟨?_, hs.2⟩
    unfold saturate
    omega

theorem C27_relu_output_range_witness :
    ∃ out, ult_nn_maxpooling_naive 4 scenarioArgs rampBuf (constBuf 77) rampBuf scenarioKernel
        = some out
      ∧ ∀ k, k < output_cells scenarioArgs → 0 ≤ out k ∧ out k ≤ 32767 :=
  C27_relu_output_range 4 scenarioArgs rampBuf (constBuf 77) rampBuf scenarioKernel rfl
    (by decide) (by decide) (by decide) (by decide) (by decide) (by decide) (by decide)

/-- C28: for `accumulator_fraction ≥ output_fraction` and either activation, the post-pooling
stage is monotone non-decreasing on 32-bit pooled maxima, and the pooled maximum is monotone
non-decreasing in the entries of the intermediate map. -/
theorem C28_monotone (act : NN_ACTIVATION_FUNCTION) (af of : Nat) (hfr : of ≤ af) :
    (∀ m m' : Int, -2147483648 ≤ m → m' ≤ 2147483647 → m ≤ m' →
        post_pool act af of m ≤ post_pool act af of m')
    ∧ (∀ (a : NaiveArgs) (oi oi' : Buf) (o y x : Nat), (∀ k, oi k ≤ oi' k) →
        pool_max a oi o y x ≤ pool_max a oi' o y x)
    ∧ (∀ (a : NaiveArgs) (oi : Buf) (o y x k : Nat) (v : Int), oi k ≤ v →
        pool_max a oi o y x ≤ pool_max a (oi.set k v) o y x) := by
  refine ⟨?_, ?_, ?_⟩
  · intro m m' h1 h2 h
    unfold post_pool
    apply saturate_mono
    have ha := activate_range act m h1 (by omega)
    have ha' := activate_range act m' (by omega) h2
    exact rescale_mono af of hfr _ _ (activate_mono act m m' h) ha.1 ha'.2
  · intro a oi oi' o y x h
    exact pool_max_mono a oi oi' o y x h
  · intro a oi o y x k v h
    apply pool_max_mono
    intro j
    simp only [Buf.set]
    split
    · next hj => rw [hj]; exact h
    · exact le_refl _

theorem C28_monotone_witness :
    post_pool NN_ACTIVATION_FUNCTION_RELU 16 0 (-70000)
        ≤ post_pool NN_ACTIVATION_FUNCTION_RELU 16 0 70000
    ∧ pool_max scenarioArgs rampBuf 0 0 0 ≤ pool_max scenarioArgs (rampBuf.set 5 9) 0 0 0 :=
  ⟨(C28_monotone NN_ACTIVATION_FUNCTION_RELU 16 0 (by decide)).1 (-70000) 70000 (by decide)
      (by decide) (by decide),
   (C28_monotone NN_ACTIVATION_FUNCTION_RELU 16 0 (by decide)).2.2 scenarioArgs rampBuf 0 0 0 5 9
      (by decide)⟩

/-! ## The blocked weight offset and the declared weight layout -/

/-- C24: for an output-channel count that is a multiple of 32 and an even input-channel
count, the canonical weight `(o, c, kr, kc)` is stored by the weight-blocking loops of
`ult_nn_convolution_both_initialize_matrices` at offset
`(c mod 2) + 2*(o mod 32) + 64*(c div 2) + 64*(IFM/2)*(kr*KW + kc) + 64*(IFM/2)*KW*KH*(o div 32)`
of the blocked `kernel` buffer, and this offset is the one given by the axis order of
`weight_layout` with the extents `weight_coords`. -/
theorem C24_weight_offset_layout (m : Matrices) (inputT weightT : Buf)
    (OFM IFM OW OH W H KW KH cx cy : Nat) (hdvd : 32 ∣ OFM) (heven : 2 ∣ IFM)
    (o c kr kc : Nat) (ho : o < OFM) (hc : c < IFM) (hkr : kr < KH) (hkc : kc < KW) :
    (ult_nn_convolution_both_initialize_matrices m inputT weightT OFM IFM OW OH W H KW KH
        cx cy).kernel
      (c % 2 + 2 * (o % 32) + 64 * (c / 2) + 64 * (IFM / 2) * (kr * KW + kc)
        + 64 * (IFM / 2) * KW * KH * (o / 32))
      = (ult_nn_convolution_both_initialize_matrices m inputT weightT OFM IFM OW OH W H KW KH
          cx cy).kernel_ref (kc + kr * KW + c * KW * KH + o * KW * KH * IFM)
    ∧ c % 2 + 2 * (o % 32) + 64 * (c / 2) + 64 * (IFM / 2) * (kr * KW + kc)
        + 64 * (IFM / 2) * KW * KH * (o / 32)
      = layout_offset weight_layout (weight_coords KW KH IFM OFM) (weight_position o c kr kc)
    ∧ (∀ ax, weight_position o c kr kc ax < weight_coords KW KH IFM OFM ax)
    ∧ c % 2 + 2 * (o % 32) + 64 * (c / 2) + 64 * (IFM / 2) * (kr * KW + kc)
        + 64 * (IFM / 2) * KW * KH * (o / 32) < OFM * IFM * KW * KH := by
  have hoff := weight_offset_eq IFM KW KH o c kr kc hc hkr hkc
  have hform : c % 2 + 2 * (o % 32) + 64 * (c / 2) + 64 * (IFM / 2) * (kr * KW + kc)
      + 64 * (IFM / 2) * KW * KH * (o / 32) = weight_offset IFM KW KH o c kr kc := by
    rw [hoff]; ring
  have hs : kc + kr * KW + c * KW * KH + o * KW * KH * IFM < OFM * IFM * KW * KH := by
    have e : kc + kr * KW + c * KW * KH + o * KW * KH * IFM
        = (o * IFM + c) * (KW * KH) + (kr * KW + kc) := by ring
    have ht : kr * KW + kc < KW * KH := by
      have := radix_lt KH KW kr kc hkr hkc
      rwa [Nat.mul_comm KH KW] at this
    have h1 := radix_lt OFM IFM o c ho hc
    have h2 := radix_lt (OFM * IFM) (KW * KH) (o * IFM + c) (kr * KW + kc) h1 ht
    rw [e]
    calc (o * IFM + c) * (KW * KH) + (kr * KW + kc) < OFM * IFM * (KW * KH) := h2
      _ = OFM * IFM * KW * KH := by ring
  refine ⟨?_, ?_, ?_, ?_⟩
  · rw [hform]
    simp only [ult_nn_convolution_both_initialize_matrices]
    rw [block_kernel_weight OFM IFM KW KH hdvd heven _ _ o c kr kc ho hc hkr hkc]
    refine fill_kernel_agree OFM IFM KW KH _ _ (Or.inr ⟨o, List.mem_range.2 ho, c,
      List.mem_range.2 hc, kr, List.mem_range.2 hkr, kc, List.mem_range.2 hkc, rfl⟩)
  · simp only [layout_offset, weight_layout, weight_coords, weight_position, List.foldr,
      OFMBlock, OFMpBlock]
    ring
  · intro ax
    obtain ⟨q, rfl⟩ := hdvd
    obtain ⟨j, rfl⟩ := heven
    cases ax <;> simp only [weight_position, weight_coords, OFMBlock, OFMpBlock] <;> omega
  · rw [hform]
    unfold weight_offset
    have hs2 : kc + kr * KW + c * KW * KH + o * KW * KH * IFM < OFM * IFM * (KW * KH) := by
      rw [← Nat.mul_assoc]; exact hs
    have := kernel_blocked_index_lt 32 OFM IFM KW KH _ (by decide) hdvd heven hs2
    rw [← Nat.mul_assoc] at this
    exact this

theorem C24_weight_offset_layout_witness :
    (ult_nn_convolution_both_initialize_matrices (constMatrices 7) (constBuf 0) (constBuf 0)
        64 4 2 2 5 5 3 2 0 0).kernel
      (3 % 2 + 2 * (40 % 32) + 64 * (3 / 2) + 64 * (4 / 2) * (1 * 3 + 2)
        + 64 * (4 / 2) * 3 * 2 * (40 / 32))
      = (ult_nn_convolution_both_initialize_matrices (constMatrices 7) (constBuf 0) (constBuf 0)
          64 4 2 2 5 5 3 2 0 0).kernel_ref (2 + 1 * 3 + 3 * 3 * 2 + 40 * 3 * 2 * 4)
    ∧ 3 % 2 + 2 * (40 % 32) + 64 * (3 / 2) + 64 * (4 / 2) * (1 * 3 + 2)
        + 64 * (4 / 2) * 3 * 2 * (40 / 32)
      = layout_offset weight_layout (weight_coords 3 2 4 64) (weight_position 40 3 1 2)
    ∧ (∀ ax, weight_position 40 3 1 2 ax < weight_coords 3 2 4 64 ax)
    ∧ 3 % 2 + 2 * (40 % 32) + 64 * (3 / 2) + 64 * (4 / 2) * (1 * 3 + 2)
        + 64 * (4 / 2) * 3 * 2 * (40 / 32) < 64 * 4 * 3 * 2 :=
  C24_weight_offset_layout (constMatrices 7) (constBuf 0) (constBuf 0) 64 4 2 2 5 5 3 2 0 0
    (by decide) (by decide) 40 3 1 2 (by decide) (by decide) (by decide) (by decide)

/-! ## Accumulator indices on a tall convolution output -/

set_option maxRecDepth 100000 in
/-- C23: on the shape computed by `ult_perform_test` for an input 1 wide and 3 high with a 1x1
kernel (8 output maps, convolution output 1 wide and 3 high, so 24 accumulator cells), the
loop counter `hItr` reaches 2, the product of output map 7 at `hItr = 2` is accumulated at
index 27 and the pooling loop of output map 7 at `y = 2` reads index 27, both beyond the 24
cells; the product of output map 0 at `hItr = 2` goes to cell 6, which lies in the region of
output map 2, while the bias of the same position goes to cell 2.  With all inputs and weights
1 and all biases 0, cell 27 ends as 1, cell 2 as 0 and cell 6 as 3 (it collects the products
of output maps 0, 1 and 2). -/
theorem C23_tall_shape_overrun :
    tallArgs.num_output_feature_maps = 8
    ∧ tallArgs.output_feature_map_width_int = 1 ∧ tallArgs.output_feature_map_height_int = 3
    ∧ tallArgs.output_feature_map_width = 1 ∧ tallArgs.output_feature_map_height = 3
    ∧ tallArgs.num_output_feature_maps * tallArgs.output_feature_map_width_int
        * tallArgs.output_feature_map_height_int = 24
    ∧ strideIters 3 (tallArgs.input_feature_map_height - tallArgs.kernel_height + 1)
        tallArgs.kernel_stride_y 0 = some [0, 1, 2]
    ∧ product_index tallArgs 7 2 0 = 27
    ∧ pool_index tallArgs 7 2 0 0 0 = 27
    ∧ product_index tallArgs 0 2 0 = 6
    ∧ bias_index tallArgs 2 0 0 = 6
    ∧ bias_index tallArgs 0 2 0 = 2
    ∧ (intermediate 3 tallArgs (constBuf 1) (constBuf 0) (constBuf 1)).map
        (fun output_int => (output_int 27, output_int 2, output_int 6)) = some (1, 0, 3) := by
  decide

/-! ## The ramp fills in closed form -/

theorem wrap16_add_left (x y : Int) : wrap16 (wrap16 x + y) = wrap16 (x + y) := by
  unfold wrap16; omega

theorem foldl_range_inv {σ : Type} (P : Nat → σ → Prop) (f : σ → Nat → σ) (n : Nat)
    (hstep : ∀ s i, i < n → P i s → P (i + 1) (f s i)) (s : σ) (h0 : P 0 s) :
    P n ((List.range n).foldl f s) := by
  induction n with
  | zero => simpa using h0
  | succ n ih =>
    rw [List.range_succ, List.foldl_append]
    simp only [List.foldl_cons, List.foldl_nil]
    exact hstep _ n (Nat.lt_succ_self n) (ih (fun s i hi => hstep s i (Nat.lt_succ_of_lt hi)))

theorem ramp_row (old : Buf) (base : Nat) (v0 : Int) (p n : Nat)
    (g : RampState → Nat → RampState)
    (hval : ∀ s col, (g s col).value = wrap16 (s.value + 1))
    (hbuf : ∀ s col, (g s col).buf_ref = s.buf_ref.set (base + p + col) s.value)
    (s : RampState) (h : RampUpTo old base v0 p s) :
    RampUpTo old base v0 (p + n) ((List.range n).foldl g s) := by
  refine foldl_range_inv (fun i t => RampUpTo old base v0 (p + i) t) g n ?_ s h
  intro t i _ ht
  obtain ⟨hv, hb⟩ := ht
  refine ⟨?_, ?_⟩
  · rw [hval, hv, wrap16_add_left]
    congr 1
    push_cast
    ring
  · intro k
    rw [hbuf]
    simp only [Buf.set]
    by_cases hk : k = base + p + i
    · rw [if_pos hk, if_pos (by omega), hv]
      congr 2
      omega
    · rw [if_neg hk, hb k]
      by_cases hc : base ≤ k ∧ k < base + (p + i)
      · rw [if_pos hc, if_pos (by omega)]
      · rw [if_neg hc, if_neg (by omega)]

theorem ramp_block (old : Buf) (base : Nat) (v0 : Int) (Wd Ht : Nat)
    (g : RampState → Nat → Nat → RampState)
    (hval : ∀ s row col, (g s row col).value = wrap16 (s.value + 1))
    (hbuf : ∀ s row col, (g s row col).buf_ref = s.buf_ref.set (base + (row * Wd + col)) s.value)
    (s : RampState) (h : RampUpTo old base v0 0 s) :
    RampUpTo old base v0 (Ht * Wd)
      ((List.range Ht).foldl (fun s row => (List.range Wd).foldl (fun s col => g s row col) s)
        s) := by
  refine foldl_range_inv (fun i t => RampUpTo old base v0 (i * Wd) t) _ Ht ?_ s
    (by show RampUpTo old base v0 (0 * Wd) s; rw [Nat.zero_mul]; exact h)
  intro t i _ ht
  have := ramp_row old base v0 (i * Wd) Wd (fun s col => g s i col) (fun s col => hval s i col)
    (fun s col => by rw [hbuf, Nat.add_assoc]) t ht
  rw [Nat.succ_mul]
  exact this

theorem rampUpTo_init (s : RampState) (base : Nat) (v0 : Int) :
    RampUpTo s.buf_ref base v0 0 { s with value := wrap16 v0 } := by
  refine ⟨?_, ?_⟩
  · simp
  · intro k
    rw [if_neg (by omega)]

theorem filled_extend (old F : Buf) (p q : Nat) (v0 : Int) (s0 s1 : RampState)
    (h0 : FilledUpTo old F p s0) (h1 : RampUpTo s0.buf_ref p v0 q s1)
    (hF : ∀ k, p ≤ k → k < p + q → F k = wrap16 (v0 + ((k - p : Nat) : Int))) :
    FilledUpTo old F (p + q) s1 := by
  intro k
  rw [h1.2 k]
  by_cases hc : p ≤ k ∧ k < p + q
  · rw [if_pos hc, if_pos hc.2, hF k hc.1 hc.2]
  · rw [if_neg hc, h0 k]
    by_cases hk : k < p
    · rw [if_pos hk, if_pos (by omega)]
    · rw [if_neg hk, if_neg (by omega)]

theorem div_mod_of_block (S c k : Nat) (h1 : c * S ≤ k) (h2 : k < c * S + S) :
    k / S = c ∧ k % S = k - c * S := by
  obtain ⟨j, rfl⟩ := Nat.exists_eq_add_of_le h1
  have hj : j < S := by omega
  have hS : 0 < S := by omega
  refine ⟨?_, ?_⟩
  · rw [Nat.add_comm, Nat.add_mul_div_right _ _ hS, Nat.div_eq_of_lt hj, Nat.zero_add]
  · rw [Nat.add_comm, Nat.add_mul_mod_self_right, Nat.mod_eq_of_lt hj]
    omega

theorem fill_input_filled (IFM W H : Nat) (s : RampState) :
    FilledUpTo s.buf_ref (input_ramp W H) (IFM * (W * H)) (fill_input IFM W H s) := by
  unfold fill_input
  refine foldl_range_inv (fun i t => FilledUpTo s.buf_ref (input_ramp W H) (i * (W * H)) t) _
    IFM ?_ s ?_
  · intro t c _ ht
    have hb := ramp_block t.buf_ref (c * (W * H)) ((c : Int) * 256) W H
      (fun s row column =>
        { bufT := ult_nn_convolution_naive_set_input_value s.bufT W H column row c s.value
          buf_ref := ult_nn_convolution_naive_set_input_value s.buf_ref W H column row c s.value
          value := wrap16 (s.value + 1) })
      (fun _ _ _ => rfl)
      (fun s row col => by
        show ult_nn_convolution_naive_set_input_value s.buf_ref W H col row c s.value = _
        unfold ult_nn_convolution_naive_set_input_value
        have e : col + row * W + c * W * H = c * (W * H) + (row * W + col) := by ring
        rw [e])
      { t with value := wrap16 ((c : Int) * 256) } (rampUpTo_init t _ _)
    have he : (c + 1) * (W * H) = c * (W * H) + H * W := by ring
    rw [he]
    refine filled_extend _ _ _ _ _ t _ ht hb ?_
    intro k hk1 hk2
    have := div_mod_of_block (W * H) c k hk1 (by rw [Nat.mul_comm H W] at hk2; exact hk2)
    unfold input_ramp
    rw [this.1, this.2]
  · intro k
    show s.buf_ref k = if k < 0 * (W * H) then input_ramp W H k else s.buf_ref k
    rw [Nat.zero_mul, if_neg (by omega)]

theorem fill_kernel_filled (OFM IFM KW KH : Nat) (s : RampState) :
    FilledUpTo s.buf_ref (kernel_ramp IFM KW KH) (OFM * (IFM * (KW * KH)))
      (fill_kernel OFM IFM KW KH s) := by
  unfold fill_kernel
  refine foldl_range_inv
    (fun i t => FilledUpTo s.buf_ref (kernel_ramp IFM KW KH) (i * (IFM * (KW * KH))) t) _
    OFM ?_ s ?_
  · intro t o _ ht
    have hin := foldl_range_inv
      (fun i u => FilledUpTo s.buf_ref (kernel_ramp IFM KW KH) ((o * IFM + i) * (KW * KH)) u)
      (fun s input_map => (List.range KH).foldl
        (fun s row => (List.range KW).foldl
          (fun s column =>
            { bufT := ult_nn_convolution_naive_set_kernel_value s.bufT KW KH IFM column row
                input_map o s.value
              buf_ref := ult_nn_convolution_naive_set_kernel_value s.buf_ref KW KH IFM column
                row input_map o s.value
              value := wrap16 (s.value + 1) })
          s)
        { s with value := wrap16 ((input_map : Int) * 256 + (o : Int) * 8192) })
      IFM ?_ t ?_
    · have he : (o + 1) * (IFM * (KW * KH)) = (o * IFM + IFM) * (KW * KH) := by ring
      rw [he]
      exact hin
    · intro u c hc hu
      have hb := ramp_block u.buf_ref ((o * IFM + c) * (KW * KH))
        ((c : Int) * 256 + (o : Int) * 8192) KW KH
        (fun s row column =>
          { bufT := ult_nn_convolution_naive_set_kernel_value s.bufT KW KH IFM column row c o
              s.value
            buf_ref := ult_nn_convolution_naive_set_kernel_value s.buf_ref KW KH IFM column row
              c o s.value
            value := wrap16 (s.value + 1) })
        (fun _ _ _ => rfl)
        (fun s row col => by
          show ult_nn_convolution_naive_set_kernel_value s.buf_ref KW KH IFM col row c o s.value
            = _
          unfold ult_nn_convolution_naive_set_kernel_value
          have e : col + row * KW + c * KW * KH + o * KW * KH * IFM
              = (o * IFM + c) * (KW * KH) + (row * KW + col) := by ring
          rw [e])
        { u with value := wrap16 ((c : Int) * 256 + (o : Int) * 8192) } (rampUpTo_init u _ _)
      have he : (o * IFM + (c + 1)) * (KW * KH) = (o * IFM + c) * (KW * KH) + KH * KW := by ring
      show FilledUpTo s.buf_ref (kernel_ramp IFM KW KH) ((o * IFM + (c + 1)) * (KW * KH)) _
      rw [he]
      refine filled_extend _ _ _ _ _ u _ hu hb ?_
      intro k hk1 hk2
      have := div_mod_of_block (KW * KH) (o * IFM + c) k hk1
        (by rw [Nat.mul_comm KH KW] at hk2; exact hk2)
      have hIFM : 0 < IFM := by omega
      unfold kernel_ramp
      rw [this.1, this.2, Nat.mul_comm o IFM, Nat.mul_add_mod, Nat.mod_eq_of_lt hc,
        Nat.mul_add_div hIFM, Nat.div_eq_of_lt hc, Nat.add_zero]
    · show FilledUpTo s.buf_ref (kernel_ramp IFM KW KH) ((o * IFM + 0) * (KW * KH)) t
      have he : (o * IFM + 0) * (KW * KH) = o * (IFM * (KW * KH)) := by ring
      rw [he]
      exact ht
  · intro k
    show s.buf_ref k
      = if k < 0 * (IFM * (KW * KH)) then kernel_ramp IFM KW KH k else s.buf_ref k
    rw [Nat.zero_mul, if_neg (by omega)]

theorem input_ramp_canonical (W H c r w : Nat) (hr : r < H) (hw : w < W) :
    input_ramp W H (w + r * W + c * W * H)
      = wrap16 ((c : Int) * 256 + (r : Int) * (W : Int) + (w : Int)) := by
  have ht : r * W + w < H * W := radix_lt H W r w hr hw
  have e : w + r * W + c * W * H = c * (W * H) + (r * W + w) := by ring
  have := div_mod_of_block (W * H) c (c * (W * H) + (r * W + w)) (by omega)
    (by rw [Nat.mul_comm H W] at ht; omega)
  unfold input_ramp
  rw [e, this.1, this.2, Nat.add_sub_cancel_left]
  push_cast
  ring_nf

theorem kernel_ramp_canonical (IFM KW KH o c kr kc : Nat) (hc : c < IFM) (hkr : kr < KH)
    (hkc : kc < KW) :
    kernel_ramp IFM KW KH (kc + kr * KW + c * KW * KH + o * KW * KH * IFM)
      = wrap16 ((c : Int) * 256 + (o : Int) * 8192 + (kr : Int) * (KW : Int) + (kc : Int)) := by
  have ht : kr * KW + kc < KH * KW := radix_lt KH KW kr kc hkr hkc
  have e : kc + kr * KW + c * KW * KH + o * KW * KH * IFM
      = (o * IFM + c) * (KW * KH) + (kr * KW + kc) := by ring
  have := div_mod_of_block (KW * KH) (o * IFM + c) ((o * IFM + c) * (KW * KH) + (kr * KW + kc))
    (by omega) (by rw [Nat.mul_comm KH KW] at ht; omega)
  have hIFM : 0 < IFM := by omega
  unfold kernel_ramp
  rw [e, this.1, this.2, Nat.add_sub_cancel_left, Nat.mul_comm o IFM, Nat.mul_add_mod,
    Nat.mod_eq_of_lt hc, Nat.mul_add_div hIFM, Nat.div_eq_of_lt hc, Nat.add_zero]
  push_cast
  ring_nf

theorem init_input_ref (m : Matrices) (inputT weightT : Buf)
    (OFM IFM OW OH W H KW KH cx cy c r w : Nat) (hc : c < IFM) (hr : r < H) (hw : w < W) :
    (ult_nn_convolution_both_initialize_matrices m inputT weightT OFM IFM OW OH W H KW KH
        cx cy).input_ref (w + r * W + c * W * H)
      = wrap16 ((c : Int) * 256 + (r : Int) * (W : Int) + (w : Int)) := by
  have hk : w + r * W + c * W * H < IFM * (W * H) := by
    have h1 : r * W + w < H * W := radix_lt H W r w hr hw
    have h2 := radix_lt IFM (W * H) c (r * W + w) hc (by rw [Nat.mul_comm W H]; exact h1)
    have e : w + r * W + c * W * H = c * (W * H) + (r * W + w) := by ring
    omega
  simp only [ult_nn_convolution_both_initialize_matrices]
  rw [fill_input_filled IFM W H _ (w + r * W + c * W * H), if_pos hk,
    input_ramp_canonical W H c r w hr hw]

theorem init_kernel_ref (m : Matrices) (inputT weightT : Buf)
    (OFM IFM OW OH W H KW KH cx cy o c kr kc : Nat) (ho : o < OFM) (hc : c < IFM)
    (hkr : kr < KH) (hkc : kc < KW) :
    (ult_nn_convolution_both_initialize_matrices m inputT weightT OFM IFM OW OH W H KW KH
        cx cy).kernel_ref (kc + kr * KW + c * KW * KH + o * KW * KH * IFM)
      = wrap16 ((c : Int) * 256 + (o : Int) * 8192 + (kr : Int) * (KW : Int) + (kc : Int)) := by
  have hk : kc + kr * KW + c * KW * KH + o * KW * KH * IFM < OFM * (IFM * (KW * KH)) := by
    have h1 : kr * KW + kc < KH * KW := radix_lt KH KW kr kc hkr hkc
    have h2 := radix_lt OFM IFM o c ho hc
    have h3 := radix_lt (OFM * IFM) (KW * KH) (o * IFM + c) (kr * KW + kc) h2
      (by rw [Nat.mul_comm KW KH]; exact h1)
    have e : kc + kr * KW + c * KW * KH + o * KW * KH * IFM
        = (o * IFM + c) * (KW * KH) + (kr * KW + kc) := by ring
    have e2 : OFM * (IFM * (KW * KH)) = OFM * IFM * (KW * KH) := by ring
    omega
  simp only [ult_nn_convolution_both_initialize_matrices]
  rw [fill_kernel_filled OFM IFM KW KH _ (kc + kr * KW + c * KW * KH + o * KW * KH * IFM),
    if_pos hk, kernel_ramp_canonical IFM KW KH o c kr kc hc hkr hkc]

/-- C21 as stated fails: in the scenario of the spec (8 output maps, 1 input map, 2x2 kernel)
the weight of output map 4, input map 0, tap (0, 0) is stored as -32768, not as
`0*256 + 4*8192 + 0*2 + 0 = 32768`; and for an input 231 wide the cell of channel 0, row 142,
column 0 is stored as -32734, not as `0*256 + 142*231 + 0 = 32802`. -/
theorem C21_ramp_wraps :
    (ult_nn_convolution_both_initialize_matrices (constMatrices 0) (constBuf 0) (constBuf 0)
        8 1 2 2 5 5 2 2 0 0).kernel_ref (0 + 0 * 2 + 0 * 2 * 2 + 4 * 2 * 2 * 1) = -32768
    ∧ (ult_nn_convolution_both_initialize_matrices (constMatrices 0) (constBuf 0) (constBuf 0)
        8 1 2 2 5 5 2 2 0 0).kernel_ref (0 + 0 * 2 + 0 * 2 * 2 + 4 * 2 * 2 * 1)
      ≠ (0 : Int) * 256 + 4 * 8192 + 0 * 2 + 0
    ∧ (ult_nn_convolution_both_initialize_matrices (constMatrices 0) (constBuf 0) (constBuf 0)
        96 4 28 28 231 231 11 11 0 0).input_ref (0 + 142 * 231 + 0 * 231 * 231) = -32734
    ∧ (ult_nn_convolution_both_initialize_matrices (constMatrices 0) (constBuf 0) (constBuf 0)
        96 4 28 28 231 231 11 11 0 0).input_ref (0 + 142 * 231 + 0 * 231 * 231)
      ≠ (0 : Int) * 256 + 142 * 231 + 0 := by
  have hk := init_kernel_ref (constMatrices 0) (constBuf 0) (constBuf 0) 8 1 2 2 5 5 2 2 0 0
    4 0 0 0 (by decide) (by decide) (by decide) (by decide)
  have hi := init_input_ref (constMatrices 0) (constBuf 0) (constBuf 0) 96 4 28 28 231 231 11 11
    0 0 0 142 0 (by decide) (by decide) (by decide)
  have e1 : wrap16 (((0 : Nat) : Int) * 256 + ((4 : Nat) : Int) * 8192
      + ((0 : Nat) : Int) * ((2 : Nat) : Int) + ((0 : Nat) : Int)) = -32768 := by decide
  have e2 : wrap16 (((0 : Nat) : Int) * 256 + ((142 : Nat) : Int) * ((231 : Nat) : Int)
      + ((0 : Nat) : Int)) = -32734 := by decide
  rw [e1] at hk
  rw [e2] at hi
  refine ⟨hk, ?_, hi, ?_⟩
  · rw [hk]; decide
  · rw [hi]; decide

/-- C21 as amended: `ult_nn_convolution_both_initialize_matrices` stores in `input_ref`, at
channel `c`, row `r`, column `w`, the value `c*256 + r*width + w` reduced to a signed 16-bit
integer, in `kernel_ref`, at output map `o`, input map `c`, kernel row `kr`, column `kc`, the
value `c*256 + o*8192 + kr*kernel_width + kc` reduced to a signed 16-bit integer, and
`biases_ref[o] = o` reduced to 32 bits; each reduction is the identity when the value is at
most 32767 (for the bias: at most 2147483647). -/
theorem C21_ramp_fill (m : Matrices) (inputT weightT : Buf)
    (OFM IFM OW OH W H KW KH cx cy o c r w kr kc : Nat) (ho : o < OFM) (hc : c < IFM)
    (hr : r < H) (hw : w < W) (hkr : kr < KH) (hkc : kc < KW) :
    ((ult_nn_convolution_both_initialize_matrices m inputT weightT OFM IFM OW OH W H KW KH
          cx cy).input_ref (w + r * W + c * W * H)
        = wrap16 ((c : Int) * 256 + (r : Int) * (W : Int) + (w : Int))
      ∧ (c * 256 + r * W + w ≤ 32767 →
          (ult_nn_convolution_both_initialize_matrices m inputT weightT OFM IFM OW OH W H KW KH
            cx cy).input_ref (w + r * W + c * W * H) = ((c * 256 + r * W + w : Nat) : Int)))
    ∧ ((ult_nn_convolution_both_initialize_matrices m inputT weightT OFM IFM OW OH W H KW KH
          cx cy).kernel_ref (kc + kr * KW + c * KW * KH + o * KW * KH * IFM)
        = wrap16 ((c : Int) * 256 + (o : Int) * 8192 + (kr : Int) * (KW : Int) + (kc : Int))
      ∧ (c * 256 + o * 8192 + kr * KW + kc ≤ 32767 →
          (ult_nn_convolution_both_initialize_matrices m inputT weightT OFM IFM OW OH W H KW KH
            cx cy).kernel_ref (kc + kr * KW + c * KW * KH + o * KW * KH * IFM)
            = ((c * 256 + o * 8192 + kr * KW + kc : Nat) : Int)))
    ∧ ((ult_nn_convolution_both_initialize_matrices m inputT weightT OFM IFM OW OH W H KW KH
          cx cy).biases_ref o = wrap32 (o : Int)
      ∧ (o ≤ 2147483647 →
          (ult_nn_convolution_both_initialize_matrices m inputT weightT OFM IFM OW OH W H KW KH
            cx cy).biases_ref o = (o : Int))) := by
  have hi := init_input_ref m inputT weightT OFM IFM OW OH W H KW KH cx cy c r w hc hr hw
  have hk := init_kernel_ref m inputT weightT OFM IFM OW OH W H KW KH cx cy o c kr kc ho hc
    hkr hkc
  have hb : (ult_nn_convolution_both_initialize_matrices m inputT weightT OFM IFM OW OH W H KW
      KH cx cy).biases_ref o = wrap32 (o : Int) := by
    simp only [ult_nn_convolution_both_initialize_matrices]
    exact fill_biases_apply OFM _ o ho
  refine ⟨⟨hi, ?_⟩, ⟨hk, ?_⟩, ⟨hb, ?_⟩⟩
  · intro hle
    rw [hi]
    have : (c : Int) * 256 + (r : Int) * (W : Int) + (w : Int)
        = ((c * 256 + r * W + w : Nat) : Int) := by push_cast; ring
    rw [this]
    exact wrap16_of_range _ (by omega) (by omega)
  · intro hle
    rw [hk]
    have : (c : Int) * 256 + (o : Int) * 8192 + (kr : Int) * (KW : Int) + (kc : Int)
        = ((c * 256 + o * 8192 + kr * KW + kc : Nat) : Int) := by push_cast; ring
    rw [this]
    exact wrap16_of_range _ (by omega) (by omega)
  · intro hle
    rw [hb]
    exact wrap32_of_range _ (by omega) (by omega)

theorem C21_ramp_fill_witness :
    ((ult_nn_convolution_both_initialize_matrices (constMatrices 7) (constBuf 0) (constBuf 0)
          8 1 2 2 5 5 2 2 0 0).input_ref (3 + 4 * 5 + 0 * 5 * 5)
        = wrap16 (((0 : Nat) : Int) * 256 + ((4 : Nat) : Int) * ((5 : Nat) : Int)
            + ((3 : Nat) : Int))
      ∧ (0 * 256 + 4 * 5 + 3 ≤ 32767 →
          (ult_nn_convolution_both_initialize_matrices (constMatrices 7) (constBuf 0) (constBuf 0)
            8 1 2 2 5 5 2 2 0 0).input_ref (3 + 4 * 5 + 0 * 5 * 5)
            = ((0 * 256 + 4 * 5 + 3 : Nat) : Int)))
    ∧ ((ult_nn_convolution_both_initialize_matrices (constMatrices 7) (constBuf 0) (constBuf 0)
          8 1 2 2 5 5 2 2 0 0).kernel_ref (1 + 1 * 2 + 0 * 2 * 2 + 3 * 2 * 2 * 1)
        = wrap16 (((0 : Nat) : Int) * 256 + ((3 : Nat) : Int) * 8192
            + ((1 : Nat) : Int) * ((2 : Nat) : Int) + ((1 : Nat) : Int))
      ∧ (0 * 256 + 3 * 8192 + 1 * 2 + 1 ≤ 32767 →
          (ult_nn_convolution_both_initialize_matrices (constMatrices 7) (constBuf 0) (constBuf 0)
            8 1 2 2 5 5 2 2 0 0).kernel_ref (1 + 1 * 2 + 0 * 2 * 2 + 3 * 2 * 2 * 1)
            = ((0 * 256 + 3 * 8192 + 1 * 2 + 1 : Nat) : Int)))
    ∧ ((ult_nn_convolution_both_initialize_matrices (constMatrices 7) (constBuf 0) (constBuf 0)
          8 1 2 2 5 5 2 2 0 0).biases_ref 3 = wrap32 ((3 : Nat) : Int)
      ∧ (3 ≤ 2147483647 →
          (ult_nn_convolution_both_initialize_matrices (constMatrices 7) (constBuf 0) (constBuf 0)
            8 1 2 2 5 5 2 2 0 0).biases_ref 3 = ((3 : Nat) : Int))) :=
  C21_ramp_fill (constMatrices 7) (constBuf 0) (constBuf 0) 8 1 2 2 5 5 2 2 0 0 3 0 4 3 1 1
    (by decide) (by decide) (by decide) (by decide) (by decide) (by decide)

/-! ## The whole reference on square convolution outputs -/

theorem pool_max_square (a : NaiveArgs) (input_ref kernel_ref biases_ref : Buf) (n : Nat)
    (hW : a.output_feature_map_width_int = n) (hH : a.output_feature_map_height_int = n)
    (hsx : 1 ≤ a.kernel_stride_x) (hsy : 1 ≤ a.kernel_stride_y)
    (hifm : 1 ≤ a.num_input_feature_maps)
    (hpw : a.pool_width = a.pool_stride_x) (hph : a.pool_height = a.pool_stride_y)
    (hpsx : 1 ≤ a.pool_stride_x) (hpsy : 1 ≤ a.pool_stride_y) (o y x : Nat)
    (ho : o < a.num_output_feature_maps) (hy : y * a.pool_stride_y + a.pool_stride_y ≤ n)
    (hx : x * a.pool_stride_x + a.pool_stride_x ≤ n) :
    pool_max a
        (accumulate a ((List.range n).map fun y => y * a.kernel_stride_y)
          ((List.range n).map fun x => x * a.kernel_stride_x) input_ref kernel_ref biases_ref
          (fun _ => 0)) o y x
      = pipeline_max a input_ref kernel_ref biases_ref o y x := by
  have hcell := accumulate_square a input_ref kernel_ref biases_ref n hW hH hsx hsy hifm
  unfold pool_max pipeline_max
  rw [hpw, hph]
  refine foldl_rel (fun u v : Int => u = v) _ _ _ _ _ ?_ ?_
  · have e : o * a.output_feature_map_height_int * a.output_feature_map_width_int
        + y * a.pool_stride_y * a.output_feature_map_height_int + x * a.pool_stride_x
        = (o * n + y * a.pool_stride_y) * n + x * a.pool_stride_x := by
      rw [hW, hH]; ring
    rw [e]
    exact hcell o (y * a.pool_stride_y) (x * a.pool_stride_x) ho (by omega) (by omega)
  · intro b c dy hdy hbc
    have hdy2 := List.mem_range.1 hdy
    refine foldl_rel (fun u v : Int => u = v) _ _ _ _ _ hbc ?_
    intro b2 c2 dx hdx hbc2
    have hdx2 := List.mem_range.1 hdx
    have e : pool_index a o y x dy dx
        = (o * n + (y * a.pool_stride_y + dy)) * n + (x * a.pool_stride_x + dx) := by
      unfold pool_index
      rw [hW, hH]; ring
    show max b2 _ = max c2 _
    rw [e, hbc2, hcell o (y * a.pool_stride_y + dy) (x * a.pool_stride_x + dx) ho (by omega)
      (by omega)]

theorem pooled_window_fits (n p s y : Nat) (hp : p ≤ n) (hy : y < (n - p) / s + 1) :
    y * s + p ≤ n := by
  have h1 : y ≤ (n - p) / s := by omega
  have h2 : y * s ≤ (n - p) / s * s := Nat.mul_le_mul_right s h1
  have h3 : (n - p) / s * s ≤ n - p := Nat.div_mul_le_self _ _
  omega

/-- C22: when the convolution output is square and the pooling window equals the pooling
stride in both dimensions, for sizes given by the size formulas and every content of the
buffers, `ult_nn_maxpooling_naive` returns the output buffer that holds at
`(o, y + center_y, x + center_x)` the value
`clamp16(rescale(act(max over the pooling window at (y, x) of the 32-bit contract sums)))`
and 0 in every other cell of the padded output. -/
theorem C22_square_pipeline (fuel : Nat) (a : NaiveArgs)
    (input_ref output_ref biases_ref kernel_ref : Buf)
    (hsq : a.output_feature_map_width_int = a.output_feature_map_height_int)
    (hpw : a.pool_width = a.pool_stride_x) (hph : a.pool_height = a.pool_stride_y)
    (hW : a.output_feature_map_width_int
      = (a.input_feature_map_width - a.kernel_width) / a.kernel_stride_x + 1)
    (hH : a.output_feature_map_height_int
      = (a.input_feature_map_height - a.kernel_height) / a.kernel_stride_y + 1)
    (hOW : a.output_feature_map_width
      = (a.output_feature_map_width_int - a.pool_width) / a.pool_stride_x + 1)
    (hOH : a.output_feature_map_height
      = (a.output_feature_map_height_int - a.pool_height) / a.pool_stride_y + 1)
    (hkw : a.kernel_width ≤ a.input_feature_map_width)
    (hkh : a.kernel_height ≤ a.input_feature_map_height)
    (hsx : 1 ≤ a.kernel_stride_x) (hsy : 1 ≤ a.kernel_stride_y)
    (hpsx : 1 ≤ a.pool_stride_x) (hpsy : 1 ≤ a.pool_stride_y)
    (hpx : a.pool_width ≤ a.output_feature_map_width_int)
    (hpy : a.pool_height ≤ a.output_feature_map_height_int)
    (hifm : 1 ≤ a.num_input_feature_maps)
    (hfh : a.input_feature_map_height - a.kernel_height + 1 ≤ fuel)
    (hfw : a.input_feature_map_width - a.kernel_width + 1 ≤ fuel) :
    ∃ out, ult_nn_maxpooling_naive fuel a input_ref output_ref biases_ref kernel_ref = some out
      ∧ (∀ o y x, o < a.num_output_feature_maps → y < a.output_feature_map_height →
          x < a.output_feature_map_width →
          out ((o * padded_height a + (y + a.center_y)) * padded_width a + (x + a.center_x))
            = pipeline_output a input_ref kernel_ref biases_ref o y x)
      ∧ (∀ o row col, o < a.num_output_feature_maps → row < padded_height a →
          col < padded_width a →
          ¬ (a.center_y ≤ row ∧ row < a.center_y + a.output_feature_map_height
            ∧ a.center_x ≤ col ∧ col < a.center_x + a.output_feature_map_width) →
          out ((o * padded_height a + row) * padded_width a + col) = 0) := by
  have hkw2 := hkw
  have hkh2 := hkh
  refine ⟨_, naive_eq fuel a input_ref output_ref biases_ref kernel_ref hsx hsy hfh hfw, ?_, ?_⟩
  · intro o y x ho hy hx
    rw [← output_index_radix, write_outputs_inside a _ _ o y x ho hy hx]
    simp only [output_value, post_pool, pipeline_output]
    rw [wrap16_saturate, stride_positions_eq _ _ _ hsy, stride_positions_eq _ _ _ hsx, ← hH,
      ← hW, hsq]
    rw [pool_max_square a input_ref kernel_ref biases_ref a.output_feature_map_height_int hsq rfl
      hsx hsy hifm hpw hph hpsx hpsy o y x ho]
    · have h := pooled_window_fits a.output_feature_map_height_int a.pool_height
        a.pool_stride_y y hpy (by rw [← hOH]; exact hy)
      rw [hph] at h
      exact h
    · have h := pooled_window_fits a.output_feature_map_width_int a.pool_width
        a.pool_stride_x x hpx (by rw [← hOW]; exact hx)
      rw [hpw, hsq] at h
      exact h
  · intro o row col ho hrow hcol hout
    rw [write_outputs_outside a _ _ o row col hrow hcol hout]
    have hlt : (o * padded_height a + row) * padded_width a + col < output_cells a := by
      have h1 : o * padded_height a + row < a.num_output_feature_maps * padded_height a :=
        radix_lt _ _ _ _ ho hrow
      have h2 := radix_lt _ _ _ _ h1 hcol
      have h3 : output_cells a = a.num_output_feature_maps * padded_height a * padded_width a := by
        unfold output_cells padded_height padded_width; ring
      omega
    simp only [memsetZero, if_pos hlt]

theorem C22_square_pipeline_witness :
    ∃ out, ult_nn_maxpooling_naive 2 haloArgs rampBuf (constBuf 77) (constBuf 5) (constBuf 1)
        = some out
      ∧ (∀ o y x, o < haloArgs.num_output_feature_maps → y < haloArgs.output_feature_map_height →
          x < haloArgs.output_feature_map_width →
          out ((o * padded_height haloArgs + (y + haloArgs.center_y)) * padded_width haloArgs
              + (x + haloArgs.center_x))
            = pipeline_output haloArgs rampBuf (constBuf 1) (constBuf 5) o y x)
      ∧ (∀ o row col, o < haloArgs.num_output_feature_maps → row < padded_height haloArgs →
          col < padded_width haloArgs →
          ¬ (haloArgs.center_y ≤ row ∧ row < haloArgs.center_y + haloArgs.output_feature_map_height
            ∧ haloArgs.center_x ≤ col
            ∧ col < haloArgs.center_x + haloArgs.output_feature_map_width) →
          out ((o * padded_height haloArgs + row) * padded_width haloArgs + col) = 0) :=
  C22_square_pipeline 2 haloArgs rampBuf (constBuf 77) (constBuf 5) (constBuf 1) (by decide)
    (by decide) (by decide) (by decide) (by decide) (by decide) (by decide) (by decide)
    (by decide) (by decide) (by decide) (by decide) (by decide) (by decide) (by decide)
    (by decide) (by decide) (by decide)

/-! ## The driver against the modelled engine -/

set_option maxRecDepth 100000 in
/-- The modelled engine evaluated on a small work item (8 output maps, 8 input maps, 3x3
input of ones, 2x2 kernel of twos, stride 1, bias `o`, halo 1, output buffer full of 77):
the cell inside the view of output map 3 holds `3 + 8 * 4 * (1 * 2) = 67`, and the halo
cells of output map 0 keep the 77 they held. -/
theorem engine_canonical_example :
    engine_canonical
        (ult_nn_convolution_initialize_work_item (constBuf 1) rampBuf (constBuf 77) (constBuf 2)
          8 8 1 1 3 3 2 2 1 1 2 2 2 2 0 0 1 1 NN_ACTIVATION_FUNCTION_RELU) (3 * 9 + 4) = 67
    ∧ (List.range 4).map (engine_canonical
        (ult_nn_convolution_initialize_work_item (constBuf 1) rampBuf (constBuf 77) (constBuf 2)
          8 8 1 1 3 3 2 2 1 1 2 2 2 2 0 0 1 1 NN_ACTIVATION_FUNCTION_RELU))
      = [77, 77, 77, 77] := by
  decide

end Idlf
